import Mathlib

/-!
# Cloudreve: admission validation, proxy address rewriting, metadata extraction

A shallow embedding of

* `pkg/filemanager/fs/dbfs/validator.go` (file admission checks),
* `pkg/filemanager/driver/util.go` (`ApplyProxyIfNeeded`),
* `pkg/mediameta/extractor.go` (the extractor registry and pipeline),

together with the parts of the Go standard library these functions call
(`path.Clean`, `path.Join`, `strings.TrimPrefix`, `url.Values`).

Go strings are byte sequences, so a string is a list of bytes and `len` is the
list length.  `int64` values are integers, and the one place where the code
adds two of them (`validateUserCapacityRaw`) wraps the sum modulo `2^64`.

The extraction pipeline works on state: the context and the source are passed
from call to call, an extractor is a function of what it is handed, and
`extractorManager.Extract` is given a log of the calls it makes, in order.
-/

namespace Cloudreve

/-! ## Go strings -/

/-- A byte. -/
abbrev Byte := Fin 256

/-- A Go string: a finite sequence of bytes. -/
abbrev GoString := List Byte

/-- The byte string of an ASCII literal. -/
def ascii (s : String) : GoString := s.toList.map (fun c => Fin.ofNat c.toNat)

/-! ## int64 arithmetic -/

/-- The values representable in an `int64`. -/
def isInt64 (x : Int) : Prop := -(2 : Int) ^ 63 ≤ x ∧ x < (2 : Int) ^ 63

instance (x : Int) : Decidable (isInt64 x) := by unfold isInt64; infer_instance

/-- Two's complement wrap-around of an integer into the `int64` range. -/
def wrapInt64 (x : Int) : Int := (x + (2 : Int) ^ 63) % (2 : Int) ^ 64 - (2 : Int) ^ 63

/-- Go's `+` on `int64`. -/
def addInt64 (a b : Int) : Int := wrapInt64 (a + b)

/-! ## Data model -/

/-- Modelled from the spec: the type `ent.StoragePolicy` is declared outside the
embedded files; these are the fields of its `Settings` that the code reads. -/
structure PolicySetting where
  FileType : List GoString := []
  IsFileTypeDenyList : Bool := false
  NameRegexp : GoString := []
  IsNameRegexpDenyList : Bool := false
  CustomProxy : Bool := false
  ProxyServer : GoString := []
deriving DecidableEq, Repr

/-- Modelled from the spec: the fields of `ent.StoragePolicy` that the code
reads; `MaxSize` is an `int64`. -/
structure StoragePolicy where
  Settings : PolicySetting := {}
  MaxSize : Int := 0
deriving DecidableEq, Repr

/-- Modelled from the spec: the snapshot `fs.Capacity`, two `int64` fields. -/
structure Capacity where
  Used : Int
  Total : Int
deriving DecidableEq, Repr

/-- The errors built with `fmt.Errorf` in validator.go, one constructor per
message. -/
inductive NameError where
  /-- "length of name must be between 1 and 255" -/
  | nameLength
  /-- "name contains illegal characters" -/
  | illegalChars
  /-- "name cannot be only dot" -/
  | onlyDot
  /-- "file extension is not allowed" -/
  | extNotAllowed
  /-- "invalid file name regexp: %s", with the text of the compile error -/
  | invalidRegexp (err : GoString)
  /-- "file name is not allowed by regexp" -/
  | notAllowedByRegexp
deriving DecidableEq, Repr

/-- Modelled from the spec: the kinds of the application errors of package `fs`
that the code returns; the package is outside the embedded files. -/
inductive ErrCode where
  | IllegalObjectName
  | FileTooLarge
  | InsufficientCapacity
deriving DecidableEq, Repr

/-- Modelled from the spec: an application error of package `fs`, its kind and
the raw error it wraps, if any. -/
structure AppError where
  code : ErrCode
  raw : Option NameError := none
deriving DecidableEq, Repr

/-- Modelled from the spec: the value `fs.ErrIllegalObjectName`. -/
def ErrIllegalObjectName : AppError := { code := .IllegalObjectName }

/-- Modelled from the spec: the value `fs.ErrFileSizeTooBig`. -/
def ErrFileSizeTooBig : AppError := { code := .FileTooLarge }

/-- Modelled from the spec: the value `fs.ErrInsufficientCapacity`. -/
def ErrInsufficientCapacity : AppError := { code := .InsufficientCapacity }

/-- Modelled from the spec: the method `WithError` of an application error, a
copy of the error that wraps `err`. -/
def AppError.WithError (e : AppError) (err : NameError) : AppError :=
  { e with raw := some err }

/-- Whether an error is of the kind of `fs.ErrIllegalObjectName`, whatever it
wraps. -/
def AppError.isIllegalObjectName (e : AppError) : Bool :=
  e.code == ErrCode.IllegalObjectName

/-- The membership test `util.IsInExtensionList(extList, fileName)`, a
collaborator outside the embedded files. -/
abbrev ExtensionTest := List GoString → GoString → Bool

/-- The regex engine `regexp.MatchString(pattern, s)`: whether `s` matches, or
the text of the compile error of a malformed pattern. -/
abbrev RegexpEngine := GoString → GoString → Except GoString Bool

/-! ## validator.go -/

/-- The constant `MaxFileNameLength`. -/
def MaxFileNameLength : Nat := 256

/-- The characters of the literal `"\\/:*?\"<>|"`. -/
def illegalNameChars : GoString := ascii "\\/:*?\"<>|"

/-- Go's `strings.ContainsAny(s, chars)` for a set `chars` of ASCII
characters: some byte of `s` is one of them. -/
def containsAny (s chars : GoString) : Bool := s.any (fun b => chars.contains b)

/-- The function `validateFileName`. -/
def validateFileName (name : GoString) : Option NameError :=
  if name.length ≥ MaxFileNameLength ∨ name.length = 0 then
    some .nameLength
  else if containsAny name illegalNameChars then
    some .illegalChars
  else if name = ascii "." ∨ name = ascii ".." then
    some .onlyDot
  else
    none

/-- The function `validateExtension`. -/
def validateExtension (isInExtensionList : ExtensionTest) (name : GoString)
    (policy : StoragePolicy) : Option NameError :=
  if policy.Settings.FileType.length = 0 then
    none
  else
    let inList := isInExtensionList policy.Settings.FileType name
    if (policy.Settings.IsFileTypeDenyList && inList) ||
        (!policy.Settings.IsFileTypeDenyList && !inList) then
      some .extNotAllowed
    else
      none

/-- The function `validateFileNameRegexp`. -/
def validateFileNameRegexp (matchString : RegexpEngine) (name : GoString)
    (policy : StoragePolicy) : Option NameError :=
  if policy.Settings.NameRegexp = [] then
    none
  else
    match matchString policy.Settings.NameRegexp name with
    | .error err => some (.invalidRegexp err)
    | .ok isMatch =>
      if (policy.Settings.IsNameRegexpDenyList && isMatch) ||
          (!policy.Settings.IsNameRegexpDenyList && !isMatch) then
        some .notAllowedByRegexp
      else
        none

/-- The function `validateFileSize`. -/
def validateFileSize (size : Int) (policy : StoragePolicy) : Option AppError :=
  if policy.MaxSize = 0 then
    none
  else if size > policy.MaxSize then
    some ErrFileSizeTooBig
  else
    none

/-- The function `validateNewFile`. -/
def validateNewFile (isInExtensionList : ExtensionTest) (matchString : RegexpEngine)
    (fileName : GoString) (size : Int) (policy : StoragePolicy) : Option AppError :=
  match validateFileName fileName with
  | some err => some (ErrIllegalObjectName.WithError err)
  | none =>
    match validateExtension isInExtensionList fileName policy with
    | some err => some (ErrIllegalObjectName.WithError err)
    | none =>
      match validateFileNameRegexp matchString fileName policy with
      | some err => some (ErrIllegalObjectName.WithError err)
      | none =>
        match validateFileSize size policy with
        | some err => some err
        | none => none

/-- The method `validateUserCapacityRaw`; the sum is an `int64` sum. -/
def validateUserCapacityRaw (size : Int) (capacity : Capacity) : Option AppError :=
  if addInt64 capacity.Used size > capacity.Total then
    some ErrInsufficientCapacity
  else
    none

/-! ## Go standard library: strings and path -/

/-- Go's `strings.TrimPrefix(s, prefix)`. -/
def TrimPrefix (s pre : GoString) : GoString :=
  if pre.isPrefixOf s then s.drop pre.length else s

/-- The loop `for out.w > dotdot && out.index(out.w) != '/' { out.w-- }` of
`path.Clean`, as a function of the write index `w`; it returns the final `w`. -/
def backtrackLoop (buf : GoString) (dotdot : Nat) : Nat → Nat
  | 0 => 0
  | w + 1 =>
    if w + 1 > dotdot ∧ buf[w + 1]? ≠ some 47 then
      backtrackLoop buf dotdot w
    else
      w + 1

/-- The state of the main loop of `path.Clean`: the input from index `r` on,
the bytes written so far (`out.w` is their number) and the index `dotdot`. -/
structure CleanState where
  rest : GoString
  out : GoString
  dotdot : Nat
deriving DecidableEq, Repr

/-- One iteration of the main loop of `path.Clean`, entered with `r < n`. -/
def cleanStep (rooted : Bool) (st : CleanState) : CleanState :=
  match st.rest with
  | [] => st
  | c :: t =>
    if c = 47 then
      -- empty path element
      { st with rest := t }
    else if c = 46 ∧ (t = [] ∨ t.head? = some 47) then
      -- . element
      { st with rest := t }
    else if c = 46 ∧ t.head? = some 46 ∧ (t.tail = [] ∨ t.tail.head? = some 47) then
      -- .. element: remove to last /
      if st.out.length > st.dotdot then
        { st with rest := t.tail
                  out := st.out.take (backtrackLoop st.out st.dotdot (st.out.length - 1)) }
      else if !rooted then
        let out1 := if st.out.length > 0 then st.out ++ [47] else st.out
        let out2 := out1 ++ [46, 46]
        { rest := t.tail, out := out2, dotdot := out2.length }
      else
        { st with rest := t.tail }
    else
      -- real path element: add slash if needed, copy element
      let out1 :=
        if (rooted ∧ st.out.length ≠ 1) ∨ (¬ rooted ∧ st.out.length ≠ 0) then
          st.out ++ [47]
        else
          st.out
      { st with rest := st.rest.dropWhile (fun b => b ≠ 47)
                out := out1 ++ st.rest.takeWhile (fun b => b ≠ 47) }

/-- The main loop `for r < n` of `path.Clean`, run for at most `fuel`
iterations; every iteration reads at least one byte, so `n` iterations are
enough. -/
def cleanLoop (rooted : Bool) : Nat → CleanState → CleanState
  | 0, st => st
  | fuel + 1, st =>
    if st.rest = [] then st else cleanLoop rooted fuel (cleanStep rooted st)

/-- Go's `path.Clean(path)`. -/
def Clean (path : GoString) : GoString :=
  if path = [] then
    ascii "."
  else
    let rooted : Bool := path.head? = some 47
    let init : CleanState :=
      if rooted then { rest := path.drop 1, out := [47], dotdot := 1 }
      else { rest := path, out := [], dotdot := 0 }
    let st := cleanLoop rooted path.length init
    if st.out.length = 0 then ascii "." else st.out

/-- Go's `path.Join(elem...)`: the elements from the first non-empty one on,
joined with slashes and cleaned; the empty string when all are empty. -/
def Join (elems : List GoString) : GoString :=
  match elems.dropWhile (fun e => e = []) with
  | [] => []
  | e :: es => Clean ([47].intercalate (e :: es))

/-! ## Go standard library: net/url -/

/-- Go's `url.Userinfo`. -/
structure Userinfo where
  username : GoString := []
  password : GoString := []
  passwordSet : Bool := false
deriving DecidableEq, Repr

/-- Go's `url.URL`. -/
structure URL where
  Scheme : GoString := []
  Opaque : GoString := []
  User : Option Userinfo := none
  Host : GoString := []
  Path : GoString := []
  RawPath : GoString := []
  OmitHost : Bool := false
  ForceQuery : Bool := false
  RawQuery : GoString := []
  Fragment : GoString := []
  RawFragment : GoString := []
deriving DecidableEq, Repr

/-- Go's `url.Values`, a `map[string][]string`: a finite map with distinct
keys. -/
abbrev Values := AList (fun _ : GoString => List GoString)

/-- The map index expression `v[key]`: the nil slice for a missing key. -/
def Values.index (v : Values) (key : GoString) : List GoString :=
  (v.lookup key).getD []

/-- Go's `Values.Get`: the first value of the key, or the empty string. -/
def Values.Get (v : Values) (key : GoString) : GoString :=
  match v.index key with
  | [] => []
  | x :: _ => x

/-- Go's `Values.Set`: the key is given the single value `value`. -/
def Values.Set (v : Values) (key value : GoString) : Values :=
  v.insert key [value]

/-- The statement `m[key] = append(m[key], value)` of `parseQuery`. -/
def Values.append (v : Values) (key value : GoString) : Values :=
  v.insert key (v.index key ++ [value])

/-- Go's `shouldEscape(c, encodeQueryComponent)`: everything but letters,
digits and the marks `-`, `_`, `.`, `~`. -/
def shouldEscape (c : Byte) : Bool :=
  if (97 ≤ c ∧ c ≤ 122) ∨ (65 ≤ c ∧ c ≤ 90) ∨ (48 ≤ c ∧ c ≤ 57) then false
  else if c = 45 ∨ c = 95 ∨ c = 46 ∨ c = 126 then false
  else true

/-- The table `upperhex = "0123456789ABCDEF"`, indexed by a nibble. -/
def upperhex (n : Nat) : Byte :=
  (ascii "0123456789ABCDEF").getD n 0

/-- What `escape(s, encodeQueryComponent)` writes for one byte. -/
def escapeByte (c : Byte) : GoString :=
  if c = 32 then [43]
  else if shouldEscape c then [37, upperhex (c.val >>> 4), upperhex (c.val &&& 15)]
  else [c]

/-- Go's `url.QueryEscape`. -/
def QueryEscape (s : GoString) : GoString :=
  s.flatMap escapeByte

/-- Go's `ishex`. -/
def ishex (c : Byte) : Bool :=
  (48 ≤ c ∧ c ≤ 57) ∨ (97 ≤ c ∧ c ≤ 102) ∨ (65 ≤ c ∧ c ≤ 70)

/-- Go's `unhex`. -/
def unhex (c : Byte) : Nat :=
  if 48 ≤ c ∧ c ≤ 57 then c.val - 48
  else if 97 ≤ c ∧ c ≤ 102 then c.val - 97 + 10
  else if 65 ≤ c ∧ c ≤ 70 then c.val - 65 + 10
  else 0

/-- Go's `url.QueryUnescape`, with `none` for an `EscapeError`. -/
def QueryUnescape : GoString → Option GoString
  | [] => some []
  | c :: rest =>
    if c = 37 then
      match rest with
      | h1 :: h2 :: t =>
        if ishex h1 ∧ ishex h2 then
          (QueryUnescape t).map (fun u => Fin.ofNat (unhex h1 <<< 4 ||| unhex h2) :: u)
        else
          none
      | _ => none
    else if c = 43 then
      (QueryUnescape rest).map (fun u => 32 :: u)
    else
      (QueryUnescape rest).map (fun u => c :: u)

/-- Go's `strings.Cut(s, sep)` for a one-byte separator, without the flag:
the text before and after the first `sep`, or `s` and the empty string. -/
def Cut (s : GoString) (sep : Byte) : GoString × GoString :=
  (s.takeWhile (fun b => b ≠ sep), (s.dropWhile (fun b => b ≠ sep)).drop 1)

/-- The body of the loop of Go's `parseQuery` for one `&`-separated piece
`key`; a piece that is skipped leaves the map as it is. -/
def parseQueryPiece (m : Values) (key : GoString) : Values :=
  if key.contains 59 then m
  else if key = [] then m
  else
    match QueryUnescape (Cut key 61).1, QueryUnescape (Cut key 61).2 with
    | some k, some value => m.append k value
    | _, _ => m

/-- The loop `for query != ""` of Go's `parseQuery`, which cuts `query` at its
first `&` in every iteration, run for at most `fuel` iterations; every
iteration shortens `query`, so `len(query)` iterations are enough. -/
def parseQueryLoop : Nat → Values → GoString → Values
  | 0, m, _ => m
  | fuel + 1, m, query =>
    if query = [] then m
    else parseQueryLoop fuel (parseQueryPiece m (Cut query 38).1) (Cut query 38).2

/-- The constant `defaultMaxParams` of Go's net/url: the default of the limit
`urlmaxqueryparams` on the number of parameters of a query. -/
def defaultMaxParams : Nat := 10000

/-- Go's `urlParamsWithinMax`, with the setting `urlmaxqueryparams` left at its
default. -/
def urlParamsWithinMax (params : Nat) : Bool :=
  decide (params ≤ defaultMaxParams)

/-- Go's `parseQuery` (`;` is no separator), with the error dropped as
`URL.Query` does. A query with more `&`-separated parameters than the limit,
`strings.Count(query, "&") + 1` of them, fails before anything is parsed and
leaves the map as it is. -/
def parseQuery (m : Values) (query : GoString) : Values :=
  if ¬ urlParamsWithinMax (query.count 38 + 1) then m
  else parseQueryLoop query.length m query

/-- Go's `URL.Query`: the parsed `RawQuery`, the malformed pairs dropped; the
empty map for a `RawQuery` with more parameters than the limit. -/
def URL.Query (u : URL) : Values :=
  parseQuery ∅ u.RawQuery

/-- The keys of the map in the order of `slices.Sort`, the bytewise
lexicographic order of Go strings. -/
def sortedKeys (v : Values) : List GoString :=
  v.keys.insertionSort (fun a b => a ≤ b)

/-- What `Values.Encode` writes for one key and one of its values:
`QueryEscape(k)`, `=` and `QueryEscape(v)`. -/
def encodePair (k value : GoString) : GoString :=
  QueryEscape k ++ [61] ++ QueryEscape value

/-- Go's `Values.Encode`: `key=value` pairs, escaped, sorted by key and joined
with `&`. -/
def Values.Encode (v : Values) : GoString :=
  [38].intercalate
    ((sortedKeys v).flatMap (fun k => (v.index k).map (fun value => encodePair k value)))

/-- The key and value pairs of the map in the order `Values.Encode` writes
them. -/
def Values.pairs (v : Values) : List (GoString × GoString) :=
  (sortedKeys v).flatMap (fun k => (v.index k).map (fun value => (k, value)))

/-- The values that a list of pairs holds for a key, in order. -/
def valuesFor (k : GoString) (ps : List (GoString × GoString)) : List GoString :=
  (ps.filter (fun p => p.1 = k)).map (fun p => p.2)

/-! ## driver/util.go -/

/-- The function `ApplyProxyIfNeeded`; `parse` is Go's `url.Parse`, and an
error is the text wrapped by `fmt.Errorf`. -/
def ApplyProxyIfNeeded (parse : GoString → Except GoString URL)
    (policy : StoragePolicy) (srcUrl : URL) : Except GoString URL :=
  if policy.Settings.CustomProxy then
    match parse policy.Settings.ProxyServer with
    | .error err => .error (ascii "failed to parse proxy URL: " ++ err)
    | .ok proxy =>
      let proxy1 : URL :=
        if proxy.Path ≠ [] ∧ proxy.Path ≠ ascii "/" then
          { proxy with Path := Join [proxy.Path, TrimPrefix srcUrl.Path (ascii "/")] }
        else
          { proxy with RawPath := srcUrl.RawPath, Path := srcUrl.Path }
      let q := proxy1.Query
      let proxy2 : URL :=
        if q.keys.length = 0 then
          { proxy1 with RawQuery := srcUrl.RawQuery }
        else
          -- Merge query parameters
          let srcQ := srcUrl.Query
          let merged := srcQ.keys.foldl (fun acc k => acc.Set k (srcQ.Get k)) q
          { proxy1 with RawQuery := merged.Encode }
      .ok proxy2
  else
    .ok srcUrl

/-- A query with as many parameters as net/url parses at most, 10000 of them:
`a=&a=&...&a=`, the key `a` with the empty value over and over. -/
def fullQuery : GoString :=
  [38].intercalate (List.replicate defaultMaxParams (ascii "a="))

/-! ## Segment view of a cleaned path -/

/-- The element stack that `path.Clean` keeps for a rooted path, as a function
of the slash-separated segments still to read: an empty segment and `.` are
skipped, `..` removes the last element (if any) and any other segment is
added. -/
def resolveSegments (stack : List GoString) : List GoString → List GoString
  | [] => stack
  | s :: ss =>
    if s = [] ∨ s = ascii "." then resolveSegments stack ss
    else if s = ascii ".." then resolveSegments stack.dropLast ss
    else resolveSegments (stack ++ [s]) ss

/-- The segments written one after the other, each preceded by a slash. -/
def slashed (ss : List GoString) : GoString := (ss.map (fun s => (47 : Byte) :: s)).flatten

/-- The rooted path with the given elements: `/` when there is none. -/
def rootedPath (stack : List GoString) : GoString :=
  if stack = [] then [47] else slashed stack

/-- A segment that may sit on the element stack: non-empty and without a
slash. -/
def plainSegment (s : GoString) : Prop := s ≠ [] ∧ (47 : Byte) ∉ s

/-- A segment of a cleaned path: non-empty, without a slash, and neither `.`
nor `..`. -/
def goodSegment (s : GoString) : Prop :=
  s ≠ [] ∧ (47 : Byte) ∉ s ∧ s ≠ ascii "." ∧ s ≠ ascii ".."

/-- A regex engine that agrees with Go's `regexp.MatchString` on the pattern
"(": the pattern does not compile.  Every other pattern is taken to match. -/
def unclosedGroupEngine : RegexpEngine := fun pattern _ =>
  if pattern = ascii "(" then
    .error (ascii "error parsing regexp: missing closing ): `(`")
  else
    .ok true

/-- The policy with the flag `IsFileTypeDenyList` set to `b`. -/
def withFileTypeDenyList (policy : StoragePolicy) (b : Bool) : StoragePolicy :=
  { policy with Settings := { policy.Settings with IsFileTypeDenyList := b } }

/-- The policy with the flag `IsNameRegexpDenyList` set to `b`. -/
def withNameRegexpDenyList (policy : StoragePolicy) (b : Bool) : StoragePolicy :=
  { policy with Settings := { policy.Settings with IsNameRegexpDenyList := b } }

/-- The path that is not rooted with `k` leading `..` elements followed by the
given elements, joined by slashes: the empty string when there is none. -/
def relPath (k : Nat) (stack : List GoString) : GoString :=
  (slashed (List.replicate k (ascii "..") ++ stack)).drop 1

/-- The number of leading `..` elements and the element stack that
`path.Clean` keeps for a path that is not rooted, as a function of the
slash-separated segments still to read: an empty segment and `.` are skipped,
`..` removes the last element, or is kept as one more leading `..` when there
is no element, and any other segment is added. -/
def resolveRel (k : Nat) (stack : List GoString) : List GoString → Nat × List GoString
  | [] => (k, stack)
  | s :: ss =>
    if s = [] ∨ s = ascii "." then resolveRel k stack ss
    else if s = ascii ".." then
      if stack = [] then resolveRel (k + 1) [] ss else resolveRel k stack.dropLast ss
    else resolveRel k (stack ++ [s]) ss

/-- Whether a path never climbs above the directory it starts from: reading
its slash-separated segments from `depth` elements below that directory, an
empty segment and `.` stay where they are, any other segment but `..` goes one
element down, and every `..` finds an element to go up from. -/
def staysBeneath : Nat → List GoString → Bool
  | _, [] => true
  | depth, s :: ss =>
    if s = [] ∨ s = ascii "." then staysBeneath depth ss
    else if s = ascii ".." then
      match depth with
      | 0 => false
      | d + 1 => staysBeneath d ss
    else staysBeneath (depth + 1) ss

/-! ## mediameta/extractor.go -/

/-- Modelled from the spec: the record `driver.MediaMeta`, declared outside the
embedded files: a key and a value with the kind of the extractor that produced
them (the field `Type` of the record is written `Kind`, `Type` being a
keyword). -/
structure MediaMeta where
  Key : GoString := []
  Value : GoString := []
  Kind : GoString := []
deriving DecidableEq, Repr

/-- The errors an extractor returns: the value `ErrFileTooLarge`, or any other
error, given by its text. -/
inductive MetaError where
  /-- `errors.New("file too large")` -/
  | ErrFileTooLarge
  | other (msg : GoString)
deriving DecidableEq, Repr

/-- Modelled from the spec: `context.Context`, as far as cancellation goes:
whether the context is cancelled. -/
structure Context where
  cancelled : Bool := false
deriving DecidableEq, Repr

/-- Modelled from the spec: the interface `entitysource.EntitySource`, declared
outside the embedded files, as explicit state: the read position of the stream,
the answer of `IsLocal()`, the answer of `Entity().Size()`, and the error that
a call of `Seek` on the source returns when the stream cannot be repositioned
(a stream that is closed, say), `none` for a stream that can. -/
structure EntitySource where
  pos : Int := 0
  IsLocal : Bool := true
  Size : Int := 0
  seekErr : Option MetaError := none
deriving DecidableEq, Repr

/-- The constant `io.SeekStart`. -/
def SeekStart : Nat := 0

/-- What a call of `Seek` returns, `(pos, err)`, with the source as the call
left it. -/
structure SeekResult where
  source : EntitySource
  pos : Int := 0
  err : Option MetaError := none
deriving DecidableEq, Repr

/-- Modelled from the spec: the method `Seek(offset, whence) -> (pos, error)` of
the source, after the contract of `io.Seeker`. A seek that succeeds moves the
position to `offset` relative to the start (`whence` 0), the current position
(1) or the end (2), and returns the new position. A seek fails on a stream that
cannot be repositioned, on another `whence` and on a target before the start of
the stream; it then returns an error and leaves the position where it was. -/
def EntitySource.Seek (s : EntitySource) (offset : Int) (whence : Nat) : SeekResult :=
  match s.seekErr with
  | some err => { source := s, pos := 0, err := some err }
  | none =>
    let target : Option Int :=
      match whence with
      | 0 => some offset
      | 1 => some (s.pos + offset)
      | 2 => some (s.Size + offset)
      | _ => none
    match target with
    | none => { source := s, pos := 0, err := some (.other (ascii "invalid whence")) }
    | some t =>
      if t < 0 then
        { source := s, pos := 0, err := some (.other (ascii "negative position")) }
      else
        { source := { s with pos := t }, pos := t, err := none }

/-- The struct `option`. -/
structure option where
  extracted : List MediaMeta := []
  language : GoString := []
deriving DecidableEq, Repr

/-- The type `optionFunc`, a `func(*option)`: what it does to the record it is
given. -/
abbrev optionFunc := option → option

/-- The method `apply` of an `optionFunc`. -/
def optionFunc.apply (f : optionFunc) (o : option) : option := f o

/-- The function `WithExtracted`. -/
def WithExtracted (extracted : List MediaMeta) : optionFunc :=
  fun o => { o with extracted := extracted }

/-- The function `WithLanguage`. -/
def WithLanguage (language : GoString) : optionFunc :=
  fun o => { o with language := language }

/-- The options applied in order to a record, as an extractor does with the
options it is handed (`for _, opt := range opts { opt.apply(o) }`). -/
def applyOptions (opts : List optionFunc) (o : option) : option :=
  opts.foldl (fun acc f => f.apply acc) o

/-- What a call of `Extract` on an extractor returns, `(data, err)`, with the
state it leaves behind: the source as the extractor left it and the context as
it is when the call returns. -/
structure Outcome where
  data : List MediaMeta := []
  err : Option MetaError := none
  source : EntitySource
  ctx : Context

/-- The interface `Extractor`: the extensions of `Exts()` and the behaviour of
`Extract(ctx, ext, source, opts...)`. -/
structure Extractor where
  Exts : List GoString
  Extract : Context → GoString → EntitySource → List optionFunc → Outcome

/-- Modelled from the spec: the four switches of `setting.Provider` that
`NewExtractorManager` reads, each a function of the context. -/
structure Settings where
  MediaMetaExifEnabled : Context → Bool
  MediaMetaMusicEnabled : Context → Bool
  MediaMetaFFProbeEnabled : Context → Bool
  MediaMetaGeocodingEnabled : Context → Bool

/-- The extractors that the constructors `newExifExtractor`,
`newMusicExtractor`, `newFFProbeExtractor` and `newGeocodingExtractor`, which
are outside the embedded files, return. -/
structure ExtractorKinds where
  exif : Extractor
  music : Extractor
  ffprobe : Extractor
  geocoding : Extractor

/-- The type of the field `extMap`, a `map[string][]Extractor`. -/
abbrev ExtMap := AList (fun _ : GoString => List Extractor)

/-- The map index expression `extMap[ext]`: the nil slice for a missing key. -/
def ExtMap.index (m : ExtMap) (ext : GoString) : List Extractor :=
  (m.lookup ext).getD []

/-- The struct `extractorManager`. -/
structure extractorManager where
  settings : Settings
  extMap : ExtMap

/-- The slice `extractors` that `NewExtractorManager` builds from the four
switches, in the order exif, music, ffprobe, geocoding. -/
def enabledExtractors (ctx : Context) (settings : Settings) (kinds : ExtractorKinds) :
    List Extractor :=
  let extractors : List Extractor := []
  let extractors :=
    if settings.MediaMetaExifEnabled ctx then extractors ++ [kinds.exif] else extractors
  let extractors :=
    if settings.MediaMetaMusicEnabled ctx then extractors ++ [kinds.music] else extractors
  let extractors :=
    if settings.MediaMetaFFProbeEnabled ctx then extractors ++ [kinds.ffprobe] else extractors
  let extractors :=
    if settings.MediaMetaGeocodingEnabled ctx then extractors ++ [kinds.geocoding]
    else extractors
  extractors

/-- The body of the inner loop of `NewExtractorManager`:
`extMap[ext] = append(extMap[ext], extractor)`. -/
def register (extractor : Extractor) (m : ExtMap) (ext : GoString) : ExtMap :=
  m.insert ext (m.index ext ++ [extractor])

/-- The function `NewExtractorManager`. -/
def NewExtractorManager (ctx : Context) (settings : Settings) (kinds : ExtractorKinds) :
    extractorManager :=
  { settings := settings
    extMap := (enabledExtractors ctx settings kinds).foldl
      (fun m extractor => extractor.Exts.foldl (register extractor) m) ∅ }

/-- The method `extractorManager.Exts`: the keys of `extMap`, in no particular
order. -/
def extractorManager.Exts (e : extractorManager) : List GoString :=
  e.extMap.keys

/-- A call of an extractor made by `extractorManager.Extract`, as it is made:
the extractor, and the context, extension, source and options it is handed. -/
structure Invocation where
  extractor : Extractor
  ctx : Context
  ext : GoString
  source : EntitySource
  opts : List optionFunc

/-- What the call returned. -/
def Invocation.outcome (c : Invocation) : Outcome :=
  c.extractor.Extract c.ctx c.ext c.source c.opts

/-- What `extractorManager.Extract` returns, `(data, err)`, with the state it
leaves behind and the calls of extractors it made, in order. -/
structure Run where
  data : List MediaMeta
  err : Option MetaError
  source : EntitySource
  ctx : Context
  calls : List Invocation

/-- The loop `for _, e := range extractor` of `extractorManager.Extract`, from
the extractors still to run, the state, the slice `res` and the calls made so
far. -/
def extractLoop (ext : GoString) (opts : List optionFunc) :
    List Extractor → Context → EntitySource → List MediaMeta → List Invocation → Run
  | [], ctx, source, res, calls =>
    { data := res, err := none, source := source, ctx := ctx, calls := calls }
  | e :: es, ctx, source, res, calls =>
    -- _, _ = source.Seek(0, io.SeekStart): position and error are discarded
    let source1 := (source.Seek 0 SeekStart).source
    let call : Invocation :=
      { extractor := e, ctx := ctx, ext := ext, source := source1,
        opts := opts ++ [WithExtracted res] }
    match call.outcome.err with
    | some err =>
      { data := [], err := some err, source := call.outcome.source, ctx := call.outcome.ctx,
        calls := calls ++ [call] }
    | none =>
      extractLoop ext opts es call.outcome.ctx call.outcome.source
        (res ++ call.outcome.data) (calls ++ [call])

/-- The method `extractorManager.Extract`. -/
def extractorManager.Extract (e : extractorManager) (ctx : Context) (ext : GoString)
    (source : EntitySource) (opts : List optionFunc) : Run :=
  match e.extMap.lookup ext with
  | some extractor => extractLoop ext opts extractor ctx source [] []
  | none => { data := [], err := none, source := source, ctx := ctx, calls := [] }

/-- The function `checkFileSize`. -/
def checkFileSize (localLimit remoteLimit : Int) (source : EntitySource) :
    Option MetaError :=
  if source.IsLocal ∧ localLimit > 0 ∧ source.Size > localLimit then
    some .ErrFileTooLarge
  else if ¬ source.IsLocal ∧ remoteLimit > 0 ∧ source.Size > remoteLimit then
    some .ErrFileTooLarge
  else
    none

/-! ## Calls of the extraction loop, and sample extractors -/

/-- The source as the calls `pre` left it: as the last of them left it, or the
source `source` when there is none. -/
def sourceAfter (source : EntitySource) (pre : List Invocation) : EntitySource :=
  match pre.getLast? with
  | none => source
  | some p => p.outcome.source

/-- The context after the calls `pre`: as it was when the last of them returned,
or the context `ctx` when there is none. -/
def ctxAfter (ctx : Context) (pre : List Invocation) : Context :=
  match pre.getLast? with
  | none => ctx
  | some p => p.outcome.ctx

/-- The records that the calls returned, one after the other. -/
def recordsOf (calls : List Invocation) : List MediaMeta :=
  calls.flatMap (fun c => c.outcome.data)

/-- The call that the loop of `extractorManager.Extract` makes of `e`. -/
def callOf (ext : GoString) (opts : List optionFunc) (e : Extractor) (ctx : Context)
    (source : EntitySource) (res : List MediaMeta) : Invocation :=
  { extractor := e, ctx := ctx, ext := ext, source := (source.Seek 0 SeekStart).source,
    opts := opts ++ [WithExtracted res] }

/-- An extractor that ignores the context and the options, leaves the source at
the position `leave` and returns the records `data`. -/
def recordsExtractor (exts : List GoString) (data : List MediaMeta) (leave : Int) :
    Extractor :=
  { Exts := exts
    Extract := fun ctx _ source _ =>
      { data := data, err := none, source := { source with pos := leave }, ctx := ctx } }

/-- Settings with the four switches on. -/
def allEnabled : Settings :=
  { MediaMetaExifEnabled := fun _ => true
    MediaMetaMusicEnabled := fun _ => true
    MediaMetaFFProbeEnabled := fun _ => true
    MediaMetaGeocodingEnabled := fun _ => true }

/-- A manager with the extractors `l` registered for the extension `ext`. -/
def managerOf (ext : GoString) (l : List Extractor) : extractorManager :=
  { settings := allEnabled, extMap := (∅ : ExtMap).insert ext l }

/-- An extractor that returns the records `data` and no error while the context
becomes cancelled. -/
def cancelledDuringExtractor (exts : List GoString) (data : List MediaMeta) : Extractor :=
  { Exts := exts
    Extract := fun _ _ source _ =>
      { data := data, err := none, source := source, ctx := { cancelled := true } } }

/-- An extractor that returns the records it finds in its options, as an
extractor that cross-references earlier findings reads them. -/
def echoExtractor (exts : List GoString) : Extractor :=
  { Exts := exts
    Extract := fun ctx _ source opts =>
      { data := (applyOptions opts {}).extracted, err := none, source := source, ctx := ctx } }

/-- An extractor that returns the records `data` and no error, and closes the
source at the position `leave`: a later `Seek` on the source fails. -/
def closingExtractor (exts : List GoString) (data : List MediaMeta) (leave : Int) :
    Extractor :=
  { Exts := exts
    Extract := fun ctx _ source _ =>
      { data := data, err := none,
        source := { source with pos := leave, seekErr := some (.other (ascii "file already closed")) },
        ctx := ctx } }

/-- A record of the kind an EXIF extractor returns. -/
def sampleExif : MediaMeta :=
  { Key := ascii "width", Value := ascii "640", Kind := ascii "exif" }

/-- A record of the kind a geocoding extractor returns. -/
def sampleGeo : MediaMeta :=
  { Key := ascii "country", Value := ascii "NZ", Kind := ascii "geocoding" }

/-- Four extractors: exif for jpg and png, music for mp3, ffprobe for mp4 and
mp3, geocoding for jpg. -/
def sampleKinds : ExtractorKinds :=
  { exif := recordsExtractor [ascii "jpg", ascii "png"] [sampleExif] 0
    music := recordsExtractor [ascii "mp3"] [] 1
    ffprobe := recordsExtractor [ascii "mp4", ascii "mp3"] [] 2
    geocoding := recordsExtractor [ascii "jpg"] [sampleGeo] 3 }

/-- Settings with the switch of the music extractor off and the others on. -/
def musicDisabled : Settings :=
  { MediaMetaExifEnabled := fun _ => true
    MediaMetaMusicEnabled := fun _ => false
    MediaMetaFFProbeEnabled := fun _ => true
    MediaMetaGeocodingEnabled := fun _ => true }

/-! ## Helper lemmas -/

theorem wrapInt64_of_isInt64 {x : Int} (h : isInt64 x) : wrapInt64 x = x := by
  unfold isInt64 at h
  unfold wrapInt64
  norm_num at h ⊢
  omega

theorem illegalNameChars_eq :
    illegalNameChars = [92, 47, 58, 42, 63, 34, 60, 62, 124] := by
  decide

theorem containsAny_eq_false_iff (s chars : GoString) :
    containsAny s chars = false ↔ ∀ b ∈ s, b ∉ chars := by
  simp [containsAny]

/-! ## Admission validation -/

/-- C1: validateNewFile runs name legality, extension policy, name regex and
size ceiling in this order and the first violated check decides the error: it
returns nil iff all four checks pass; a violation of a name-related check is
returned as ErrIllegalObjectName wrapping the error of the first such check that
fails, whatever the size; and ErrFileSizeTooBig is returned only when the three
name-related checks pass. -/
theorem validateNewFile_first_violation_decides (isIn : ExtensionTest)
    (ms : RegexpEngine) (name : GoString) (size : Int) (policy : StoragePolicy) :
    (validateNewFile isIn ms name size policy = none ↔
      validateFileName name = none ∧ validateExtension isIn name policy = none ∧
      validateFileNameRegexp ms name policy = none ∧
      validateFileSize size policy = none) ∧
    (∀ e, validateFileName name = some e →
      validateNewFile isIn ms name size policy = some (ErrIllegalObjectName.WithError e)) ∧
    (∀ e, validateFileName name = none → validateExtension isIn name policy = some e →
      validateNewFile isIn ms name size policy = some (ErrIllegalObjectName.WithError e)) ∧
    (∀ e, validateFileName name = none → validateExtension isIn name policy = none →
      validateFileNameRegexp ms name policy = some e →
      validateNewFile isIn ms name size policy = some (ErrIllegalObjectName.WithError e)) ∧
    ((validateFileName name ≠ none ∨ validateExtension isIn name policy ≠ none ∨
        validateFileNameRegexp ms name policy ≠ none) →
      ∃ e, validateNewFile isIn ms name size policy =
        some (ErrIllegalObjectName.WithError e)) ∧
    (validateFileName name = none → validateExtension isIn name policy = none →
      validateFileNameRegexp ms name policy = none →
      validateNewFile isIn ms name size policy = validateFileSize size policy) ∧
    (validateNewFile isIn ms name size policy = some ErrFileSizeTooBig →
      validateFileName name = none ∧ validateExtension isIn name policy = none ∧
      validateFileNameRegexp ms name policy = none ∧
      validateFileSize size policy = some ErrFileSizeTooBig) := by
  unfold validateNewFile
  cases h1 : validateFileName name <;> cases h2 : validateExtension isIn name policy <;>
    cases h3 : validateFileNameRegexp ms name policy <;>
    cases h4 : validateFileSize size policy <;>
    simp [AppError.WithError, ErrIllegalObjectName, ErrFileSizeTooBig]

/-- C2: validateFileName passes iff the length of the name is in [1, 255], the
name holds none of the nine characters \ / : * ? " < > | and the name is
neither "." nor ".."; and validateNewFile fails with ErrIllegalObjectName on
every name of length 0 or of length at least 256, whatever the size and the
policy. -/
theorem validateFileName_passes_iff (name : GoString) :
    (validateFileName name = none ↔
      (1 ≤ name.length ∧ name.length ≤ 255) ∧
      (∀ b ∈ name, b ∉ ascii "\\/:*?\"<>|") ∧
      name ≠ ascii "." ∧ name ≠ ascii "..") ∧
    (ascii "\\/:*?\"<>|").length = 9 ∧
    (∀ (isIn : ExtensionTest) (ms : RegexpEngine) (size : Int) (policy : StoragePolicy),
      name.length = 0 ∨ 256 ≤ name.length →
      validateNewFile isIn ms name size policy =
        some (ErrIllegalObjectName.WithError .nameLength) ∧
      (ErrIllegalObjectName.WithError .nameLength).isIllegalObjectName = true) := by
  refine ⟨?_, by decide, ?_⟩
  · unfold validateFileName MaxFileNameLength
    by_cases hlen : name.length ≥ 256 ∨ name.length = 0
    · simp only [hlen, if_true]
      constructor
      · intro h; cases h
      · rintro ⟨⟨h1, h2⟩, -⟩; omega
    · have hl : 1 ≤ name.length ∧ name.length ≤ 255 := by omega
      simp only [hlen, if_false]
      cases hc : containsAny name illegalNameChars
      · have hc2 := (containsAny_eq_false_iff _ _).1 hc
        by_cases hd : name = ascii "." ∨ name = ascii ".."
        · simp only [hd, if_true, Bool.false_eq_true, if_false]
          constructor
          · intro h; cases h
          · rintro ⟨-, -, h3, h4⟩
            rcases hd with hd | hd
            · exact absurd hd h3
            · exact absurd hd h4
        · simp only [hd, if_false, Bool.false_eq_true, true_iff]
          exact ⟨hl, hc2, fun h => hd (Or.inl h), fun h => hd (Or.inr h)⟩
      · simp only [if_true]
        constructor
        · intro h; cases h
        · rintro ⟨-, h2, -⟩
          have : containsAny name illegalNameChars = false :=
            (containsAny_eq_false_iff _ _).2 h2
          rw [hc] at this; cases this
  · intro isIn ms size policy hlen
    have h : validateFileName name = some .nameLength := by
      unfold validateFileName MaxFileNameLength
      have : name.length ≥ 256 ∨ name.length = 0 := by omega
      simp only [this, if_true]
    refine ⟨?_, by decide⟩
    unfold validateNewFile
    rw [h]

/-- C3 (the code at the failing input): with Used = 1, Total = 1000 and the
declared size 2^63 - 1, all of them int64 values, the int64 sum Used + size
wraps to -2^63, so validateUserCapacityRaw returns nil although the true sum
exceeds Total. -/
theorem validateUserCapacityRaw_admits_on_overflow :
    isInt64 1 ∧ isInt64 1000 ∧ isInt64 9223372036854775807 ∧
    addInt64 1 9223372036854775807 = -9223372036854775808 ∧
    validateUserCapacityRaw 9223372036854775807 { Used := 1, Total := 1000 } = none ∧
    ¬ ((1 : Int) + 9223372036854775807 ≤ 1000) := by
  decide

/-- C4: when the sum Used + size lies in the int64 range, validateUserCapacityRaw
passes iff Used + size <= Total, a failure is exactly ErrInsufficientCapacity,
the boundary Used + size = Total passes and Used + size = Total + 1 fails. -/
theorem validateUserCapacityRaw_passes_iff (Used size Total : Int)
    (h : isInt64 (Used + size)) :
    (validateUserCapacityRaw size { Used := Used, Total := Total } = none ↔
      Used + size ≤ Total) ∧
    (validateUserCapacityRaw size { Used := Used, Total := Total } ≠ none →
      validateUserCapacityRaw size { Used := Used, Total := Total } =
        some ErrInsufficientCapacity) ∧
    (Used + size = Total →
      validateUserCapacityRaw size { Used := Used, Total := Total } = none) ∧
    (Used + size = Total + 1 →
      validateUserCapacityRaw size { Used := Used, Total := Total } =
        some ErrInsufficientCapacity) := by
  have hw : addInt64 Used size = Used + size := wrapInt64_of_isInt64 h
  unfold validateUserCapacityRaw
  simp only [hw]
  by_cases hle : Used + size ≤ Total
  · have : ¬ (Used + size > Total) := by omega
    simp only [this, if_false]
    refine ⟨by simp [hle], by simp, by simp, ?_⟩
    intro h1; omega
  · have : Used + size > Total := by omega
    simp only [this, if_true]
    refine ⟨by simp [hle], by simp, ?_, by simp⟩
    intro h1; omega

/-- C4 at Used = 400, Total = 1000: size 600 reaches the quota and passes, size
601 fails. -/
theorem validateUserCapacityRaw_passes_iff_witness :
    isInt64 (400 + 600) ∧
    validateUserCapacityRaw 600 { Used := 400, Total := 1000 } = none ∧
    validateUserCapacityRaw 601 { Used := 400, Total := 1000 } =
      some ErrInsufficientCapacity :=
  ⟨by decide,
   (validateUserCapacityRaw_passes_iff 400 600 1000 (by decide)).2.2.1 (by decide),
   (validateUserCapacityRaw_passes_iff 400 601 1000 (by decide)).2.2.2 (by decide)⟩

/-- C5: allow-list and deny-list are duals. With a non-empty FileType list,
validateExtension passes under IsFileTypeDenyList = true iff it fails under
IsFileTypeDenyList = false, and it is a violation exactly when (deny-list and
in list) or (allow-list and not in list). With a non-empty NameRegexp that
compiles, the same holds of validateFileNameRegexp, IsNameRegexpDenyList and the
match result. -/
theorem allow_list_and_deny_list_are_duals (isIn : ExtensionTest) (ms : RegexpEngine)
    (name : GoString) (policy : StoragePolicy) :
    (policy.Settings.FileType ≠ [] →
      (validateExtension isIn name (withFileTypeDenyList policy true) = none ↔
        validateExtension isIn name (withFileTypeDenyList policy false) ≠ none) ∧
      (validateExtension isIn name policy ≠ none ↔
        (policy.Settings.IsFileTypeDenyList = true ∧
          isIn policy.Settings.FileType name = true) ∨
        (policy.Settings.IsFileTypeDenyList = false ∧
          isIn policy.Settings.FileType name = false))) ∧
    (policy.Settings.NameRegexp ≠ [] →
      ∀ m : Bool, ms policy.Settings.NameRegexp name = .ok m →
      (validateFileNameRegexp ms name (withNameRegexpDenyList policy true) = none ↔
        validateFileNameRegexp ms name (withNameRegexpDenyList policy false) ≠ none) ∧
      (validateFileNameRegexp ms name policy ≠ none ↔
        (policy.Settings.IsNameRegexpDenyList = true ∧ m = true) ∨
        (policy.Settings.IsNameRegexpDenyList = false ∧ m = false))) := by
  constructor
  · intro hFT
    have hlen : ¬ policy.Settings.FileType.length = 0 := by
      simpa [List.length_eq_zero] using hFT
    unfold validateExtension withFileTypeDenyList
    simp only [hlen, if_false]
    cases isIn policy.Settings.FileType name <;>
      cases policy.Settings.IsFileTypeDenyList <;> simp
  · intro hRe m hm
    unfold validateFileNameRegexp withNameRegexpDenyList
    simp only [hRe, if_false, hm]
    cases m <;> cases policy.Settings.IsNameRegexpDenyList <;> simp

/-- C5 at the name "a.gif", the list jpg, png and a pattern that matches. -/
theorem allow_list_and_deny_list_are_duals_witness :
    (validateExtension (fun l n => l.contains (n.drop 2)) (ascii "a.gif")
        (withFileTypeDenyList
          { Settings := { FileType := [ascii "jpg", ascii "png"] } } true) = none ↔
      validateExtension (fun l n => l.contains (n.drop 2)) (ascii "a.gif")
        (withFileTypeDenyList
          { Settings := { FileType := [ascii "jpg", ascii "png"] } } false) ≠ none) ∧
    (validateFileNameRegexp (fun _ _ => .ok true) (ascii "a.gif")
        (withNameRegexpDenyList { Settings := { NameRegexp := ascii "gif" } } true) = none ↔
      validateFileNameRegexp (fun _ _ => .ok true) (ascii "a.gif")
        (withNameRegexpDenyList { Settings := { NameRegexp := ascii "gif" } } false)
        ≠ none) :=
  ⟨((allow_list_and_deny_list_are_duals (fun l n => l.contains (n.drop 2))
      (fun _ _ => .ok true) (ascii "a.gif")
      { Settings := { FileType := [ascii "jpg", ascii "png"] } }).1 (by decide)).1,
   ((allow_list_and_deny_list_are_duals (fun _ _ => false)
      (fun _ _ => .ok true) (ascii "a.gif")
      { Settings := { NameRegexp := ascii "gif" } }).2 (by decide) true rfl).1⟩

/-- C6 (as stated, refuted): the name "a" passes the name-legality and
extension checks and the pattern "(" of the policy does not compile, yet the
error returned by validateNewFile is ErrIllegalObjectName. -/
theorem malformed_regexp_is_returned_as_ErrIllegalObjectName :
    validateFileName (ascii "a") = none ∧
    validateExtension (fun _ _ => false) (ascii "a")
      { Settings := { NameRegexp := ascii "(" } } = none ∧
    unclosedGroupEngine (ascii "(") (ascii "a") =
      .error (ascii "error parsing regexp: missing closing ): `(`") ∧
    validateNewFile (fun _ _ => false) unclosedGroupEngine (ascii "a") 0
      { Settings := { NameRegexp := ascii "(" } } =
      some (ErrIllegalObjectName.WithError
        (.invalidRegexp (ascii "error parsing regexp: missing closing ): `(`"))) ∧
    ¬ (∀ e, validateNewFile (fun _ _ => false) unclosedGroupEngine (ascii "a") 0
          { Settings := { NameRegexp := ascii "(" } } = some e →
        e.isIllegalObjectName = false) := by
  refine ⟨by decide, by decide, rfl, by decide, ?_⟩
  intro h
  have := h _ (by decide : validateNewFile (fun _ _ => false) unclosedGroupEngine
    (ascii "a") 0 { Settings := { NameRegexp := ascii "(" } } =
      some (ErrIllegalObjectName.WithError
        (.invalidRegexp (ascii "error parsing regexp: missing closing ): `(`"))))
  revert this
  decide

/-- C6 (amended): for a name that passes the name-legality and extension
checks and a policy whose non-empty NameRegexp does not compile, validateNewFile
returns, whatever the size, ErrIllegalObjectName wrapping the error "invalid
file name regexp: ..." with the text of the compile error; the wrapped error is
not the one of a name rejected by the regex. -/
theorem malformed_regexp_wrapped_in_ErrIllegalObjectName (isIn : ExtensionTest)
    (ms : RegexpEngine) (name : GoString) (size : Int) (policy : StoragePolicy)
    (err : GoString)
    (hName : validateFileName name = none)
    (hExt : validateExtension isIn name policy = none)
    (hRe : policy.Settings.NameRegexp ≠ [])
    (hErr : ms policy.Settings.NameRegexp name = .error err) :
    validateNewFile isIn ms name size policy =
      some (ErrIllegalObjectName.WithError (.invalidRegexp err)) ∧
    (ErrIllegalObjectName.WithError (.invalidRegexp err)).isIllegalObjectName = true ∧
    (ErrIllegalObjectName.WithError (.invalidRegexp err)).raw ≠
      some NameError.notAllowedByRegexp := by
  have h3 : validateFileNameRegexp ms name policy = some (.invalidRegexp err) := by
    unfold validateFileNameRegexp
    simp only [hRe, if_false, hErr]
  refine ⟨?_, rfl, by simp [AppError.WithError]⟩
  unfold validateNewFile
  rw [hName, hExt, h3]

/-- C6 (amended) at the name "a", the pattern "(" and a size above MaxSize. -/
theorem malformed_regexp_wrapped_in_ErrIllegalObjectName_witness :
    validateNewFile (fun _ _ => false) unclosedGroupEngine (ascii "a") 5
        { Settings := { NameRegexp := ascii "(" }, MaxSize := 1 } =
      some (ErrIllegalObjectName.WithError
        (.invalidRegexp (ascii "error parsing regexp: missing closing ): `(`"))) :=
  (malformed_regexp_wrapped_in_ErrIllegalObjectName (fun _ _ => false)
    unclosedGroupEngine (ascii "a") 5
    { Settings := { NameRegexp := ascii "(" }, MaxSize := 1 }
    (ascii "error parsing regexp: missing closing ): `(`")
    (by decide) (by decide) (by decide) rfl).1

/-- C7: validateFileSize passes iff MaxSize = 0 or size <= MaxSize, a failure
is exactly ErrFileSizeTooBig, MaxSize = 0 accepts every size and the boundary
size = MaxSize passes. -/
theorem validateFileSize_passes_iff (size : Int) (policy : StoragePolicy) :
    (validateFileSize size policy = none ↔
      policy.MaxSize = 0 ∨ size ≤ policy.MaxSize) ∧
    (validateFileSize size policy ≠ none →
      validateFileSize size policy = some ErrFileSizeTooBig) ∧
    (policy.MaxSize = 0 → validateFileSize size policy = none) ∧
    (size = policy.MaxSize → validateFileSize size policy = none) := by
  unfold validateFileSize
  by_cases h0 : policy.MaxSize = 0
  · simp [h0]
  · by_cases hgt : size > policy.MaxSize
    · have hle : ¬ size ≤ policy.MaxSize := by omega
      have hne : ¬ size = policy.MaxSize := by omega
      simp [h0, hgt, hle, hne]
    · have hle : size ≤ policy.MaxSize := by omega
      simp [h0, hgt, hle]

/-- C8: an empty rule is a no-op for every name, either value of the
deny-list flag and whatever the membership test or the regex engine would
answer: validateExtension returns nil when FileType is empty, and
validateFileNameRegexp returns nil when NameRegexp is the empty string. -/
theorem empty_rule_is_a_noop (isIn : ExtensionTest) (ms : RegexpEngine)
    (name : GoString) (policy : StoragePolicy) :
    (policy.Settings.FileType = [] → validateExtension isIn name policy = none) ∧
    (policy.Settings.NameRegexp = [] → validateFileNameRegexp ms name policy = none) := by
  constructor
  · intro h
    unfold validateExtension
    simp [h]
  · intro h
    unfold validateFileNameRegexp
    simp [h]

/-- C8 at a deny-list policy with empty rules, a membership test that always
answers yes and a regex engine that can fail. -/
theorem empty_rule_is_a_noop_witness :
    validateExtension (fun _ _ => true) (ascii "a.exe")
      { Settings := { FileType := [], IsFileTypeDenyList := true } } = none ∧
    validateFileNameRegexp unclosedGroupEngine (ascii "a.exe")
      { Settings := { NameRegexp := [], IsNameRegexpDenyList := true } } = none :=
  ⟨(empty_rule_is_a_noop (fun _ _ => true) unclosedGroupEngine (ascii "a.exe")
      { Settings := { FileType := [], IsFileTypeDenyList := true } }).1 rfl,
   (empty_rule_is_a_noop (fun _ _ => true) unclosedGroupEngine (ascii "a.exe")
      { Settings := { NameRegexp := [], IsNameRegexpDenyList := true } }).2 rfl⟩

/-! ## path.Clean on rooted paths -/

theorem ascii_dot : ascii "." = [46] := rfl

theorem ascii_dotdot : ascii ".." = [46, 46] := rfl

theorem ascii_slash : ascii "/" = [47] := rfl

theorem slashed_nil : slashed [] = [] := rfl

theorem slashed_cons (s : GoString) (tl : List GoString) :
    slashed (s :: tl) = 47 :: (s ++ slashed tl) := by
  simp [slashed]

theorem slashed_append (a b : List GoString) : slashed (a ++ b) = slashed a ++ slashed b := by
  simp [slashed]

theorem slashed_head (tl : List GoString) : slashed tl = [] ∨ ∃ r, slashed tl = 47 :: r := by
  cases tl with
  | nil => exact Or.inl rfl
  | cons s tl => exact Or.inr ⟨_, slashed_cons s tl⟩

theorem intercalate_cons_eq (s : GoString) (tl : List GoString) :
    [47].intercalate (s :: tl) = s ++ slashed tl := by
  induction tl generalizing s with
  | nil => simp [List.intercalate, slashed]
  | cons s' tl ih =>
    have := ih s'
    simp [List.intercalate, slashed_cons] at this ⊢
    rw [this]

theorem takeWhile_ne_slash (s : GoString) (tl : List GoString) (hs : (47 : Byte) ∉ s) :
    (s ++ slashed tl).takeWhile (fun b => b ≠ 47) = s ∧
    (s ++ slashed tl).dropWhile (fun b => b ≠ 47) = slashed tl := by
  induction s with
  | nil =>
    rcases slashed_head tl with h | ⟨r, h⟩ <;> simp [h]
  | cons c t ih =>
    have hc : c ≠ 47 := fun h => hs (by simp [h])
    have ht : (47 : Byte) ∉ t := fun h => hs (by simp [h])
    have := ih ht
    simp only [ne_eq, decide_not] at this
    simp [hc, this]

theorem getElem_append_slash (pre last : GoString) (k : Nat) :
    (pre ++ 47 :: last)[pre.length + k]? = ((47 : Byte) :: last)[k]? := by
  rw [List.getElem?_append_right (by omega)]
  congr 1
  omega

theorem backtrackLoop_to_slash (pre last : GoString) (dd : Nat) (hdd : dd ≤ pre.length)
    (hl : (47 : Byte) ∉ last) (j : Nat) (hj : j ≤ last.length) :
    backtrackLoop (pre ++ 47 :: last) dd (pre.length + j) = pre.length := by
  induction j with
  | zero =>
    cases hp : pre.length with
    | zero => simp [backtrackLoop]
    | succ w =>
      have h := getElem_append_slash pre last 0
      rw [hp] at h
      simp only [Nat.add_zero, backtrackLoop, h]
      simp
  | succ j ih =>
    have hlt : j < last.length := hj
    have hget : (pre ++ 47 :: last)[pre.length + j + 1]? = some (last.get ⟨j, hlt⟩) := by
      rw [Nat.add_assoc, getElem_append_slash]
      simp [List.getElem?_eq_getElem hlt]
    have hne : last.get ⟨j, hlt⟩ ≠ 47 := fun h => hl (h ▸ List.get_mem _ _ _)
    show backtrackLoop (pre ++ 47 :: last) dd (pre.length + j + 1) = pre.length
    rw [backtrackLoop, hget]
    rw [if_pos ⟨by omega, by simpa using hne⟩]
    exact ih (by omega)

theorem backtrackLoop_to_root (last : GoString) (hl : (47 : Byte) ∉ last) (j : Nat)
    (hj : j < last.length) :
    backtrackLoop (47 :: last) 1 (j + 1) = 1 := by
  induction j with
  | zero => simp [backtrackLoop]
  | succ j ih =>
    have hlt : j + 1 < last.length := hj
    have hget : ((47 : Byte) :: last)[j + 1 + 1]? = some (last.get ⟨j + 1, hlt⟩) := by
      simp [List.getElem?_eq_getElem hlt]
    have hne : last.get ⟨j + 1, hlt⟩ ≠ 47 := fun h => hl (h ▸ List.get_mem _ _ _)
    rw [backtrackLoop, hget]
    rw [if_pos ⟨by omega, by simpa using hne⟩]
    exact ih (by omega)

theorem rootedPath_push (stack : List GoString) (s : GoString)
    (hst : ∀ x ∈ stack, plainSegment x) :
    (if (true = true ∧ (rootedPath stack).length ≠ 1) ∨
        (¬ (true = true) ∧ (rootedPath stack).length ≠ 0) then
      rootedPath stack ++ [47] else rootedPath stack) ++ s = rootedPath (stack ++ [s]) := by
  cases stack with
  | nil => simp [rootedPath, slashed]
  | cons x xs =>
    have hx : x ≠ [] := (hst x (by simp)).1
    have hlen : (rootedPath (x :: xs)).length ≠ 1 := by
      simp [rootedPath, slashed_cons]
      intro h0
      exact absurd h0 hx
    simp only [hlen, true_and, not_true_eq_false, false_and, or_false, ne_eq, not_false_eq_true,
      if_true]
    simp [rootedPath, slashed_append, slashed_cons, slashed_nil]

theorem rootedPath_pop (stack : List GoString) (hst : ∀ x ∈ stack, plainSegment x)
    (hlen : (rootedPath stack).length > 1) :
    (rootedPath stack).take
        (backtrackLoop (rootedPath stack) 1 ((rootedPath stack).length - 1)) =
      rootedPath stack.dropLast := by
  rcases List.eq_nil_or_concat stack with h | ⟨init, last, h⟩
  · subst h; simp [rootedPath] at hlen
  · rw [List.concat_eq_append] at h
    subst h
    have hlast : plainSegment last := hst last (by simp)
    have hpos : 0 < last.length := List.length_pos.2 hlast.1
    have hne : init ++ [last] ≠ [] := by simp
    rw [List.dropLast_concat]
    cases init with
    | nil =>
      have hrp : rootedPath ([] ++ [last]) = 47 :: last := by
        simp [rootedPath, slashed]
      rw [hrp]
      have := backtrackLoop_to_root last hlast.2 (last.length - 1) (by omega)
      have h2 : ((47 : Byte) :: last).length - 1 = last.length - 1 + 1 := by
        simp; omega
      rw [h2, this]
      simp [rootedPath]
    | cons x xs =>
      have hx : x ≠ [] := (hst x (by simp)).1
      have hrp : rootedPath (x :: xs ++ [last]) = slashed (x :: xs) ++ 47 :: last := by
        simp [rootedPath, slashed_append, slashed_cons, slashed_nil]
      rw [hrp]
      have hdd : 1 ≤ (slashed (x :: xs)).length := by
        simp [slashed_cons]
      have := backtrackLoop_to_slash (slashed (x :: xs)) last 1 hdd hlast.2 last.length
        (le_refl _)
      have h2 : (slashed (x :: xs) ++ 47 :: last).length - 1 =
          (slashed (x :: xs)).length + last.length := by
        simp
      rw [h2, this]
      simp [rootedPath]

theorem slashed_tail_cond (t : GoString) (tl : List GoString) (ht : (47 : Byte) ∉ t) :
    (t ++ slashed tl = [] ∨ (t ++ slashed tl).head? = some 47) ↔ t = [] := by
  cases t with
  | nil =>
    rcases slashed_head tl with h | ⟨r, h⟩ <;> simp [h]
  | cons a t =>
    have ha : a ≠ 47 := fun h => ht (by simp [h])
    simp [ha]

/-- The main loop of `path.Clean` on a rooted path, started with the element
stack `stack` written out and the segments `s :: tl` still to read, ends with
the stack that `resolveSegments` computes, whenever the fuel covers the input
left. -/
theorem cleanLoop_rooted (fuel : Nat) :
    ∀ (s : GoString) (tl stack : List GoString),
      (s ++ slashed tl).length ≤ fuel → (47 : Byte) ∉ s → (∀ x ∈ tl, (47 : Byte) ∉ x) →
      (∀ x ∈ stack, plainSegment x) →
      (cleanLoop true fuel { rest := s ++ slashed tl, out := rootedPath stack, dotdot := 1 }).out =
        rootedPath (resolveSegments stack (s :: tl)) := by
  induction fuel with
  | zero =>
    intro s tl stack hlen hs htl hst
    have h0 : s ++ slashed tl = [] := List.length_eq_zero.1 (Nat.le_zero.1 hlen)
    have hs0 : s = [] := (List.append_eq_nil.1 h0).1
    have ht0 : tl = [] := by
      cases tl with
      | nil => rfl
      | cons x xs => simp [slashed_cons] at h0
    subst hs0; subst ht0
    simp [cleanLoop, resolveSegments]
  | succ n ih =>
    intro s tl stack hlen hs htl hst
    cases s with
    | nil =>
      cases tl with
      | nil => simp [cleanLoop, resolveSegments, slashed]
      | cons s' tl' =>
        have hstep : cleanLoop true (n + 1)
            { rest := [] ++ slashed (s' :: tl'), out := rootedPath stack, dotdot := 1 } =
            cleanLoop true n
              { rest := s' ++ slashed tl', out := rootedPath stack, dotdot := 1 } := by
          simp [cleanLoop, cleanStep, slashed_cons]
        rw [hstep, ih s' tl' stack (by simp [slashed_cons] at hlen; simpa using hlen)
          (htl s' (by simp)) (fun x hx => htl x (by simp [hx])) hst]
        simp [resolveSegments]
    | cons c t =>
      have hc : c ≠ 47 := fun h => hs (by simp [h])
      have ht : (47 : Byte) ∉ t := fun h => hs (by simp [h])
      have hlen' : (slashed tl).length ≤ n := by
        simp at hlen; omega
      by_cases hdot : c = 46 ∧ t = []
      · obtain ⟨rfl, rfl⟩ := hdot
        have hstep : cleanLoop true (n + 1)
            { rest := [46] ++ slashed tl, out := rootedPath stack, dotdot := 1 } =
            cleanLoop true n
              { rest := [] ++ slashed tl, out := rootedPath stack, dotdot := 1 } := by
          have := (slashed_tail_cond [] tl (by simp)).2 rfl
          simp only [List.nil_append] at this
          simp [cleanLoop, cleanStep, this]
        rw [hstep, ih [] tl stack (by simpa using hlen') (by simp) htl hst]
        simp [resolveSegments, ascii_dot]
      · by_cases hdd : c = 46 ∧ t = [46]
        · obtain ⟨rfl, rfl⟩ := hdd
          have hstep : cleanLoop true (n + 1)
              { rest := [46, 46] ++ slashed tl, out := rootedPath stack, dotdot := 1 } =
              cleanLoop true n
                { rest := [] ++ slashed tl, out := rootedPath stack.dropLast, dotdot := 1 } := by
            have h2 := (slashed_tail_cond [] tl (by simp)).2 rfl
            simp only [List.nil_append] at h2
            by_cases hl : (rootedPath stack).length > 1
            · simp [cleanLoop, cleanStep, h2, hl, rootedPath_pop stack hst hl]
            · have hnil : stack = [] := by
                cases stack with
                | nil => rfl
                | cons x xs =>
                  exfalso; apply hl
                  have hx : x ≠ [] := (hst x (by simp)).1
                  have : 0 < x.length := List.length_pos.2 hx
                  simp [rootedPath, slashed_cons]; omega
              subst hnil
              simp [cleanLoop, cleanStep, h2, rootedPath]
          rw [hstep, ih [] tl stack.dropLast (by simpa using hlen') (by simp) htl
            (fun x hx => hst x (List.dropLast_subset _ hx))]
          simp [resolveSegments, ascii_dot, ascii_dotdot]
        · have hstep : cleanLoop true (n + 1)
              { rest := (c :: t) ++ slashed tl, out := rootedPath stack, dotdot := 1 } =
              cleanLoop true n
                { rest := [] ++ slashed tl, out := rootedPath (stack ++ [c :: t]),
                  dotdot := 1 } := by
            have h2 : ¬ (c = 46 ∧ (t ++ slashed tl = [] ∨
                (t ++ slashed tl).head? = some 47)) := by
              rw [slashed_tail_cond t tl ht]; exact hdot
            have h3 : ¬ (c = 46 ∧ (t ++ slashed tl).head? = some 46 ∧
                ((t ++ slashed tl).tail = [] ∨
                  (t ++ slashed tl).tail.head? = some 47)) := by
              rintro ⟨hc46, hh, htail⟩
              apply hdd
              refine ⟨hc46, ?_⟩
              cases t with
              | nil =>
                rcases slashed_head tl with h | ⟨r, h⟩ <;> simp [h] at hh
              | cons a t2 =>
                have ht2 : (47 : Byte) ∉ t2 := fun h => ht (by simp [h])
                simp only [List.cons_append, List.head?_cons, Option.some.injEq] at hh
                simp only [List.cons_append, List.tail_cons] at htail
                rw [slashed_tail_cond t2 tl ht2] at htail
                rw [hh, htail]
            have htw := takeWhile_ne_slash (c :: t) tl hs
            have hpush := rootedPath_push stack (c :: t) hst
            simp only [List.cons_append] at htw
            simp only [cleanLoop, List.cons_append, cleanStep, if_neg hc, if_neg h2, if_neg h3]
            rw [htw.1, htw.2, if_neg (List.cons_ne_nil _ _)]
            simp only [true_and, not_true_eq_false, false_and, or_false] at hpush ⊢
            rw [hpush, List.nil_append]
          rw [hstep, ih [] tl (stack ++ [c :: t]) (by simpa using hlen') (by simp) htl
            (by
              intro x hx
              rcases List.mem_append.1 hx with h | h
              · exact hst x h
              · rw [List.mem_singleton.1 h]; exact ⟨by simp, hs⟩)]
          have e1 : ¬ (c :: t = [] ∨ c :: t = ascii ".") := by
            rw [ascii_dot]
            rintro (h | h)
            · cases h
            · exact hdot (by simpa using h)
          have e2 : ¬ (c :: t = ascii "..") := by
            rw [ascii_dotdot]
            intro h
            exact hdd (by simpa using h)
          simp only [resolveSegments, if_neg e1, if_neg e2, true_or, if_true]

theorem resolveSegments_good (ss : List GoString) :
    ∀ stack : List GoString, (∀ x ∈ stack, goodSegment x) → (∀ x ∈ ss, (47 : Byte) ∉ x) →
      ∀ x ∈ resolveSegments stack ss, goodSegment x := by
  induction ss with
  | nil => intro stack hst _ x hx; exact hst x hx
  | cons s ss ih =>
    intro stack hst hss x hx
    have hss' : ∀ x ∈ ss, (47 : Byte) ∉ x := fun y hy => hss y (by simp [hy])
    unfold resolveSegments at hx
    by_cases h1 : s = [] ∨ s = ascii "."
    · rw [if_pos h1] at hx
      exact ih stack hst hss' x hx
    · rw [if_neg h1] at hx
      by_cases h2 : s = ascii ".."
      · rw [if_pos h2] at hx
        exact ih _ (fun y hy => hst y (List.dropLast_subset _ hy)) hss' x hx
      · rw [if_neg h2] at hx
        refine ih _ ?_ hss' x hx
        intro y hy
        rcases List.mem_append.1 hy with h | h
        · exact hst y h
        · rw [List.mem_singleton.1 h]
          exact ⟨fun h0 => h1 (Or.inl h0), hss s (by simp), fun h0 => h1 (Or.inr h0), h2⟩

theorem resolveSegments_of_good (ss : List GoString) :
    ∀ stack : List GoString, (∀ x ∈ ss, goodSegment x) →
      resolveSegments stack ss = stack ++ ss := by
  induction ss with
  | nil => intro stack _; simp [resolveSegments]
  | cons s ss ih =>
    intro stack h
    have hs : goodSegment s := h s (by simp)
    have h1 : ¬ (s = [] ∨ s = ascii ".") := by
      rintro (h0 | h0)
      · exact hs.1 h0
      · exact hs.2.2.1 h0
    rw [resolveSegments, if_neg h1, if_neg hs.2.2.2, ih _ (fun y hy => h y (by simp [hy]))]
    simp

theorem not_mem_of_mem_splitOn (a : Byte) (x : GoString) :
    ∀ s ∈ x.splitOn a, a ∉ s := by
  induction x with
  | nil => simp
  | cons hd tl ih =>
    intro s hs
    rw [List.splitOn, List.splitOnP_cons] at hs
    by_cases h : (hd == a) = true
    · rw [if_pos h] at hs
      rcases List.mem_cons.1 hs with h1 | h1
      · rw [h1]; simp
      · exact ih s h1
    · rw [if_neg h] at hs
      have hne : hd ≠ a := by simpa using h
      cases hsp : List.splitOnP (fun x => x == a) tl with
      | nil => rw [hsp] at hs; simp at hs
      | cons h' t' =>
        rw [hsp] at hs
        simp only [List.modifyHead_cons, List.mem_cons] at hs
        have ih' : ∀ s ∈ h' :: t', a ∉ s := by
          intro s hs'; apply ih; rw [List.splitOn, hsp]; exact hs'
        rcases hs with h1 | h1
        · rw [h1]
          intro hmem
          rcases List.mem_cons.1 hmem with h2 | h2
          · exact hne h2.symm
          · exact ih' h' (by simp) h2
        · exact ih' s (by simp [h1])

/-- `path.Clean` of a rooted path is the rooted path of the elements that
`resolveSegments` keeps of its slash-separated segments. -/
theorem Clean_rooted (x : GoString) :
    Clean (47 :: x) = rootedPath (resolveSegments [] (x.splitOn 47)) := by
  have hx : [47].intercalate (x.splitOn 47) = x := List.intercalate_splitOn x 47
  have hmem := not_mem_of_mem_splitOn 47 x
  cases hsp : x.splitOn 47 with
  | nil => exact absurd hsp (List.splitOnP_ne_nil _ _)
  | cons s tl =>
    rw [hsp] at hx hmem
    rw [intercalate_cons_eq] at hx
    have hloop := cleanLoop_rooted (x.length + 1) s tl [] (by rw [hx]; omega)
      (hmem s (by simp)) (fun y hy => hmem y (by simp [hy])) (by simp)
    rw [hx] at hloop
    have hrp : rootedPath [] = [47] := rfl
    rw [hrp] at hloop
    have hne : ∀ l : List GoString, (rootedPath l).length ≠ 0 := by
      intro l
      cases l with
      | nil => simp [rootedPath]
      | cons a b => simp [rootedPath, slashed_cons]
    unfold Clean
    simp only [List.cons_ne_nil, if_false, List.head?_cons, List.drop_succ_cons, List.drop_zero,
      List.length_cons, if_true, decide_True]
    rw [if_neg (by rw [hloop]; exact hne _), hloop]

theorem rootedPath_eq_intercalate (gs : List GoString) :
    rootedPath gs = 47 :: [47].intercalate gs := by
  cases gs with
  | nil => simp [rootedPath, List.intercalate]
  | cons g tl => simp [rootedPath, intercalate_cons_eq, slashed_cons]

theorem chain_of_no_slash (s : GoString) (hs : (47 : Byte) ∉ s) :
    List.Chain' (fun a b : Byte => ¬ (a = 47 ∧ b = 47)) s := by
  induction s with
  | nil => exact List.chain'_nil
  | cons a t ih =>
    have ha : a ≠ 47 := fun h => hs (by simp [h])
    have ht : (47 : Byte) ∉ t := fun h => hs (by simp [h])
    rw [List.chain'_cons']
    exact ⟨fun y _ h => ha h.1, ih ht⟩

theorem chain_slashed (gs : List GoString) (hg : ∀ s ∈ gs, plainSegment s) :
    List.Chain' (fun a b : Byte => ¬ (a = 47 ∧ b = 47)) (slashed gs) := by
  induction gs with
  | nil => exact List.chain'_nil
  | cons g tl ih =>
    have hgp : plainSegment g := hg g (by simp)
    have ihtl := ih (fun s hs => hg s (by simp [hs]))
    rw [slashed_cons, List.chain'_cons']
    constructor
    · intro y hy h
      cases g with
      | nil => exact hgp.1 rfl
      | cons a t =>
        simp only [List.cons_append, List.head?_cons, Option.mem_def, Option.some.injEq] at hy
        exact hgp.2 (by rw [← h.2, ← hy]; simp)
    · rw [List.chain'_append]
      refine ⟨chain_of_no_slash g hgp.2, ihtl, ?_⟩
      intro x hx y _ h
      have : x ∈ g := List.mem_of_mem_getLast? hx
      exact hgp.2 (h.1 ▸ this)

theorem rootedPath_no_double_slash (gs : List GoString) (hg : ∀ s ∈ gs, plainSegment s) :
    ¬ (ascii "//" <:+: rootedPath gs) := by
  intro hin
  have hch : List.Chain' (fun a b : Byte => ¬ (a = 47 ∧ b = 47)) (rootedPath gs) := by
    cases gs with
    | nil => simp [rootedPath]
    | cons g tl => simpa [rootedPath] using chain_slashed (g :: tl) hg
  have := hch.infix hin
  have h2 : ascii "//" = [47, 47] := rfl
  rw [h2] at this
  simp at this

theorem rootedPath_splitOn (gs : List GoString) (hg : ∀ s ∈ gs, plainSegment s) :
    (rootedPath gs).splitOn 47 = if gs = [] then [[], []] else [] :: gs := by
  cases gs with
  | nil => rfl
  | cons g tl =>
    have h1 : rootedPath (g :: tl) = [47].intercalate ([] :: g :: tl) := by
      rw [intercalate_cons_eq]; simp [rootedPath]
    rw [h1, List.splitOn_intercalate]
    · simp
    · intro l hl
      rcases List.mem_cons.1 hl with h | h
      · rw [h]; simp
      · exact (hg l h).2
    · simp

theorem Join_pair (p t : GoString) (hp : p ≠ []) :
    Join [p, t] = Clean (p ++ ascii "/" ++ t) := by
  unfold Join
  simp [hp, List.intercalate, ascii_slash]

theorem ApplyProxyIfNeeded_path (parse : GoString → Except GoString URL)
    (policy : StoragePolicy) (srcUrl proxy : URL)
    (hCustom : policy.Settings.CustomProxy = true)
    (hParse : parse policy.Settings.ProxyServer = .ok proxy) :
    ∃ res, ApplyProxyIfNeeded parse policy srcUrl = .ok res ∧
      res.Path = if proxy.Path ≠ [] ∧ proxy.Path ≠ ascii "/" then
        Join [proxy.Path, TrimPrefix srcUrl.Path (ascii "/")] else srcUrl.Path := by
  unfold ApplyProxyIfNeeded
  simp only [hCustom, if_true, hParse]
  refine ⟨_, rfl, ?_⟩
  by_cases h : proxy.Path ≠ [] ∧ proxy.Path ≠ ascii "/"
  · simp only [if_pos h]
    split <;> rfl
  · simp only [if_neg h]
    split <;> rfl

/-- C10 (amended): when CustomProxy is true and the proxy base path P begins
with a slash and is not "/" itself, the result path is path.Clean of P, a
slash and the source path without its leading slash; it is a slash followed by
slash-separated segments that are non-empty and neither "." nor "..", so it
holds no "//" and no "." or ".." segment; and when P and the stripped source
path are already made of such segments, the result is exactly P, one slash and
the stripped source path. -/
theorem ApplyProxyIfNeeded_joins_rooted_path (parse : GoString → Except GoString URL)
    (policy : StoragePolicy) (srcUrl proxy : URL)
    (hCustom : policy.Settings.CustomProxy = true)
    (hParse : parse policy.Settings.ProxyServer = .ok proxy)
    (hRooted : proxy.Path.head? = some 47)
    (hNotRoot : proxy.Path ≠ ascii "/") :
    ∃ res, ApplyProxyIfNeeded parse policy srcUrl = .ok res ∧
      res.Path = Clean (proxy.Path ++ ascii "/" ++ TrimPrefix srcUrl.Path (ascii "/")) ∧
      (∃ segs, res.Path = 47 :: [47].intercalate segs ∧ ∀ s ∈ segs, goodSegment s) ∧
      ¬ (ascii "//" <:+: res.Path) ∧
      (∀ s ∈ res.Path.splitOn 47, s ≠ ascii "." ∧ s ≠ ascii "..") ∧
      (∀ ps ss : List GoString, ps ≠ [] → ss ≠ [] → (∀ s ∈ ps ++ ss, goodSegment s) →
        proxy.Path = 47 :: [47].intercalate ps →
        TrimPrefix srcUrl.Path (ascii "/") = [47].intercalate ss →
        res.Path = proxy.Path ++ ascii "/" ++ TrimPrefix srcUrl.Path (ascii "/")) := by
  obtain ⟨res, hres, hpath⟩ := ApplyProxyIfNeeded_path parse policy srcUrl proxy hCustom hParse
  have hne : proxy.Path ≠ [] := by
    intro h; rw [h] at hRooted; simp at hRooted
  rw [if_pos ⟨hne, hNotRoot⟩, Join_pair _ _ hne] at hpath
  obtain ⟨x, hx⟩ : ∃ x, proxy.Path = 47 :: x := by
    cases hP : proxy.Path with
    | nil => exact absurd hP hne
    | cons a x =>
      rw [hP] at hRooted
      simp only [List.head?_cons, Option.some.injEq] at hRooted
      exact ⟨x, by rw [hRooted]⟩
  have hclean : res.Path = rootedPath (resolveSegments []
      ((x ++ ascii "/" ++ TrimPrefix srcUrl.Path (ascii "/")).splitOn 47)) := by
    rw [hpath, hx]
    exact Clean_rooted _
  have hgood := resolveSegments_good
    ((x ++ ascii "/" ++ TrimPrefix srcUrl.Path (ascii "/")).splitOn 47) []
    (by simp) (not_mem_of_mem_splitOn 47 _)
  have hplain : ∀ s ∈ resolveSegments []
      ((x ++ ascii "/" ++ TrimPrefix srcUrl.Path (ascii "/")).splitOn 47), plainSegment s :=
    fun s hs => ⟨(hgood s hs).1, (hgood s hs).2.1⟩
  refine ⟨res, hres, hpath, ⟨_, ?_, hgood⟩, ?_, ?_, ?_⟩
  · rw [hclean, rootedPath_eq_intercalate]
  · rw [hclean]; exact rootedPath_no_double_slash _ hplain
  · rw [hclean, rootedPath_splitOn _ hplain]
    intro s hs
    split at hs
    · have : s = [] := by simpa using hs
      rw [this]; decide
    · rcases List.mem_cons.1 hs with h | h
      · rw [h]; decide
      · exact (hgood s h).2.2
  · intro ps ss hps hss hall hP hT
    have hxps : x = [47].intercalate ps := by
      rw [hx] at hP; exact List.cons_injective hP
    have hcat : x ++ ascii "/" ++ TrimPrefix srcUrl.Path (ascii "/") =
        [47].intercalate (ps ++ ss) := by
      rw [hT, hxps, ascii_slash]
      cases ps with
      | nil => exact absurd rfl hps
      | cons p ptl =>
        cases ss with
        | nil => exact absurd rfl hss
        | cons s stl =>
          simp only [List.cons_append, intercalate_cons_eq, slashed_append, slashed_cons]
          simp
    rw [hclean, hcat, List.splitOn_intercalate _ _ (fun l hl => (hall l hl).2.1) (by simp [hps]),
      resolveSegments_of_good _ _ hall, rootedPath_eq_intercalate, hx, List.nil_append,
      ← hcat]
    simp

/-- C10, the witness of the spec: proxy base path /p and source path /x/y give
/p/x/y. -/
theorem ApplyProxyIfNeeded_joins_rooted_path_witness :
    ∃ res, ApplyProxyIfNeeded
        (fun _ => .ok { Scheme := ascii "https", Host := ascii "proxy.example", Path := ascii "/p" })
        { Settings := { CustomProxy := true, ProxyServer := ascii "https://proxy.example/p" } }
        { Scheme := ascii "http", Host := ascii "backend", Path := ascii "/x/y" } = .ok res ∧
      res.Path = ascii "/p/x/y" := by
  obtain ⟨res, h1, h2, -⟩ := ApplyProxyIfNeeded_joins_rooted_path
    (fun _ => .ok { Scheme := ascii "https", Host := ascii "proxy.example", Path := ascii "/p" })
    { Settings := { CustomProxy := true, ProxyServer := ascii "https://proxy.example/p" } }
    { Scheme := ascii "http", Host := ascii "backend", Path := ascii "/x/y" }
    { Scheme := ascii "https", Host := ascii "proxy.example", Path := ascii "/p" }
    rfl rfl (by decide) (by decide)
  refine ⟨res, h1, ?_⟩
  rw [h2]
  decide

/-- C10 (as stated, refuted): the ProxyServer "../p" is a relative reference
that url.Parse accepts, with the path "../p", which is neither empty nor "/";
with the source path "/x/y" the result path is "../p/x/y", whose first segment
is "..". -/
theorem ApplyProxyIfNeeded_relative_proxy_path_keeps_dotdot :
    ApplyProxyIfNeeded (fun _ => .ok { Path := ascii "../p" })
        { Settings := { CustomProxy := true, ProxyServer := ascii "../p" } }
        { Scheme := ascii "http", Host := ascii "backend", Path := ascii "/x/y" } =
      .ok { Path := ascii "../p/x/y" } ∧
    ascii "../p" ≠ [] ∧ ascii "../p" ≠ ascii "/" ∧
    ascii ".." ∈ (ascii "../p/x/y").splitOn 47 := by
  refine ⟨rfl, by decide, by decide, by decide⟩

/-! ## url.Values: parsing what Encode wrote -/

set_option maxRecDepth 100000 in
theorem nibble_roundtrip : ∀ n : Fin 16,
    ishex (upperhex n.val) = true ∧ unhex (upperhex n.val) = n.val := by
  decide

theorem shift_or_nibbles (b : Byte) :
    (Fin.ofNat ((b.val >>> 4) <<< 4 ||| (b.val &&& 15)) : Byte) = b := by
  have h1 : b.val >>> 4 = b.val / 16 := by
    rw [Nat.shiftRight_eq_div_pow]
  have h2 : b.val &&& 15 = b.val % 16 := by
    exact Nat.and_pow_two_sub_one_eq_mod b.val 4
  have h3 : (b.val / 16) <<< 4 ||| (b.val % 16) = 2 ^ 4 * (b.val / 16) + b.val % 16 := by
    rw [Nat.mul_add_lt_is_or (by omega : b.val % 16 < 2 ^ 4), Nat.shiftLeft_eq, Nat.mul_comm]
  rw [h1, h2, h3]
  apply Fin.ext
  have hb : b.val < 256 := b.isLt
  simp only [Fin.ofNat, Fin.val_mk]
  omega

theorem hex_roundtrip (b : Byte) :
    ishex (upperhex (b.val >>> 4)) = true ∧ ishex (upperhex (b.val &&& 15)) = true ∧
    (Fin.ofNat (unhex (upperhex (b.val >>> 4)) <<< 4 ||| unhex (upperhex (b.val &&& 15))) : Byte)
      = b := by
  have hb : b.val < 256 := b.isLt
  have h1 : b.val >>> 4 < 16 := by
    rw [Nat.shiftRight_eq_div_pow]; omega
  have h2 : b.val &&& 15 < 16 := by
    rw [Nat.and_pow_two_sub_one_eq_mod b.val 4]; omega
  have n1 := nibble_roundtrip ⟨b.val >>> 4, h1⟩
  have n2 := nibble_roundtrip ⟨b.val &&& 15, h2⟩
  simp only at n1 n2
  refine ⟨n1.1, n2.1, ?_⟩
  rw [n1.2, n2.2]
  exact shift_or_nibbles b

theorem upperhex_ne (n : Nat) : upperhex n ≠ 38 ∧ upperhex n ≠ 61 ∧ upperhex n ≠ 59 := by
  by_cases h : n < 16
  · have : ∀ m : Fin 16, upperhex m.val ≠ 38 ∧ upperhex m.val ≠ 61 ∧ upperhex m.val ≠ 59 := by
      decide
    exact this ⟨n, h⟩
  · have : upperhex n = 0 := by
      unfold upperhex
      apply List.getD_eq_default
      have : (ascii "0123456789ABCDEF").length = 16 := rfl
      omega
    rw [this]; decide

theorem unescaped_byte_plain (b : Byte) (h : shouldEscape b = false) :
    b ≠ 37 ∧ b ≠ 43 ∧ b ≠ 32 ∧ b ≠ 38 ∧ b ≠ 61 ∧ b ≠ 59 := by
  refine ⟨?_, ?_, ?_, ?_, ?_, ?_⟩ <;> (rintro rfl; revert h; decide)

theorem escapeByte_no_separator (b : Byte) :
    ∀ c ∈ escapeByte b, c ≠ 38 ∧ c ≠ 61 ∧ c ≠ 59 := by
  intro c hc
  unfold escapeByte at hc
  split_ifs at hc with h1 h2
  · rw [List.mem_singleton.1 hc]; decide
  · simp only [List.mem_cons, List.mem_singleton, List.not_mem_nil, or_false] at hc
    rcases hc with h | h | h
    · rw [h]; decide
    · rw [h]; exact upperhex_ne _
    · rw [h]; exact upperhex_ne _
  · rw [List.mem_singleton.1 hc]
    have := unescaped_byte_plain b (by simpa using h2)
    exact ⟨this.2.2.2.1, this.2.2.2.2.1, this.2.2.2.2.2⟩

theorem QueryUnescape_escapeByte_append (b : Byte) (rest : GoString) :
    QueryUnescape (escapeByte b ++ rest) = (QueryUnescape rest).map (fun u => b :: u) := by
  unfold escapeByte
  split_ifs with h1 h2
  · subst h1
    rw [List.singleton_append, QueryUnescape.eq_def]
    simp
  · have hr := hex_roundtrip b
    rw [QueryUnescape.eq_def]
    simp [hr.1, hr.2.1, hr.2.2]
  · have hp := unescaped_byte_plain b (by simpa using h2)
    rw [List.singleton_append, QueryUnescape.eq_def]
    simp [hp.1, hp.2.1]

/-- `QueryUnescape` undoes `QueryEscape`. -/
theorem QueryUnescape_QueryEscape (s : GoString) : QueryUnescape (QueryEscape s) = some s := by
  induction s with
  | nil => simp [QueryEscape, QueryUnescape]
  | cons b t ih =>
    have : QueryEscape (b :: t) = escapeByte b ++ QueryEscape t := by
      simp [QueryEscape]
    rw [this, QueryUnescape_escapeByte_append, ih]
    rfl

theorem QueryEscape_no_separator (s : GoString) :
    ∀ c ∈ QueryEscape s, c ≠ 38 ∧ c ≠ 61 ∧ c ≠ 59 := by
  intro c hc
  simp only [QueryEscape, List.mem_flatMap] at hc
  obtain ⟨b, -, hb⟩ := hc
  exact escapeByte_no_separator b c hb

theorem Cut_at_sep (a b : GoString) (sep : Byte) (h : sep ∉ a) :
    Cut (a ++ sep :: b) sep = (a, b) := by
  unfold Cut
  induction a with
  | nil => simp
  | cons x t ih =>
    have hx : x ≠ sep := fun h' => h (by simp [h'])
    have ht : sep ∉ t := fun h' => h (by simp [h'])
    have := ih ht
    simp at this
    simp [hx, this]

theorem encodePair_no_amp (k v : GoString) : (38 : Byte) ∉ encodePair k v := by
  intro h
  simp only [encodePair, List.mem_append, List.mem_singleton] at h
  rcases h with (h | h) | h
  · exact (QueryEscape_no_separator k _ h).1 rfl
  · revert h; decide
  · exact (QueryEscape_no_separator v _ h).1 rfl

theorem parseQueryPiece_encodePair (m : Values) (k v : GoString) :
    parseQueryPiece m (encodePair k v) = m.append k v := by
  have h59 : (encodePair k v).contains 59 = false := by
    rw [Bool.eq_false_iff]
    intro h
    have h' : (59 : Byte) ∈ encodePair k v := by simpa using h
    simp only [encodePair, List.mem_append, List.mem_singleton] at h'
    rcases h' with (h' | h') | h'
    · exact (QueryEscape_no_separator k _ h').2.2 rfl
    · revert h'; decide
    · exact (QueryEscape_no_separator v _ h').2.2 rfl
  have hne : encodePair k v ≠ [] := by simp [encodePair]
  have hcut : Cut (encodePair k v) 61 = (QueryEscape k, QueryEscape v) := by
    have : encodePair k v = QueryEscape k ++ 61 :: QueryEscape v := by simp [encodePair]
    rw [this]
    exact Cut_at_sep _ _ _ (fun h => (QueryEscape_no_separator k _ h).2.1 rfl)
  unfold parseQueryPiece
  rw [h59, if_neg (by simp), if_neg hne, hcut]
  simp only [QueryUnescape_QueryEscape]

theorem Values.index_append (m : Values) (k v k' : GoString) :
    (m.append k v).index k' = if k' = k then m.index k ++ [v] else m.index k' := by
  unfold Values.append Values.index
  by_cases h : k' = k
  · subst h; simp
  · simp [h, AList.lookup_insert_ne h]

theorem Values.lookup_append (m : Values) (k v k' : GoString) :
    (m.append k v).lookup k' = if k' = k then some (m.index k ++ [v]) else m.lookup k' := by
  unfold Values.append
  by_cases h : k' = k
  · subst h; simp
  · simp [h, AList.lookup_insert_ne h]

theorem lookup_foldl_append (ps : List (GoString × GoString)) :
    ∀ (m : Values) (k : GoString),
      (ps.foldl (fun acc p => acc.append p.1 p.2) m).lookup k =
        if valuesFor k ps = [] then m.lookup k else some (m.index k ++ valuesFor k ps) := by
  induction ps with
  | nil => intro m k; simp [valuesFor]
  | cons p tl ih =>
    intro m k
    rw [List.foldl_cons, ih]
    by_cases hk : p.1 = k
    · have hv : valuesFor k (p :: tl) = p.2 :: valuesFor k tl := by
        simp [valuesFor, hk]
      rw [hv, Values.lookup_append, Values.index_append, if_pos hk.symm, if_pos hk.symm, hk]
      by_cases htl : valuesFor k tl = []
      · simp [htl]
      · simp [htl]
    · have hv : valuesFor k (p :: tl) = valuesFor k tl := by
        simp [valuesFor, hk]
      have hk' : ¬ k = p.1 := fun h => hk h.symm
      rw [hv, Values.lookup_append, Values.index_append, if_neg hk', if_neg hk']

theorem valuesFor_flatMap (keys : List GoString) (f : GoString → List GoString)
    (hnd : keys.Nodup) (k : GoString) :
    valuesFor k (keys.flatMap (fun k' => (f k').map (fun value => (k', value)))) =
      if k ∈ keys then f k else [] := by
  induction keys with
  | nil => simp [valuesFor]
  | cons a tl ih =>
    have hnd' := List.nodup_cons.1 hnd
    have ih' := ih hnd'.2
    have hsplit : valuesFor k ((a :: tl).flatMap (fun k' => (f k').map (fun value => (k', value)))) =
        valuesFor k ((f a).map (fun value => (a, value))) ++
          valuesFor k (tl.flatMap (fun k' => (f k').map (fun value => (k', value)))) := by
      simp [valuesFor, List.flatMap_cons]
    rw [hsplit, ih']
    by_cases hak : a = k
    · subst hak
      have h1 : valuesFor a ((f a).map (fun value => (a, value))) = f a := by
        simp [valuesFor, List.filter_map, Function.comp_def]
      simp [h1, hnd'.1]
    · have h1 : valuesFor k ((f a).map (fun value => (a, value))) = [] := by
        simp [valuesFor, List.filter_map, Function.comp_def, hak]
      have hka : ¬ k = a := fun h => hak h.symm
      simp [h1, hka]

theorem sortedKeys_perm (v : Values) : (sortedKeys v).Perm v.keys :=
  List.perm_insertionSort _ _

theorem valuesFor_pairs (v : Values) (k : GoString) : valuesFor k v.pairs = v.index k := by
  have hnd : (sortedKeys v).Nodup := (sortedKeys_perm v).nodup_iff.2 v.keys_nodup
  rw [Values.pairs, valuesFor_flatMap _ _ hnd]
  by_cases hk : k ∈ sortedKeys v
  · simp [hk]
  · have : k ∉ v.keys := fun h => hk ((sortedKeys_perm v).mem_iff.2 h)
    have hl : v.lookup k = none := AList.lookup_eq_none.2 this
    simp [hk, Values.index, hl]

theorem Encode_eq_pairs (v : Values) :
    v.Encode = [38].intercalate (v.pairs.map (fun p => encodePair p.1 p.2)) := by
  simp [Values.Encode, Values.pairs, List.map_flatMap, Function.comp_def]

theorem parseQueryPiece_nil (m : Values) : parseQueryPiece m [] = m := by
  simp [parseQueryPiece]

theorem parseQueryLoop_nil (fuel : Nat) (m : Values) : parseQueryLoop fuel m [] = m := by
  cases fuel <;> simp [parseQueryLoop]

/-- With enough fuel the loop of `parseQuery` handles the `&`-separated pieces
of the query one after the other. -/
theorem parseQueryLoop_eq_foldl (fuel : Nat) :
    ∀ (m : Values) (query : GoString), query.length ≤ fuel →
      parseQueryLoop fuel m query = (query.splitOn 38).foldl parseQueryPiece m := by
  induction fuel with
  | zero =>
    intro m query h
    have : query = [] := List.length_eq_zero.1 (Nat.le_zero.1 h)
    subst this
    simp [parseQueryLoop, parseQueryPiece_nil]
  | succ n ih =>
    intro m query h
    by_cases hq : query = []
    · subst hq
      simp [parseQueryLoop, parseQueryPiece_nil]
    · rw [parseQueryLoop, if_neg hq]
      have hsplit : query.takeWhile (fun b => b ≠ 38) ++ query.dropWhile (fun b => b ≠ 38) =
          query := List.takeWhile_append_dropWhile _ _
      have hno : ∀ x ∈ query.takeWhile (fun b => b ≠ 38), ¬ ((x == (38 : Byte)) = true) := by
        intro x hx
        have := List.mem_takeWhile_imp hx
        simpa using this
      cases hd : query.dropWhile (fun b => b ≠ 38) with
      | nil =>
        rw [hd, List.append_nil] at hsplit
        have hsp : query.splitOn 38 = [query] := by
          rw [hsplit] at hno
          exact List.splitOnP_eq_single _ _ hno
        simp only [Cut, hd, List.drop_nil, hsplit, parseQueryLoop_nil, hsp, List.foldl_cons,
          List.foldl_nil]
      | cons c r =>
        have hc : c = 38 := by
          have := List.head_dropWhile_not (fun b => b ≠ (38 : Byte)) query
            (by rw [hd]; simp)
          simp only [hd, List.head_cons] at this
          simpa using this
        subst hc
        rw [hd] at hsplit
        have hsp : query.splitOn 38 =
            query.takeWhile (fun b => b ≠ 38) :: r.splitOn 38 := by
          conv_lhs => rw [← hsplit]
          exact List.splitOnP_first _ _ hno 38 (by simp) r
        have hlen : r.length ≤ n := by
          have := congrArg List.length hsplit
          simp only [List.length_append, List.length_cons] at this
          omega
        simp only [Cut, hd, List.drop_succ_cons, List.drop_zero, hsp, List.foldl_cons]
        exact ih _ _ hlen

theorem parseQueryPiece_no_empty (m : Values) (piece : GoString)
    (hm : ∀ k, m.lookup k ≠ some []) : ∀ k, (parseQueryPiece m piece).lookup k ≠ some [] := by
  intro k
  unfold parseQueryPiece
  split_ifs
  · exact hm k
  · exact hm k
  · split
    · rw [Values.lookup_append]
      split_ifs
      · simp
      · exact hm k
    · exact hm k

theorem lookup_foldl_Set (g : GoString → GoString) (keys : List GoString) :
    ∀ (acc : Values) (k : GoString),
      (keys.foldl (fun acc k => acc.Set k (g k)) acc).lookup k =
        if k ∈ keys then some [g k] else acc.lookup k := by
  induction keys with
  | nil => intro acc k; simp
  | cons a tl ih =>
    intro acc k
    rw [List.foldl_cons, ih]
    by_cases hk : k ∈ tl
    · simp [hk]
    · by_cases hka : k = a
      · subst hka
        simp [hk, Values.Set]
      · simp [hk, hka, Values.Set, AList.lookup_insert_ne hka]

theorem mem_keys_iff_lookup (m : Values) (k : GoString) :
    k ∈ m.keys ↔ (m.lookup k).isSome = true := by
  rw [AList.lookup_isSome, AList.mem_keys]

/-- The number of `&` in pieces joined by `&`, none of which holds one. -/
theorem count_amp_intercalate (pieces : List GoString)
    (h : ∀ p ∈ pieces, (38 : Byte) ∉ p) (hne : pieces ≠ []) :
    ([38].intercalate pieces).count 38 + 1 = pieces.length := by
  induction pieces with
  | nil => exact absurd rfl hne
  | cons a t ih =>
    cases t with
    | nil =>
      have h0 : List.count (38 : Byte) a = 0 :=
        List.count_eq_zero_of_not_mem (h a (by simp))
      simp [List.intercalate, h0]
    | cons b r =>
      have h0 : List.count (38 : Byte) a = 0 :=
        List.count_eq_zero_of_not_mem (h a (by simp))
      have ih' := ih (fun p hp => h p (by simp [hp])) (by simp)
      have hcons : List.intercalate [38] (a :: b :: r) =
          a ++ [38] ++ List.intercalate [38] (b :: r) := by
        simp [List.intercalate]
      rw [hcons, List.count_append, List.count_append, h0]
      simp only [List.length_cons] at ih' ⊢
      simp only [List.count_singleton_self]
      omega

theorem parseQuery_within (m : Values) (query : GoString)
    (h : query.count 38 + 1 ≤ defaultMaxParams) :
    parseQuery m query = (query.splitOn 38).foldl parseQueryPiece m := by
  unfold parseQuery urlParamsWithinMax
  rw [if_neg (by simpa using h)]
  exact parseQueryLoop_eq_foldl _ m query (le_refl _)

theorem parseQuery_over (m : Values) (query : GoString)
    (h : defaultMaxParams < query.count 38 + 1) :
    parseQuery m query = m := by
  unfold parseQuery urlParamsWithinMax
  rw [if_pos (by simpa using h)]

theorem parseQuery_intercalate (ps : List (GoString × GoString)) (m : Values)
    (h : ([38].intercalate (ps.map (fun p => encodePair p.1 p.2))).count 38 + 1 ≤
      defaultMaxParams) :
    parseQuery m ([38].intercalate (ps.map (fun p => encodePair p.1 p.2))) =
      ps.foldl (fun acc p => acc.append p.1 p.2) m := by
  rw [parseQuery_within _ _ h]
  cases ps with
  | nil => simp [List.intercalate, parseQueryPiece]
  | cons p tl =>
    rw [List.splitOn_intercalate _ _ _ (by simp)]
    · rw [List.foldl_map]
      simp only [parseQueryPiece_encodePair]
    · intro l hl
      simp only [List.mem_map] at hl
      obtain ⟨q, -, rfl⟩ := hl
      exact encodePair_no_amp _ _

/-- Parsing what `Encode` wrote gives the map back, when no key holds the
empty list of values and what `Encode` wrote is within the limit on the number
of parameters. -/
theorem lookup_parseQuery_Encode (v : Values) (hne : ∀ k, v.lookup k ≠ some [])
    (hcap : v.Encode.count 38 + 1 ≤ defaultMaxParams)
    (k : GoString) : (parseQuery ∅ v.Encode).lookup k = v.lookup k := by
  rw [Encode_eq_pairs] at hcap ⊢
  rw [parseQuery_intercalate _ _ hcap, lookup_foldl_append, valuesFor_pairs]
  cases hl : v.lookup k with
  | none => simp [Values.index, hl]
  | some vs =>
    have hvs : vs ≠ [] := fun h => hne k (by rw [hl, h])
    simp [Values.index, hl, hvs]

theorem parseQuery_no_empty (query : GoString) (m : Values)
    (hm : ∀ k, m.lookup k ≠ some []) : ∀ k, (parseQuery m query).lookup k ≠ some [] := by
  by_cases h : query.count 38 + 1 ≤ defaultMaxParams
  · rw [parseQuery_within _ _ h]
    generalize query.splitOn 38 = pieces
    induction pieces generalizing m with
    | nil => exact hm
    | cons p tl ih =>
      rw [List.foldl_cons]
      exact ih _ (parseQueryPiece_no_empty m p hm)
  · rw [parseQuery_over _ _ (by omega)]
    exact hm

/-- The number of parameters that `Encode` writes: one for every value of every
key. -/
theorem Encode_count (v : Values) (hne : v.pairs ≠ []) :
    v.Encode.count 38 + 1 = v.pairs.length := by
  rw [Encode_eq_pairs, count_amp_intercalate]
  · simp
  · intro p hp
    simp only [List.mem_map] at hp
    obtain ⟨q, -, rfl⟩ := hp
    exact encodePair_no_amp _ _
  · simpa using hne

theorem pairs_ne_nil (v : Values) (k : GoString) (h : v.index k ≠ []) : v.pairs ≠ [] := by
  intro h0
  have := valuesFor_pairs v k
  rw [h0] at this
  exact h this.symm

theorem length_filter_add_le {α : Type} (p q : α → Bool) (l : List α)
    (h : ∀ x, p x = true → q x = true → False) :
    (l.filter p).length + (l.filter q).length ≤ l.length := by
  induction l with
  | nil => simp
  | cons a t ih =>
    by_cases hp : p a = true
    · have hq : ¬ q a = true := fun hq => h a hp hq
      rw [List.filter_cons_of_pos hp, List.filter_cons_of_neg hq]
      simp only [List.length_cons]
      omega
    · by_cases hq : q a = true
      · rw [List.filter_cons_of_neg hp, List.filter_cons_of_pos hq]
        simp only [List.length_cons]
        omega
      · rw [List.filter_cons_of_neg hp, List.filter_cons_of_neg hq]
        simp only [List.length_cons]
        omega

/-- A map has at least as many key and value pairs as two of its keys have
values. -/
theorem pairs_length_ge (v : Values) (a b : GoString) (hab : a ≠ b) :
    (v.index a).length + (v.index b).length ≤ v.pairs.length := by
  rw [← valuesFor_pairs v a, ← valuesFor_pairs v b]
  unfold valuesFor
  rw [List.length_map, List.length_map]
  apply length_filter_add_le
  intro x h1 h2
  simp only [decide_eq_true_eq] at h1 h2
  exact hab (h1.symm.trans h2)

/-- With a proxy query that is not empty, the query of the result is what
`Encode` writes for the proxy query after the merge loop. -/
theorem ApplyProxyIfNeeded_RawQuery (parse : GoString → Except GoString URL)
    (policy : StoragePolicy) (srcUrl proxy : URL)
    (hCustom : policy.Settings.CustomProxy = true)
    (hParse : parse policy.Settings.ProxyServer = .ok proxy)
    (hQuery : proxy.Query.keys ≠ []) :
    ∃ res, ApplyProxyIfNeeded parse policy srcUrl = .ok res ∧
      res.RawQuery = (srcUrl.Query.keys.foldl
        (fun acc k => acc.Set k (srcUrl.Query.Get k)) proxy.Query).Encode := by
  have hlen : ¬ proxy.Query.keys.length = 0 := by
    rw [List.length_eq_zero]; exact hQuery
  unfold ApplyProxyIfNeeded
  simp only [hCustom, if_true, hParse]
  refine ⟨_, rfl, ?_⟩
  by_cases h : proxy.Path ≠ [] ∧ proxy.Path ≠ ascii "/"
  · simp only [if_pos h]
    have hq : URL.Query { proxy with
        Path := Join [proxy.Path, TrimPrefix srcUrl.Path (ascii "/")] } = proxy.Query := rfl
    rw [hq, if_neg hlen]
  · simp only [if_neg h]
    have hq : URL.Query { proxy with RawPath := srcUrl.RawPath, Path := srcUrl.Path } =
        proxy.Query := rfl
    rw [hq, if_neg hlen]

/-- No key of the merged map holds the empty list of values. -/
theorem merged_lookup_ne_nil (srcUrl proxy : URL) (k : GoString) :
    (srcUrl.Query.keys.foldl
      (fun acc k => acc.Set k (srcUrl.Query.Get k)) proxy.Query).lookup k ≠ some [] := by
  rw [lookup_foldl_Set]
  split_ifs
  · simp
  · exact parseQuery_no_empty _ ∅ (by simp) k

theorem index_ne_nil_of_mem_keys (v : Values) (hne : ∀ k, v.lookup k ≠ some [])
    (k : GoString) (hk : k ∈ v.keys) : v.index k ≠ [] := by
  have hsome := (mem_keys_iff_lookup v k).1 hk
  cases hl : v.lookup k with
  | none => rw [hl] at hsome; cases hsome
  | some l =>
    intro h0
    simp only [Values.index, hl, Option.getD_some] at h0
    exact hne k (by rw [hl, h0])

/-- The result of a merge that has more key and value pairs than net/url
parses: a proxy query that holds as many values for a key as the limit allows,
and a source query with another key. The parsed query of the result is
empty. -/
theorem ApplyProxyIfNeeded_query_over_limit (parse : GoString → Except GoString URL)
    (policy : StoragePolicy) (srcUrl proxy : URL)
    (hCustom : policy.Settings.CustomProxy = true)
    (hParse : parse policy.Settings.ProxyServer = .ok proxy)
    (a b : GoString) (hab : a ≠ b)
    (ha : a ∉ srcUrl.Query.keys) (hb : b ∈ srcUrl.Query.keys)
    (hA : (proxy.Query.index a).length = defaultMaxParams) :
    ∃ res, ApplyProxyIfNeeded parse policy srcUrl = .ok res ∧ res.Query.keys = [] := by
  have hQuery : proxy.Query.keys ≠ [] := by
    have hne : proxy.Query.index a ≠ [] := by
      intro h0
      rw [h0] at hA
      exact absurd hA (by decide)
    have hmem : a ∈ proxy.Query.keys := by
      rw [mem_keys_iff_lookup]
      cases hl : proxy.Query.lookup a with
      | none => exact absurd (by simp [Values.index, hl]) hne
      | some l => rfl
    exact List.ne_nil_of_mem hmem
  obtain ⟨res, hok, hraw⟩ :=
    ApplyProxyIfNeeded_RawQuery parse policy srcUrl proxy hCustom hParse hQuery
  refine ⟨res, hok, ?_⟩
  generalize hm : srcUrl.Query.keys.foldl
    (fun acc k => acc.Set k (srcUrl.Query.Get k)) proxy.Query = merged at hraw
  have hla : merged.index a = proxy.Query.index a := by
    unfold Values.index
    rw [← hm, lookup_foldl_Set, if_neg ha]
  have hlb : merged.index b = [srcUrl.Query.Get b] := by
    unfold Values.index
    rw [← hm, lookup_foldl_Set, if_pos hb]
    rfl
  have hge := pairs_length_ge merged a b hab
  rw [hla, hlb, hA] at hge
  have hne : merged.pairs ≠ [] := pairs_ne_nil merged b (by rw [hlb]; simp)
  have hcount := Encode_count merged hne
  have hover : defaultMaxParams < res.RawQuery.count 38 + 1 := by
    rw [hraw, hcount]
    simp only [List.length_singleton] at hge
    omega
  unfold URL.Query
  rw [parseQuery_over _ _ hover]
  rfl

theorem valuesFor_replicate (n : Nat) (k v : GoString) :
    valuesFor k (List.replicate n (k, v)) = List.replicate n v := by
  induction n with
  | zero => rfl
  | succ n ih =>
    simp only [List.replicate_succ]
    unfold valuesFor at ih ⊢
    rw [List.filter_cons_of_pos (by simp), List.map_cons, ih]

/-- The parsed query of `fullQuery`: the key `a` with 10000 empty values. -/
theorem index_fullQuery :
    (parseQuery ∅ fullQuery).index (ascii "a") = List.replicate defaultMaxParams [] := by
  have he : ascii "a=" = encodePair (ascii "a") [] := by decide
  have hq : fullQuery = [38].intercalate
      ((List.replicate defaultMaxParams (ascii "a", ([] : GoString))).map
        (fun p => encodePair p.1 p.2)) := by
    rw [List.map_replicate, ← he]
    rfl
  have hcap : ([38].intercalate
      ((List.replicate defaultMaxParams (ascii "a", ([] : GoString))).map
        (fun p => encodePair p.1 p.2))).count 38 + 1 ≤ defaultMaxParams := by
    rw [count_amp_intercalate]
    · simp
    · intro p hp
      simp only [List.mem_map] at hp
      obtain ⟨q, -, rfl⟩ := hp
      exact encodePair_no_amp _ _
    · rw [List.map_replicate]
      intro h0
      have := congrArg List.length h0
      rw [List.length_replicate] at this
      exact absurd this (by decide)
  rw [hq, Values.index, parseQuery_intercalate _ _ hcap, lookup_foldl_append,
    valuesFor_replicate]
  have hne : List.replicate defaultMaxParams ([] : GoString) ≠ [] := by
    intro h0
    have := congrArg List.length h0
    rw [List.length_replicate] at this
    exact absurd this (by decide)
  rw [if_neg hne]
  simp [Values.index]

/-- C9 (as stated, refuted): with a proxy query of 10000 parameters,
a=&a=&...&a=, and the source query b=1, the merged query has 10001 parameters,
more than net/url parses, so the parsed query of the result is empty: it has
neither the key a of the proxy query nor the key b of the source query. -/
theorem ApplyProxyIfNeeded_merged_query_over_parameter_limit :
    ∃ res, ApplyProxyIfNeeded
        (fun _ => .ok { Scheme := ascii "https", Host := ascii "proxy.example",
                        RawQuery := fullQuery })
        { Settings := { CustomProxy := true,
                        ProxyServer := ascii "https://proxy.example?" ++ fullQuery } }
        { Scheme := ascii "http", Host := ascii "backend", Path := ascii "/x",
          RawQuery := ascii "b=1" } = .ok res ∧
      ascii "a" ∈ (URL.Query { Scheme := ascii "https", Host := ascii "proxy.example",
                               RawQuery := fullQuery }).keys ∧
      ascii "b" ∈ (URL.Query { Scheme := ascii "http", Host := ascii "backend",
                               Path := ascii "/x", RawQuery := ascii "b=1" }).keys ∧
      res.Query.keys = [] := by
  have hA : ((URL.Query { Scheme := ascii "https", Host := ascii "proxy.example",
                          RawQuery := fullQuery }).index (ascii "a")).length =
      defaultMaxParams := by
    unfold URL.Query
    rw [index_fullQuery, List.length_replicate]
  obtain ⟨res, hok, hkeys⟩ := ApplyProxyIfNeeded_query_over_limit
    (fun _ => .ok { Scheme := ascii "https", Host := ascii "proxy.example",
                    RawQuery := fullQuery })
    { Settings := { CustomProxy := true,
                    ProxyServer := ascii "https://proxy.example?" ++ fullQuery } }
    { Scheme := ascii "http", Host := ascii "backend", Path := ascii "/x",
      RawQuery := ascii "b=1" }
    { Scheme := ascii "https", Host := ascii "proxy.example", RawQuery := fullQuery }
    rfl rfl (ascii "a") (ascii "b") (by decide) (by decide) (by decide) hA
  refine ⟨res, hok, ?_, by decide, hkeys⟩
  rw [mem_keys_iff_lookup]
  cases hl : (URL.Query { Scheme := ascii "https", Host := ascii "proxy.example",
                          RawQuery := fullQuery }).lookup (ascii "a") with
  | some l => rfl
  | none =>
    exfalso
    unfold Values.index at hA
    rw [hl] at hA
    exact absurd hA (by decide)

/-- C9 (amended): when CustomProxy is true and the parsed query of the proxy
base URL is non-empty, the RawQuery of the result is what Encode writes for the
merged map, one parameter for every value of every key. The merged map has
exactly the keys of the proxy query and of the source query; a key of the source
query carries the single value Get returns for it in the source, the first of
its values there, whatever the proxy held for it; and a key that is not in the
source query keeps the values of the proxy query. When the merged map has at
most 10000 key and value pairs, the parsed query of the result is the merged
map, with exactly the keys of the proxy query and of the source query; when it
has more, net/url does not parse the RawQuery and the parsed query of the
result is empty. -/
theorem ApplyProxyIfNeeded_merges_query_by_key (parse : GoString → Except GoString URL)
    (policy : StoragePolicy) (srcUrl proxy : URL)
    (hCustom : policy.Settings.CustomProxy = true)
    (hParse : parse policy.Settings.ProxyServer = .ok proxy)
    (hQuery : proxy.Query.keys ≠ []) :
    ∃ (res : URL) (merged : Values), ApplyProxyIfNeeded parse policy srcUrl = .ok res ∧
      res.RawQuery = merged.Encode ∧
      res.RawQuery.count 38 + 1 = merged.pairs.length ∧
      (∀ k, k ∈ merged.keys ↔ k ∈ proxy.Query.keys ∨ k ∈ srcUrl.Query.keys) ∧
      (∀ k, k ∈ srcUrl.Query.keys → merged.lookup k = some [srcUrl.Query.Get k]) ∧
      (∀ k, k ∈ srcUrl.Query.keys →
        ∃ v vs, srcUrl.Query.lookup k = some (v :: vs) ∧ merged.lookup k = some [v]) ∧
      (∀ k, k ∉ srcUrl.Query.keys → merged.lookup k = proxy.Query.lookup k) ∧
      (merged.pairs.length ≤ defaultMaxParams →
        (∀ k, res.Query.lookup k = merged.lookup k) ∧
        (∀ k, k ∈ res.Query.keys ↔ k ∈ proxy.Query.keys ∨ k ∈ srcUrl.Query.keys)) ∧
      (defaultMaxParams < merged.pairs.length → res.Query.keys = []) := by
  obtain ⟨res, hok, hraw⟩ :=
    ApplyProxyIfNeeded_RawQuery parse policy srcUrl proxy hCustom hParse hQuery
  have hmergedNE := merged_lookup_ne_nil srcUrl proxy
  have hlook : ∀ k, (srcUrl.Query.keys.foldl
      (fun acc k => acc.Set k (srcUrl.Query.Get k)) proxy.Query).lookup k =
      if k ∈ srcUrl.Query.keys then some [srcUrl.Query.Get k] else proxy.Query.lookup k :=
    fun k => lookup_foldl_Set _ _ _ _
  generalize srcUrl.Query.keys.foldl
    (fun acc k => acc.Set k (srcUrl.Query.Get k)) proxy.Query = merged
    at hraw hmergedNE hlook
  have hkeys : ∀ k, k ∈ merged.keys ↔ k ∈ proxy.Query.keys ∨ k ∈ srcUrl.Query.keys := by
    intro k
    rw [mem_keys_iff_lookup, hlook]
    by_cases hk : k ∈ srcUrl.Query.keys
    · simp [hk]
    · simp [hk, mem_keys_iff_lookup]
  have hpairs : merged.pairs ≠ [] := by
    obtain ⟨k0, hk0⟩ := List.exists_mem_of_ne_nil _ hQuery
    exact pairs_ne_nil merged k0
      (index_ne_nil_of_mem_keys merged hmergedNE k0 ((hkeys k0).2 (Or.inl hk0)))
  have hcount : res.RawQuery.count 38 + 1 = merged.pairs.length := by
    rw [hraw]
    exact Encode_count merged hpairs
  refine ⟨res, merged, hok, hraw, hcount, hkeys, ?_, ?_, ?_, ?_, ?_⟩
  · intro k hk
    rw [hlook, if_pos hk]
  · intro k hk
    have hsome := (mem_keys_iff_lookup srcUrl.Query k).1 hk
    cases hl : srcUrl.Query.lookup k with
    | none => rw [hl] at hsome; cases hsome
    | some l =>
      cases l with
      | nil => exact absurd hl (parseQuery_no_empty _ ∅ (by simp) k)
      | cons v vs =>
        refine ⟨v, vs, rfl, ?_⟩
        rw [hlook, if_pos hk]
        simp [Values.Get, Values.index, hl]
  · intro k hk
    rw [hlook, if_neg hk]
  · intro hcap
    have hres : ∀ k, res.Query.lookup k = merged.lookup k := by
      intro k
      rw [URL.Query, hraw]
      exact lookup_parseQuery_Encode merged hmergedNE (by rw [← hraw, hcount]; exact hcap) k
    refine ⟨hres, ?_⟩
    intro k
    rw [mem_keys_iff_lookup, hres, ← mem_keys_iff_lookup]
    exact hkeys k
  · intro hover
    unfold URL.Query
    rw [parseQuery_over _ _ (by rw [hcount]; exact hover)]
    rfl

/-- C9 (amended), the witness of the spec: proxy query a=1 and source query
a=2&b=3 give the merged query a=2&b=3. -/
theorem ApplyProxyIfNeeded_merges_query_by_key_witness :
    ∃ res, ApplyProxyIfNeeded
        (fun _ => .ok { Scheme := ascii "https", Host := ascii "proxy.example",
                        RawQuery := ascii "a=1" })
        { Settings := { CustomProxy := true, ProxyServer := ascii "https://proxy.example?a=1" } }
        { Scheme := ascii "http", Host := ascii "backend", Path := ascii "/x",
          RawQuery := ascii "a=2&b=3" } = .ok res ∧
      res.RawQuery = ascii "a=2&b=3" ∧
      res.Query.lookup (ascii "a") = some [ascii "2"] ∧
      res.Query.lookup (ascii "b") = some [ascii "3"] ∧
      (∀ k, k ∈ res.Query.keys ↔ k = ascii "a" ∨ k = ascii "b") := by
  obtain ⟨res, merged, h1, -, h3, -, h5, -, -, h8, -⟩ :=
    ApplyProxyIfNeeded_merges_query_by_key
    (fun _ => .ok { Scheme := ascii "https", Host := ascii "proxy.example",
                    RawQuery := ascii "a=1" })
    { Settings := { CustomProxy := true, ProxyServer := ascii "https://proxy.example?a=1" } }
    { Scheme := ascii "http", Host := ascii "backend", Path := ascii "/x",
      RawQuery := ascii "a=2&b=3" }
    { Scheme := ascii "https", Host := ascii "proxy.example", RawQuery := ascii "a=1" }
    rfl rfl (by decide)
  have h : ApplyProxyIfNeeded
      (fun _ => .ok { Scheme := ascii "https", Host := ascii "proxy.example",
                      RawQuery := ascii "a=1" })
      { Settings := { CustomProxy := true, ProxyServer := ascii "https://proxy.example?a=1" } }
      { Scheme := ascii "http", Host := ascii "backend", Path := ascii "/x",
        RawQuery := ascii "a=2&b=3" } =
      .ok { Scheme := ascii "https", Host := ascii "proxy.example", Path := ascii "/x",
            RawQuery := ascii "a=2&b=3" } := rfl
  have hres : res = { Scheme := ascii "https", Host := ascii "proxy.example",
                      Path := ascii "/x", RawQuery := ascii "a=2&b=3" } := by
    rw [h] at h1
    injection h1 with h1
    exact h1.symm
  have hraw : res.RawQuery = ascii "a=2&b=3" := by rw [hres]
  have hcap : merged.pairs.length ≤ defaultMaxParams := by
    rw [← h3, hraw]
    decide
  obtain ⟨g1, g2⟩ := h8 hcap
  refine ⟨res, h1, hraw, ?_, ?_, ?_⟩
  · rw [g1, h5 (ascii "a") (by decide)]; rfl
  · rw [g1, h5 (ascii "b") (by decide)]; rfl
  · intro k
    rw [g2]
    have hp : (URL.Query { Scheme := ascii "https", Host := ascii "proxy.example",
                           RawQuery := ascii "a=1" }).keys = [ascii "a"] := by decide
    have hs : (URL.Query { Scheme := ascii "http", Host := ascii "backend",
                           Path := ascii "/x", RawQuery := ascii "a=2&b=3" }).keys =
        [ascii "b", ascii "a"] := by decide
    rw [hp, hs]
    simp only [List.mem_cons, List.mem_singleton, List.not_mem_nil, or_false]
    constructor
    · rintro (h | h | h)
      · exact Or.inl h
      · exact Or.inr h
      · exact Or.inl h
    · rintro (h | h)
      · exact Or.inl h
      · exact Or.inr (Or.inl h)

/-! ## Proxy rewriting without a custom proxy or with a bare proxy, and the extraction pipeline -/

/-- C11: when CustomProxy is false, ApplyProxyIfNeeded returns the source URL
itself, every field unchanged, and no error, for every source URL and every
ProxyServer, whatever url.Parse would answer for it, a parse error included. -/
theorem ApplyProxyIfNeeded_without_custom_proxy (parse : GoString → Except GoString URL)
    (policy : StoragePolicy) (srcUrl : URL)
    (hCustom : policy.Settings.CustomProxy = false) :
    ApplyProxyIfNeeded parse policy srcUrl = .ok srcUrl := by
  unfold ApplyProxyIfNeeded
  simp [hCustom]

/-- C11 at a ProxyServer that does not parse as a URL. -/
theorem ApplyProxyIfNeeded_without_custom_proxy_witness :
    ApplyProxyIfNeeded (fun _ => .error (ascii "missing protocol scheme"))
        { Settings := { CustomProxy := false, ProxyServer := ascii "://" } }
        { Scheme := ascii "http", User := some { username := ascii "u" },
          Host := ascii "backend", Path := ascii "/a b", RawPath := ascii "/a%20b",
          RawQuery := ascii "b=2&a=1", Fragment := ascii "f" } =
      .ok { Scheme := ascii "http", User := some { username := ascii "u" },
            Host := ascii "backend", Path := ascii "/a b", RawPath := ascii "/a%20b",
            RawQuery := ascii "b=2&a=1", Fragment := ascii "f" } :=
  ApplyProxyIfNeeded_without_custom_proxy _ _ _ rfl

/-- C12: when CustomProxy is true, the proxy base URL parses, its path is empty
or "/" and its parsed query has no key, the result has the Path, RawPath and
RawQuery of the source URL as they are, and every other field, the scheme and
the host among them, is the one of the proxy base URL. -/
theorem ApplyProxyIfNeeded_bare_proxy_keeps_path_and_query
    (parse : GoString → Except GoString URL)
    (policy : StoragePolicy) (srcUrl proxy : URL)
    (hCustom : policy.Settings.CustomProxy = true)
    (hParse : parse policy.Settings.ProxyServer = .ok proxy)
    (hPath : proxy.Path = [] ∨ proxy.Path = ascii "/")
    (hQuery : proxy.Query.keys = []) :
    ApplyProxyIfNeeded parse policy srcUrl =
      .ok { proxy with Path := srcUrl.Path, RawPath := srcUrl.RawPath,
                       RawQuery := srcUrl.RawQuery } ∧
    ∃ res, ApplyProxyIfNeeded parse policy srcUrl = .ok res ∧
      res.Path = srcUrl.Path ∧ res.RawPath = srcUrl.RawPath ∧
      res.RawQuery = srcUrl.RawQuery ∧
      res.Scheme = proxy.Scheme ∧ res.Host = proxy.Host := by
  have hnot : ¬ (proxy.Path ≠ [] ∧ proxy.Path ≠ ascii "/") := by
    rintro ⟨h1, h2⟩
    rcases hPath with h | h
    · exact h1 h
    · exact h2 h
  have hq : URL.Query { proxy with RawPath := srcUrl.RawPath, Path := srcUrl.Path } =
      proxy.Query := rfl
  have hmain : ApplyProxyIfNeeded parse policy srcUrl =
      .ok { proxy with Path := srcUrl.Path, RawPath := srcUrl.RawPath,
                       RawQuery := srcUrl.RawQuery } := by
    unfold ApplyProxyIfNeeded
    simp only [hCustom, if_true, hParse, if_neg hnot, hq, hQuery, List.length_nil]
  exact ⟨hmain, _, hmain, rfl, rfl, rfl, rfl, rfl⟩

/-- C12 at the proxy base URL https://proxy.example/ and a source URL whose
escaped path and query are not in normal form. -/
theorem ApplyProxyIfNeeded_bare_proxy_keeps_path_and_query_witness :
    ApplyProxyIfNeeded
        (fun _ => .ok { Scheme := ascii "https", Host := ascii "proxy.example",
                        Path := ascii "/" })
        { Settings := { CustomProxy := true, ProxyServer := ascii "https://proxy.example/" } }
        { Scheme := ascii "http", Host := ascii "backend", Path := ascii "/a/../b c",
          RawPath := ascii "/a/../b%20c", RawQuery := ascii "z=1&a=%7e&z=0" } =
      .ok { Scheme := ascii "https", Host := ascii "proxy.example", Path := ascii "/a/../b c",
            RawPath := ascii "/a/../b%20c", RawQuery := ascii "z=1&a=%7e&z=0" } :=
  (ApplyProxyIfNeeded_bare_proxy_keeps_path_and_query
    (fun _ => .ok { Scheme := ascii "https", Host := ascii "proxy.example",
                    Path := ascii "/" })
    { Settings := { CustomProxy := true, ProxyServer := ascii "https://proxy.example/" } }
    { Scheme := ascii "http", Host := ascii "backend", Path := ascii "/a/../b c",
      RawPath := ascii "/a/../b%20c", RawQuery := ascii "z=1&a=%7e&z=0" }
    { Scheme := ascii "https", Host := ascii "proxy.example", Path := ascii "/" }
    rfl rfl (Or.inr rfl) (by decide)).1

/-- C17: checkFileSize returns ErrFileTooLarge iff the source is local, the
local limit is positive and the size exceeds it, or the source is not local, the
remote limit is positive and the size exceeds it; otherwise it returns nil. So
a limit of zero means unlimited, a local source is never judged by the remote
limit nor a remote source by the local one, and a size equal to the limit
passes. -/
theorem checkFileSize_fails_iff (localLimit remoteLimit : Int) (source : EntitySource) :
    (checkFileSize localLimit remoteLimit source = some .ErrFileTooLarge ↔
      (source.IsLocal = true ∧ localLimit > 0 ∧ source.Size > localLimit) ∨
      (source.IsLocal = false ∧ remoteLimit > 0 ∧ source.Size > remoteLimit)) ∧
    (checkFileSize localLimit remoteLimit source ≠ some .ErrFileTooLarge →
      checkFileSize localLimit remoteLimit source = none) ∧
    (source.IsLocal = true → localLimit = 0 →
      checkFileSize localLimit remoteLimit source = none) ∧
    (source.IsLocal = false → remoteLimit = 0 →
      checkFileSize localLimit remoteLimit source = none) ∧
    (source.IsLocal = true → source.Size ≤ localLimit →
      checkFileSize localLimit remoteLimit source = none) ∧
    (source.IsLocal = false → source.Size ≤ remoteLimit →
      checkFileSize localLimit remoteLimit source = none) ∧
    (source.IsLocal = true →
      checkFileSize localLimit remoteLimit source = checkFileSize localLimit 0 source) ∧
    (source.IsLocal = false →
      checkFileSize localLimit remoteLimit source = checkFileSize 0 remoteLimit source) := by
  unfold checkFileSize
  cases hl : source.IsLocal
  · by_cases h1 : remoteLimit > 0 ∧ source.Size > remoteLimit
    · simp [h1]
      omega
    · have h1' : ¬ (0 < remoteLimit ∧ remoteLimit < source.Size) := h1
      simp only [Bool.false_eq_true, false_and, if_false, not_false_eq_true, true_and, h1']
      refine ⟨by simp, by simp, by simp, by simp, by simp, by simp, by simp, ?_⟩
      intro _; simp
  · by_cases h1 : localLimit > 0 ∧ source.Size > localLimit
    · simp [h1]
      intro h; omega
    · have h1' : ¬ (0 < localLimit ∧ localLimit < source.Size) := h1
      simp [h1']

theorem sourceAfter_cons (source : EntitySource) (c : Invocation) (pre : List Invocation) :
    sourceAfter source (c :: pre) = sourceAfter c.outcome.source pre := by
  cases pre with
  | nil => simp [sourceAfter]
  | cons a t =>
    simp only [sourceAfter, List.getLast?_cons_cons]
    cases h : (a :: t).getLast? with
    | none => simp at h
    | some p => rfl

theorem ctxAfter_cons (ctx : Context) (c : Invocation) (pre : List Invocation) :
    ctxAfter ctx (c :: pre) = ctxAfter c.outcome.ctx pre := by
  cases pre with
  | nil => simp [ctxAfter]
  | cons a t =>
    simp only [ctxAfter, List.getLast?_cons_cons]
    cases h : (a :: t).getLast? with
    | none => simp at h
    | some p => rfl

theorem extractLoop_cons_err (ext : GoString) (opts : List optionFunc) (e : Extractor)
    (es : List Extractor) (ctx : Context) (source : EntitySource) (res : List MediaMeta)
    (calls : List Invocation) (err : MetaError)
    (h : (callOf ext opts e ctx source res).outcome.err = some err) :
    extractLoop ext opts (e :: es) ctx source res calls =
      { data := [], err := some err,
        source := (callOf ext opts e ctx source res).outcome.source,
        ctx := (callOf ext opts e ctx source res).outcome.ctx,
        calls := calls ++ [callOf ext opts e ctx source res] } := by
  unfold callOf at h ⊢
  rw [extractLoop]
  simp only [h]

theorem extractLoop_cons_ok (ext : GoString) (opts : List optionFunc) (e : Extractor)
    (es : List Extractor) (ctx : Context) (source : EntitySource) (res : List MediaMeta)
    (calls : List Invocation)
    (h : (callOf ext opts e ctx source res).outcome.err = none) :
    extractLoop ext opts (e :: es) ctx source res calls =
      extractLoop ext opts es (callOf ext opts e ctx source res).outcome.ctx
        (callOf ext opts e ctx source res).outcome.source
        (res ++ (callOf ext opts e ctx source res).outcome.data)
        (calls ++ [callOf ext opts e ctx source res]) := by
  unfold callOf at h ⊢
  rw [extractLoop]
  simp only [h]

/-- The calls made so far are only carried along by the loop. -/
theorem extractLoop_calls (ext : GoString) (opts : List optionFunc) (l : List Extractor) :
    ∀ (ctx : Context) (source : EntitySource) (res : List MediaMeta)
      (calls : List Invocation),
      extractLoop ext opts l ctx source res calls =
        { extractLoop ext opts l ctx source res [] with
          calls := calls ++ (extractLoop ext opts l ctx source res []).calls } := by
  induction l with
  | nil => intro ctx source res calls; simp [extractLoop]
  | cons e es ih =>
    intro ctx source res calls
    cases h : (callOf ext opts e ctx source res).outcome.err with
    | some err =>
      rw [extractLoop_cons_err _ _ _ _ _ _ _ _ err h, extractLoop_cons_err _ _ _ _ _ _ _ _ err h]
      simp
    | none =>
      rw [extractLoop_cons_ok _ _ _ _ _ _ _ _ h, extractLoop_cons_ok _ _ _ _ _ _ _ _ h]
      rw [ih _ _ _ (calls ++ [callOf ext opts e ctx source res]),
        ih _ _ _ ([] ++ [callOf ext opts e ctx source res])]
      simp

theorem extractLoop_calls_err (ext : GoString) (opts : List optionFunc) (e : Extractor)
    (es : List Extractor) (ctx : Context) (source : EntitySource) (res : List MediaMeta)
    (err : MetaError) (h : (callOf ext opts e ctx source res).outcome.err = some err) :
    (extractLoop ext opts (e :: es) ctx source res []).calls =
        [callOf ext opts e ctx source res] ∧
    (extractLoop ext opts (e :: es) ctx source res []).err = some err ∧
    (extractLoop ext opts (e :: es) ctx source res []).data = [] := by
  rw [extractLoop_cons_err _ _ _ _ _ _ _ _ err h]
  simp

theorem extractLoop_calls_ok (ext : GoString) (opts : List optionFunc) (e : Extractor)
    (es : List Extractor) (ctx : Context) (source : EntitySource) (res : List MediaMeta)
    (h : (callOf ext opts e ctx source res).outcome.err = none) :
    (extractLoop ext opts (e :: es) ctx source res []).calls =
        callOf ext opts e ctx source res ::
          (extractLoop ext opts es (callOf ext opts e ctx source res).outcome.ctx
            (callOf ext opts e ctx source res).outcome.source
            (res ++ (callOf ext opts e ctx source res).outcome.data) []).calls ∧
    (extractLoop ext opts (e :: es) ctx source res []).err =
        (extractLoop ext opts es (callOf ext opts e ctx source res).outcome.ctx
          (callOf ext opts e ctx source res).outcome.source
          (res ++ (callOf ext opts e ctx source res).outcome.data) []).err ∧
    (extractLoop ext opts (e :: es) ctx source res []).data =
        (extractLoop ext opts es (callOf ext opts e ctx source res).outcome.ctx
          (callOf ext opts e ctx source res).outcome.source
          (res ++ (callOf ext opts e ctx source res).outcome.data) []).data := by
  rw [extractLoop_cons_ok _ _ _ _ _ _ _ _ h, extractLoop_calls]
  simp

theorem extractLoop_calls_eq_nil (ext : GoString) (opts : List optionFunc)
    (l : List Extractor) (ctx : Context) (source : EntitySource) (res : List MediaMeta)
    (h : (extractLoop ext opts l ctx source res []).calls = []) : l = [] := by
  cases l with
  | nil => rfl
  | cons e es =>
    exfalso
    cases he : (callOf ext opts e ctx source res).outcome.err with
    | some err => rw [(extractLoop_calls_err _ _ _ _ _ _ _ err he).1] at h; cases h
    | none => rw [(extractLoop_calls_ok _ _ _ _ _ _ _ he).1] at h; cases h

/-- Every call of the loop, with the calls before it and after it: it is the
call of the registered extractor at its place, made in the state the calls
before it left, all of which returned no error; a call that returns an error
is the last one, and a last call that returns no error is the call of the last
registered extractor. -/
theorem extractLoop_split (ext : GoString) (opts : List optionFunc) (l : List Extractor) :
    ∀ (ctx : Context) (source : EntitySource) (res : List MediaMeta)
      (pre : List Invocation) (c : Invocation) (post : List Invocation),
      (extractLoop ext opts l ctx source res []).calls = pre ++ c :: post →
      l.get? pre.length = some c.extractor ∧
      c = callOf ext opts c.extractor (ctxAfter ctx pre) (sourceAfter source pre)
        (res ++ recordsOf pre) ∧
      (∀ p ∈ pre, p.outcome.err = none) ∧
      (c.outcome.err ≠ none → post = []) ∧
      (post = [] → c.outcome.err = none → pre.length + 1 = l.length) := by
  induction l with
  | nil =>
    intro ctx source res pre c post h
    simp [extractLoop] at h
  | cons e es ih =>
    intro ctx source res pre c post h
    cases he : (callOf ext opts e ctx source res).outcome.err with
    | some err =>
      rw [(extractLoop_calls_err _ _ _ _ _ _ _ err he).1] at h
      cases pre with
      | nil =>
        simp only [List.nil_append, List.cons.injEq] at h
        obtain ⟨hc, hpost⟩ := h
        subst hc
        refine ⟨rfl, ?_, by simp, fun _ => hpost.symm, ?_⟩
        · simp [callOf, ctxAfter, sourceAfter, recordsOf]
        · intro _ h2; rw [he] at h2; cases h2
      | cons a t =>
        simp only [List.cons_append, List.cons.injEq] at h
        have := h.2
        simp at this
    | none =>
      rw [(extractLoop_calls_ok _ _ _ _ _ _ _ he).1] at h
      cases pre with
      | nil =>
        simp only [List.nil_append, List.cons.injEq] at h
        obtain ⟨hc, hpost⟩ := h
        subst hc
        refine ⟨rfl, ?_, by simp, ?_, ?_⟩
        · simp [callOf, ctxAfter, sourceAfter, recordsOf]
        · intro h2; exact absurd he h2
        · intro hp _
          rw [hp] at hpost
          have := extractLoop_calls_eq_nil _ _ _ _ _ _ hpost
          simp [this]
      | cons a t =>
        simp only [List.cons_append, List.cons.injEq] at h
        obtain ⟨ha, htail⟩ := h
        subst ha
        obtain ⟨h1, h2, h3, h4, h5⟩ := ih _ _ _ t c post htail
        refine ⟨by simpa using h1, ?_, ?_, h4, ?_⟩
        · rw [ctxAfter_cons, sourceAfter_cons]
          have hr : res ++ recordsOf (callOf ext opts e ctx source res :: t) =
              res ++ (callOf ext opts e ctx source res).outcome.data ++ recordsOf t := by
            simp [recordsOf]
          rw [hr]
          exact h2
        · intro p hp
          rcases List.mem_cons.1 hp with h | h
          · rw [h]; exact he
          · exact h3 p h
        · intro hp hc
          have := h5 hp hc
          simp only [List.length_cons]
          omega

/-- What the loop returns: either no error, every registered extractor called
with no error and the records `res` followed by those of the calls; or the
error of the last call and no record. -/
theorem extractLoop_result (ext : GoString) (opts : List optionFunc) (l : List Extractor) :
    ∀ (ctx : Context) (source : EntitySource) (res : List MediaMeta),
      ((extractLoop ext opts l ctx source res []).err = none ∧
        (∀ c ∈ (extractLoop ext opts l ctx source res []).calls, c.outcome.err = none) ∧
        (extractLoop ext opts l ctx source res []).calls.map (fun c => c.extractor) = l ∧
        (extractLoop ext opts l ctx source res []).data =
          res ++ recordsOf (extractLoop ext opts l ctx source res []).calls) ∨
      (∃ c err, (extractLoop ext opts l ctx source res []).calls.getLast? = some c ∧
        c.outcome.err = some err ∧
        (extractLoop ext opts l ctx source res []).err = some err ∧
        (extractLoop ext opts l ctx source res []).data = []) := by
  induction l with
  | nil =>
    intro ctx source res
    left
    simp [extractLoop, recordsOf]
  | cons e es ih =>
    intro ctx source res
    cases he : (callOf ext opts e ctx source res).outcome.err with
    | some err =>
      right
      obtain ⟨h1, h2, h3⟩ := extractLoop_calls_err _ _ _ es _ _ _ err he
      exact ⟨_, err, by rw [h1]; rfl, he, h2, h3⟩
    | none =>
      obtain ⟨h1, h2, h3⟩ := extractLoop_calls_ok _ _ _ es _ _ _ he
      rw [h1, h2, h3]
      rcases ih (callOf ext opts e ctx source res).outcome.ctx
        (callOf ext opts e ctx source res).outcome.source
        (res ++ (callOf ext opts e ctx source res).outcome.data) with
        ⟨g1, g2, g3, g4⟩ | ⟨c, err, g1, g2, g3, g4⟩
      · left
        refine ⟨g1, ?_, ?_, ?_⟩
        · intro c hc
          rcases List.mem_cons.1 hc with h | h
          · rw [h]; exact he
          · exact g2 c h
        · simp only [List.map_cons, g3]
          rfl
        · rw [g4]
          simp [recordsOf]
      · right
        refine ⟨c, err, ?_, g2, g3, g4⟩
        cases ht : (extractLoop ext opts es (callOf ext opts e ctx source res).outcome.ctx
            (callOf ext opts e ctx source res).outcome.source
            (res ++ (callOf ext opts e ctx source res).outcome.data) []).calls with
        | nil => rw [ht] at g1; simp at g1
        | cons a t =>
          rw [ht] at g1
          rw [List.getLast?_cons_cons]
          exact g1

/-- The extractors called are the first of the registered ones, in order. -/
theorem extractLoop_calls_take (ext : GoString) (opts : List optionFunc)
    (l : List Extractor) :
    ∀ (ctx : Context) (source : EntitySource) (res : List MediaMeta),
      (extractLoop ext opts l ctx source res []).calls.map (fun c => c.extractor) =
        l.take (extractLoop ext opts l ctx source res []).calls.length := by
  induction l with
  | nil => intro ctx source res; simp [extractLoop]
  | cons e es ih =>
    intro ctx source res
    cases he : (callOf ext opts e ctx source res).outcome.err with
    | some err =>
      rw [(extractLoop_calls_err _ _ _ es _ _ _ err he).1]
      rfl
    | none =>
      rw [(extractLoop_calls_ok _ _ _ es _ _ _ he).1]
      simp only [List.map_cons, List.length_cons, List.take_succ_cons, ih]
      rfl

theorem Extract_of_lookup (m : extractorManager) (ctx : Context) (ext : GoString)
    (source : EntitySource) (opts : List optionFunc) (l : List Extractor)
    (hl : m.extMap.lookup ext = some l) :
    m.Extract ctx ext source opts = extractLoop ext opts l ctx source [] [] := by
  unfold extractorManager.Extract
  rw [hl]

/-- The registered extractor at place `k` is called when the calls before it
return no error. -/
theorem extractLoop_calls_length (ext : GoString) (opts : List optionFunc)
    (l : List Extractor) (ctx : Context) (source : EntitySource) (res : List MediaMeta)
    (k : Nat) (hk : k < l.length)
    (hok : ∀ p ∈ (extractLoop ext opts l ctx source res []).calls.take k,
      p.outcome.err = none) :
    k < (extractLoop ext opts l ctx source res []).calls.length := by
  rcases extractLoop_result ext opts l ctx source res with
    ⟨-, -, g3, -⟩ | ⟨c, err, g1, g2, -, -⟩
  · have h := congrArg List.length g3
    rw [List.length_map] at h
    omega
  · by_contra hlt
    have hle : (extractLoop ext opts l ctx source res []).calls.length ≤ k := by omega
    have := hok c (by rw [List.take_of_length_le hle]; exact List.mem_of_mem_getLast? g1)
    rw [g2] at this
    cases this

/-- The call of the registered extractor at place `k`, when the calls before it
return no error: it is made, in the state the calls before it left and with
their records; the calls before it are those of the extractors registered
before it; and when it returns an error it is the last call and the extraction
returns that error with no record. -/
theorem Extract_call_at (m : extractorManager) (ctx : Context) (ext : GoString)
    (source : EntitySource) (opts : List optionFunc) (l : List Extractor) (k : Nat)
    (e : Extractor) (hl : m.extMap.lookup ext = some l) (hk : l.get? k = some e)
    (hok : ∀ p ∈ (m.Extract ctx ext source opts).calls.take k, p.outcome.err = none) :
    ∃ c, (m.Extract ctx ext source opts).calls.get? k = some c ∧
      c = callOf ext opts e (ctxAfter ctx ((m.Extract ctx ext source opts).calls.take k))
        (sourceAfter source ((m.Extract ctx ext source opts).calls.take k))
        (recordsOf ((m.Extract ctx ext source opts).calls.take k)) ∧
      ((m.Extract ctx ext source opts).calls.take k).map (fun p => p.extractor) = l.take k ∧
      (∀ err, c.outcome.err = some err →
        (m.Extract ctx ext source opts).calls.length = k + 1 ∧
        (m.Extract ctx ext source opts).err = some err ∧
        (m.Extract ctx ext source opts).data = []) := by
  rw [Extract_of_lookup m ctx ext source opts l hl] at hok ⊢
  have hkl : k < l.length := by
    by_contra h
    rw [List.get?_eq_none.2 (by omega)] at hk
    cases hk
  have hlen := extractLoop_calls_length ext opts l ctx source [] k hkl hok
  generalize hcs : (extractLoop ext opts l ctx source [] []).calls = calls at hok hlen
  have hsplit : calls = calls.take k ++ calls[k] :: calls.drop (k + 1) := by
    rw [← List.drop_eq_getElem_cons hlen, List.take_append_drop]
  have hpre : (calls.take k).length = k := by
    rw [List.length_take]; omega
  rw [hsplit] at hcs
  obtain ⟨h1, h2, -, h4, -⟩ :=
    extractLoop_split ext opts l ctx source [] (calls.take k) calls[k] _ hcs
  rw [hpre, hk] at h1
  have he : calls[k].extractor = e := by
    simpa using h1.symm
  rw [← hsplit] at hcs
  refine ⟨calls[k], ?_, ?_, ?_, ?_⟩
  · rw [List.get?_eq_getElem?, List.getElem?_eq_getElem hlen]
  · rw [he] at h2
    simpa using h2
  · have htake := extractLoop_calls_take ext opts l ctx source []
    rw [hcs] at htake
    rw [List.map_take, htake, List.take_take]
    congr 1
    omega
  · intro err herr
    have hpost : calls.drop (k + 1) = [] := h4 (by rw [herr]; simp)
    have hlen2 : calls.length = k + 1 := by
      have := congrArg List.length hpost
      rw [List.length_drop] at this
      simp at this
      omega
    refine ⟨hlen2, ?_⟩
    rcases extractLoop_result ext opts l ctx source [] with
      ⟨-, g2, -, -⟩ | ⟨c', err', g1, g2, g3, g4⟩
    · rw [hcs] at g2
      have := g2 calls[k] (List.getElem_mem _)
      rw [herr] at this; cases this
    · rw [hcs] at g1
      have hg : c' = calls[k] := by
        rw [List.getLast?_eq_getElem?, hlen2] at g1
        simp only [Nat.add_sub_cancel] at g1
        rw [List.getElem?_eq_getElem hlen] at g1
        exact (Option.some.inj g1).symm
      subst hg
      rw [herr] at g2
      cases g2
      exact ⟨g3, g4⟩

/-- `Seek(0, io.SeekStart)`: on a stream that can be repositioned it succeeds and
leaves the source at offset 0; on one that cannot it returns the error of the
stream and leaves the source as it is. -/
theorem Seek_start (s : EntitySource) :
    (s.seekErr = none →
      (s.Seek 0 SeekStart).err = none ∧ (s.Seek 0 SeekStart).pos = 0 ∧
      (s.Seek 0 SeekStart).source = { s with pos := 0 }) ∧
    (∀ err, s.seekErr = some err →
      (s.Seek 0 SeekStart).err = some err ∧ (s.Seek 0 SeekStart).source = s) := by
  constructor
  · intro h
    simp [EntitySource.Seek, SeekStart, h]
  · intro err h
    simp [EntitySource.Seek, SeekStart, h]

theorem Seek_start_err (s : EntitySource) :
    (s.Seek 0 SeekStart).err = s.seekErr := by
  cases h : s.seekErr with
  | none => exact ((Seek_start s).1 h).1
  | some err => exact ((Seek_start s).2 err h).1

/-- C14: when every call that Extract makes returns no error, Extract returns
no error, it has called every extractor registered for the extension, in the
order of registration, and the records it returns are those of the calls one
after the other; and when no extractor is registered for the extension it
returns no record and no error. -/
theorem Extract_concatenates_records (m : extractorManager) (ctx : Context)
    (ext : GoString) (source : EntitySource) (opts : List optionFunc)
    (hall : ∀ c ∈ (m.Extract ctx ext source opts).calls, c.outcome.err = none) :
    (m.Extract ctx ext source opts).err = none ∧
    (m.Extract ctx ext source opts).calls.map (fun c => c.extractor) = m.extMap.index ext ∧
    (m.Extract ctx ext source opts).data =
      ((m.Extract ctx ext source opts).calls.map (fun c => c.outcome.data)).flatten ∧
    (m.extMap.lookup ext = none →
      (m.Extract ctx ext source opts).data = [] ∧
      (m.Extract ctx ext source opts).err = none ∧
      (m.Extract ctx ext source opts).calls = []) := by
  cases hl : m.extMap.lookup ext with
  | none =>
    have : m.Extract ctx ext source opts =
        { data := [], err := none, source := source, ctx := ctx, calls := [] } := by
      unfold extractorManager.Extract
      rw [hl]
    rw [this]
    simp [ExtMap.index, hl]
  | some l =>
    rw [Extract_of_lookup m ctx ext source opts l hl] at hall ⊢
    rcases extractLoop_result ext opts l ctx source [] with
      ⟨g1, -, g3, g4⟩ | ⟨c', err', g1, g2, -, -⟩
    · refine ⟨g1, ?_, ?_, by simp⟩
      · rw [g3]; simp [ExtMap.index, hl]
      · rw [g4]; simp [recordsOf, List.flatMap]
    · have := hall c' (List.mem_of_mem_getLast? g1)
      rw [g2] at this; cases this

/-- C15: when the extractors [E1..En] are registered for the extension and the
calls of E1..E(k-1) return no error, Extract calls Ek, and the options it hands
to Ek are the options of the caller followed by WithExtracted of the records
that the calls of E1..E(k-1) returned, one after the other; applied in order to
any option record they give an `extracted` equal to those records, the empty
sequence for the first extractor, whatever the options of the caller are, and
they leave the language as the options of the caller set it. -/
theorem Extract_threads_extracted (m : extractorManager) (ctx : Context)
    (ext : GoString) (source : EntitySource) (opts : List optionFunc)
    (l : List Extractor) (k : Nat) (e : Extractor)
    (hl : m.extMap.lookup ext = some l) (hk : l.get? k = some e)
    (hok : ∀ p ∈ (m.Extract ctx ext source opts).calls.take k, p.outcome.err = none) :
    ∃ c, (m.Extract ctx ext source opts).calls.get? k = some c ∧
      c.extractor = e ∧
      ((m.Extract ctx ext source opts).calls.take k).map (fun p => p.extractor) = l.take k ∧
      c.opts = opts ++ [WithExtracted
        ((((m.Extract ctx ext source opts).calls.take k).map
          (fun p => p.outcome.data)).flatten)] ∧
      (∀ o : option,
        (applyOptions c.opts o).extracted =
          (((m.Extract ctx ext source opts).calls.take k).map
            (fun p => p.outcome.data)).flatten ∧
        (applyOptions c.opts o).language = (applyOptions opts o).language) ∧
      (k = 0 → ∀ o : option, (applyOptions c.opts o).extracted = []) := by
  obtain ⟨c, h1, h2, h3, -⟩ := Extract_call_at m ctx ext source opts l k e hl hk hok
  have hopts : c.opts = opts ++ [WithExtracted
      ((((m.Extract ctx ext source opts).calls.take k).map
        (fun p => p.outcome.data)).flatten)] := by
    rw [h2]
    simp [callOf, recordsOf, List.flatMap]
  have happly : ∀ o : option,
      (applyOptions c.opts o).extracted =
        (((m.Extract ctx ext source opts).calls.take k).map
          (fun p => p.outcome.data)).flatten ∧
      (applyOptions c.opts o).language = (applyOptions opts o).language := by
    intro o
    rw [hopts]
    simp [applyOptions, List.foldl_append, optionFunc.apply, WithExtracted]
  refine ⟨c, h1, by rw [h2]; rfl, h3, hopts, happly, ?_⟩
  intro hk0 o
  rw [(happly o).1, hk0]
  rfl

/-- C14 at the extractors [A, B] of the spec, both succeeding: the result is the
record of A followed by the record of B. -/
theorem Extract_concatenates_records_witness :
    ((managerOf (ascii "jpg")
        [recordsExtractor [ascii "jpg"] [sampleExif] 100,
         recordsExtractor [ascii "jpg"] [sampleGeo] 7]).Extract
        {} (ascii "jpg") {} []).err = none ∧
    ((managerOf (ascii "jpg")
        [recordsExtractor [ascii "jpg"] [sampleExif] 100,
         recordsExtractor [ascii "jpg"] [sampleGeo] 7]).Extract
        {} (ascii "jpg") {} []).data = [sampleExif, sampleGeo] :=
  have h := Extract_concatenates_records
    (managerOf (ascii "jpg")
      [recordsExtractor [ascii "jpg"] [sampleExif] 100,
       recordsExtractor [ascii "jpg"] [sampleGeo] 7])
    {} (ascii "jpg") {} []
    (by
      intro c hc
      have hcalls : ((managerOf (ascii "jpg")
          [recordsExtractor [ascii "jpg"] [sampleExif] 100,
           recordsExtractor [ascii "jpg"] [sampleGeo] 7]).Extract
          {} (ascii "jpg") {} []).calls =
          [callOf (ascii "jpg") [] (recordsExtractor [ascii "jpg"] [sampleExif] 100) {} {} [],
           callOf (ascii "jpg") [] (recordsExtractor [ascii "jpg"] [sampleGeo] 7) {}
             { pos := 100 } [sampleExif]] := rfl
      rw [hcalls] at hc
      simp only [List.mem_cons, List.mem_singleton, List.not_mem_nil, or_false] at hc
      rcases hc with h | h <;> (rw [h]; rfl))
  ⟨h.1, h.2.2.1.trans rfl⟩

/-- C15 at the extractors [A, B] of the spec and the caller's options
WithExtracted and WithLanguage: Extract calls B with options that give it the
record of A, not the records of the caller, and the language of the caller; and
B, which returns the records it finds in its options, returns the record of
A. -/
theorem Extract_threads_extracted_witness :
    (∃ c, ((managerOf (ascii "jpg")
        [recordsExtractor [ascii "jpg"] [sampleExif] 100, echoExtractor [ascii "jpg"]]).Extract
        {} (ascii "jpg") {} [WithExtracted [sampleGeo], WithLanguage (ascii "en")]).calls.get? 1 =
          some c ∧
      (applyOptions c.opts {}).extracted = [sampleExif] ∧
      (applyOptions c.opts {}).language = ascii "en") ∧
    ((managerOf (ascii "jpg")
        [recordsExtractor [ascii "jpg"] [sampleExif] 100, echoExtractor [ascii "jpg"]]).Extract
        {} (ascii "jpg") {} [WithExtracted [sampleGeo], WithLanguage (ascii "en")]).data =
      [sampleExif, sampleExif] := by
  obtain ⟨c, h1, -, -, -, h5, -⟩ := Extract_threads_extracted
    (managerOf (ascii "jpg")
      [recordsExtractor [ascii "jpg"] [sampleExif] 100, echoExtractor [ascii "jpg"]])
    {} (ascii "jpg") {} [WithExtracted [sampleGeo], WithLanguage (ascii "en")]
    [recordsExtractor [ascii "jpg"] [sampleExif] 100, echoExtractor [ascii "jpg"]]
    1 (echoExtractor [ascii "jpg"]) rfl rfl
    (by
      intro p hp
      have hcalls : ((managerOf (ascii "jpg")
          [recordsExtractor [ascii "jpg"] [sampleExif] 100,
           echoExtractor [ascii "jpg"]]).Extract
          {} (ascii "jpg") {} [WithExtracted [sampleGeo], WithLanguage (ascii "en")]).calls.take 1 =
          [callOf (ascii "jpg") [WithExtracted [sampleGeo], WithLanguage (ascii "en")]
            (recordsExtractor [ascii "jpg"] [sampleExif] 100) {} {} []] := rfl
      rw [hcalls] at hp
      rw [List.mem_singleton.1 hp]
      rfl)
  exact ⟨⟨c, h1, (h5 {}).1.trans rfl, (h5 {}).2.trans rfl⟩, rfl⟩

/-- C18 (as stated, refuted): a source whose Seek fails is handed to the
extractor where it stands. With a source that the caller hands over closed at
offset 5, the registered extractor is invoked with the source at offset 5; and
when the first of two extractors closes the source at offset 100, the second is
invoked with the source at offset 100. In both runs Extract returns the records
and no error. -/
theorem Extract_calls_extractor_after_failed_seek :
    (((managerOf (ascii "jpg") [recordsExtractor [ascii "jpg"] [sampleExif] 0]).Extract
        {} (ascii "jpg")
        { pos := 5, seekErr := some (.other (ascii "file already closed")) } []).calls.map
          (fun c => c.source.pos) = [5] ∧
     ((managerOf (ascii "jpg") [recordsExtractor [ascii "jpg"] [sampleExif] 0]).Extract
        {} (ascii "jpg")
        { pos := 5, seekErr := some (.other (ascii "file already closed")) } []).err = none ∧
     ((managerOf (ascii "jpg") [recordsExtractor [ascii "jpg"] [sampleExif] 0]).Extract
        {} (ascii "jpg")
        { pos := 5, seekErr := some (.other (ascii "file already closed")) } []).data =
          [sampleExif]) ∧
    (((managerOf (ascii "jpg")
        [closingExtractor [ascii "jpg"] [sampleExif] 100,
         recordsExtractor [ascii "jpg"] [sampleGeo] 0]).Extract
        {} (ascii "jpg") {} []).calls.map (fun c => c.source.pos) = [0, 100] ∧
     ((managerOf (ascii "jpg")
        [closingExtractor [ascii "jpg"] [sampleExif] 100,
         recordsExtractor [ascii "jpg"] [sampleGeo] 0]).Extract
        {} (ascii "jpg") {} []).err = none ∧
     ((managerOf (ascii "jpg")
        [closingExtractor [ascii "jpg"] [sampleExif] 100,
         recordsExtractor [ascii "jpg"] [sampleGeo] 0]).Extract
        {} (ascii "jpg") {} []).data = [sampleExif, sampleGeo]) :=
  ⟨⟨rfl, rfl, rfl⟩, ⟨rfl, rfl, rfl⟩⟩

/-- C18 (amended): when the extractors [E1..En] are registered for the extension
and the calls of E1..E(k-1) return no error, Extract calls Ek, and the source it
hands to Ek is the source as the call before left it (the source of the caller
for the first call) after Seek(0, io.SeekStart): at offset 0, whatever its
position was, when that seek succeeds; and when that seek fails its error is
discarded and Ek is called all the same, with the source as it stood. -/
theorem Extract_resets_source_before_each_call (m : extractorManager) (ctx : Context)
    (ext : GoString) (source : EntitySource) (opts : List optionFunc)
    (l : List Extractor) (k : Nat) (e : Extractor)
    (hl : m.extMap.lookup ext = some l) (hk : l.get? k = some e)
    (hok : ∀ p ∈ (m.Extract ctx ext source opts).calls.take k, p.outcome.err = none) :
    ∃ c, (m.Extract ctx ext source opts).calls.get? k = some c ∧
      c.extractor = e ∧
      c.source =
        ((sourceAfter source ((m.Extract ctx ext source opts).calls.take k)).Seek
          0 SeekStart).source ∧
      (((sourceAfter source ((m.Extract ctx ext source opts).calls.take k)).Seek
          0 SeekStart).err = none →
        c.source.pos = 0 ∧
        c.source =
          { sourceAfter source ((m.Extract ctx ext source opts).calls.take k) with pos := 0 }) ∧
      (∀ err,
        ((sourceAfter source ((m.Extract ctx ext source opts).calls.take k)).Seek
          0 SeekStart).err = some err →
        c.source = sourceAfter source ((m.Extract ctx ext source opts).calls.take k)) := by
  obtain ⟨c, h1, h2, -, -⟩ := Extract_call_at m ctx ext source opts l k e hl hk hok
  have hs : c.source =
      ((sourceAfter source ((m.Extract ctx ext source opts).calls.take k)).Seek
        0 SeekStart).source := by
    rw [h2]; rfl
  refine ⟨c, h1, by rw [h2]; rfl, hs, ?_, ?_⟩
  · intro hnone
    rw [Seek_start_err] at hnone
    have h := ((Seek_start _).1 hnone).2.2
    rw [hs, h]
    exact ⟨rfl, rfl⟩
  · intro err herr
    rw [Seek_start_err] at herr
    rw [hs]
    exact ((Seek_start _).2 err herr).2

/-- C18 (amended) at a source that the caller hands over at offset 5 and that
the first extractor leaves at offset 100: Extract calls the second extractor
with the source at offset 0. -/
theorem Extract_resets_source_before_each_call_witness :
    ∃ c, ((managerOf (ascii "jpg")
        [recordsExtractor [ascii "jpg"] [sampleExif] 100,
         recordsExtractor [ascii "jpg"] [sampleGeo] 7]).Extract
        {} (ascii "jpg") { pos := 5 } []).calls.get? 1 = some c ∧
      (sourceAfter { pos := 5 } (((managerOf (ascii "jpg")
        [recordsExtractor [ascii "jpg"] [sampleExif] 100,
         recordsExtractor [ascii "jpg"] [sampleGeo] 7]).Extract
        {} (ascii "jpg") { pos := 5 } []).calls.take 1)).pos = 100 ∧
      c.source.pos = 0 := by
  obtain ⟨c, h1, -, -, h4, -⟩ := Extract_resets_source_before_each_call
    (managerOf (ascii "jpg")
      [recordsExtractor [ascii "jpg"] [sampleExif] 100,
       recordsExtractor [ascii "jpg"] [sampleGeo] 7])
    {} (ascii "jpg") { pos := 5 } []
    [recordsExtractor [ascii "jpg"] [sampleExif] 100,
     recordsExtractor [ascii "jpg"] [sampleGeo] 7]
    1 (recordsExtractor [ascii "jpg"] [sampleGeo] 7) rfl rfl
    (by
      intro p hp
      have hcalls : ((managerOf (ascii "jpg")
          [recordsExtractor [ascii "jpg"] [sampleExif] 100,
           recordsExtractor [ascii "jpg"] [sampleGeo] 7]).Extract
          {} (ascii "jpg") { pos := 5 } []).calls.take 1 =
          [callOf (ascii "jpg") [] (recordsExtractor [ascii "jpg"] [sampleExif] 100) {}
            { pos := 5 } []] := rfl
      rw [hcalls] at hp
      rw [List.mem_singleton.1 hp]
      rfl)
  exact ⟨c, h1, rfl, (h4 rfl).1⟩

/-- C19 (as stated, refuted): with a context that is already cancelled when
Extract is called, the registered extractor is still invoked, with that
cancelled context, and Extract returns its record and no error; and when the
context becomes cancelled while the first of two extractors runs, the second is
still invoked, with the cancelled context, and Extract returns both records and
no error. -/
theorem Extract_invokes_extractors_under_cancelled_context :
    (((managerOf (ascii "jpg") [recordsExtractor [ascii "jpg"] [sampleExif] 0]).Extract
        { cancelled := true } (ascii "jpg") {} []).calls.map (fun c => c.ctx.cancelled) =
      [true] ∧
     ((managerOf (ascii "jpg") [recordsExtractor [ascii "jpg"] [sampleExif] 0]).Extract
        { cancelled := true } (ascii "jpg") {} []).err = none ∧
     ((managerOf (ascii "jpg") [recordsExtractor [ascii "jpg"] [sampleExif] 0]).Extract
        { cancelled := true } (ascii "jpg") {} []).data = [sampleExif]) ∧
    (((managerOf (ascii "jpg")
        [cancelledDuringExtractor [ascii "jpg"] [sampleExif],
         recordsExtractor [ascii "jpg"] [sampleGeo] 0]).Extract
        { cancelled := false } (ascii "jpg") {} []).calls.map (fun c => c.ctx.cancelled) =
      [false, true] ∧
     ((managerOf (ascii "jpg")
        [cancelledDuringExtractor [ascii "jpg"] [sampleExif],
         recordsExtractor [ascii "jpg"] [sampleGeo] 0]).Extract
        { cancelled := false } (ascii "jpg") {} []).err = none ∧
     ((managerOf (ascii "jpg")
        [cancelledDuringExtractor [ascii "jpg"] [sampleExif],
         recordsExtractor [ascii "jpg"] [sampleGeo] 0]).Extract
        { cancelled := false } (ascii "jpg") {} []).data = [sampleExif, sampleGeo]) :=
  ⟨⟨rfl, rfl, rfl⟩, ⟨rfl, rfl, rfl⟩⟩

/-- C19 (amended): Extract does not observe cancellation itself. Whatever the
context is, cancelled or not: when the extractors [E1..En] are registered for
the extension and the calls of E1..E(k-1) return no error, Extract calls Ek,
with the context as the call before left it (the context of the caller for the
first call); and the extraction aborts, with no later call and the error
returned with no record, when the call returns an error. -/
theorem Extract_hands_context_to_each_call (m : extractorManager) (ctx : Context)
    (ext : GoString) (source : EntitySource) (opts : List optionFunc)
    (l : List Extractor) (k : Nat) (e : Extractor)
    (hl : m.extMap.lookup ext = some l) (hk : l.get? k = some e)
    (hok : ∀ p ∈ (m.Extract ctx ext source opts).calls.take k, p.outcome.err = none) :
    ∃ c, (m.Extract ctx ext source opts).calls.get? k = some c ∧
      c.extractor = e ∧
      c.ctx = ctxAfter ctx ((m.Extract ctx ext source opts).calls.take k) ∧
      (k = 0 → c.ctx = ctx) ∧
      (∀ err, c.outcome.err = some err →
        (m.Extract ctx ext source opts).calls.length = k + 1 ∧
        (m.Extract ctx ext source opts).err = some err ∧
        (m.Extract ctx ext source opts).data = []) := by
  obtain ⟨c, h1, h2, -, h4⟩ := Extract_call_at m ctx ext source opts l k e hl hk hok
  have hc : c.ctx = ctxAfter ctx ((m.Extract ctx ext source opts).calls.take k) := by
    rw [h2]; rfl
  refine ⟨c, h1, by rw [h2]; rfl, hc, ?_, h4⟩
  intro hk0
  rw [hc, hk0]
  rfl

/-- C19 (amended) at a context that is cancelled when Extract is called, where
the first extractor is called with it, and at a context that becomes cancelled
while the first extractor runs, where the second extractor is called with the
cancelled context. -/
theorem Extract_hands_context_to_each_call_witness :
    (∃ c, ((managerOf (ascii "jpg") [recordsExtractor [ascii "jpg"] [sampleExif] 0]).Extract
        { cancelled := true } (ascii "jpg") {} []).calls.get? 0 = some c ∧
      c.ctx.cancelled = true) ∧
    (∃ c, ((managerOf (ascii "jpg")
        [cancelledDuringExtractor [ascii "jpg"] [sampleExif],
         recordsExtractor [ascii "jpg"] [sampleGeo] 0]).Extract
        {} (ascii "jpg") {} []).calls.get? 1 = some c ∧
      c.ctx.cancelled = true) := by
  obtain ⟨c, h1, -, -, h4, -⟩ := Extract_hands_context_to_each_call
    (managerOf (ascii "jpg") [recordsExtractor [ascii "jpg"] [sampleExif] 0])
    { cancelled := true } (ascii "jpg") {} []
    [recordsExtractor [ascii "jpg"] [sampleExif] 0]
    0 (recordsExtractor [ascii "jpg"] [sampleExif] 0) rfl rfl
    (by intro p hp; simp at hp)
  obtain ⟨d, g1, -, g3, -, -⟩ := Extract_hands_context_to_each_call
    (managerOf (ascii "jpg")
      [cancelledDuringExtractor [ascii "jpg"] [sampleExif],
       recordsExtractor [ascii "jpg"] [sampleGeo] 0])
    {} (ascii "jpg") {} []
    [cancelledDuringExtractor [ascii "jpg"] [sampleExif],
     recordsExtractor [ascii "jpg"] [sampleGeo] 0]
    1 (recordsExtractor [ascii "jpg"] [sampleGeo] 0) rfl rfl
    (by
      intro p hp
      have hcalls : ((managerOf (ascii "jpg")
          [cancelledDuringExtractor [ascii "jpg"] [sampleExif],
           recordsExtractor [ascii "jpg"] [sampleGeo] 0]).Extract
          {} (ascii "jpg") {} []).calls.take 1 =
          [callOf (ascii "jpg") [] (cancelledDuringExtractor [ascii "jpg"] [sampleExif])
            {} {} []] := rfl
      rw [hcalls] at hp
      rw [List.mem_singleton.1 hp]
      rfl)
  refine ⟨⟨c, h1, ?_⟩, ⟨d, g1, ?_⟩⟩
  · rw [h4 rfl]
  · rw [g3]
    rfl

theorem index_register (e : Extractor) (m : ExtMap) (ext x : GoString) :
    (register e m ext).index x = if x = ext then m.index ext ++ [e] else m.index x := by
  unfold register ExtMap.index
  by_cases h : x = ext
  · subst h; simp
  · simp [h, AList.lookup_insert_ne h]

theorem keys_register (e : Extractor) (m : ExtMap) (ext x : GoString) :
    x ∈ (register e m ext).keys ↔ x = ext ∨ x ∈ m.keys := by
  unfold register
  rw [← AList.mem_keys, AList.mem_insert, AList.mem_keys]

theorem index_foldl_register (e : Extractor) (exts : List GoString) (x : GoString) :
    ∀ m : ExtMap, (exts.foldl (register e) m).index x =
      m.index x ++ List.replicate (exts.count x) e := by
  induction exts with
  | nil => intro m; simp
  | cons a t ih =>
    intro m
    rw [List.foldl_cons, ih, index_register]
    by_cases h : x = a
    · subst h
      simp [List.replicate_succ]
    · have h' : ¬ a = x := fun h2 => h h2.symm
      simp [h, List.count_cons_of_ne h']

theorem keys_foldl_register (e : Extractor) (exts : List GoString) (x : GoString) :
    ∀ m : ExtMap, x ∈ (exts.foldl (register e) m).keys ↔ x ∈ exts ∨ x ∈ m.keys := by
  induction exts with
  | nil => intro m; simp
  | cons a t ih =>
    intro m
    rw [List.foldl_cons, ih, keys_register]
    simp only [List.mem_cons]
    tauto

theorem index_registry (es : List Extractor) (x : GoString) :
    ∀ m : ExtMap,
      (es.foldl (fun m extractor => extractor.Exts.foldl (register extractor) m) m).index x =
        m.index x ++ es.flatMap (fun e => List.replicate (e.Exts.count x) e) := by
  induction es with
  | nil => intro m; simp
  | cons e t ih =>
    intro m
    rw [List.foldl_cons, ih, index_foldl_register]
    simp [List.flatMap_cons]

theorem keys_registry (es : List Extractor) (x : GoString) :
    ∀ m : ExtMap,
      x ∈ (es.foldl (fun m extractor => extractor.Exts.foldl (register extractor) m) m).keys ↔
        (∃ e ∈ es, x ∈ e.Exts) ∨ x ∈ m.keys := by
  induction es with
  | nil => intro m; simp
  | cons e t ih =>
    intro m
    rw [List.foldl_cons, ih, keys_foldl_register]
    simp only [List.mem_cons, exists_eq_or_imp]
    constructor
    · rintro (h | h | h)
      · exact Or.inl (Or.inr h)
      · exact Or.inl (Or.inl h)
      · exact Or.inr h
    · rintro ((h | h) | h)
      · exact Or.inr (Or.inl h)
      · exact Or.inl h
      · exact Or.inr (Or.inr h)

theorem count_of_nodup (exts : List GoString) (x : GoString) (h : exts.Nodup) :
    exts.count x = if x ∈ exts then 1 else 0 := by
  induction exts with
  | nil => simp
  | cons a t ih =>
    have hn := List.nodup_cons.1 h
    rw [List.count_cons, ih hn.2]
    by_cases hax : a = x
    · subst hax
      simp [hn.1]
    · have hxa : ¬ x = a := fun h2 => hax h2.symm
      simp [hax, hxa]

theorem flatMap_replicate_count (es : List Extractor) (x : GoString)
    (hnd : ∀ e ∈ es, e.Exts.Nodup) :
    es.flatMap (fun e => List.replicate (e.Exts.count x) e) =
      es.filter (fun e => decide (x ∈ e.Exts)) := by
  induction es with
  | nil => simp
  | cons e t ih =>
    have ih' := ih (fun a ha => hnd a (by simp [ha]))
    have hne : e.Exts.Nodup := hnd e (by simp)
    rw [List.flatMap_cons, ih']
    by_cases hx : x ∈ e.Exts
    · rw [count_of_nodup _ _ hne, if_pos hx]
      simp [hx]
    · rw [count_of_nodup _ _ hne, if_neg hx]
      simp [hx]

theorem enabledExtractors_eq (ctx : Context) (settings : Settings) (kinds : ExtractorKinds) :
    enabledExtractors ctx settings kinds =
      (if settings.MediaMetaExifEnabled ctx then [kinds.exif] else []) ++
      (if settings.MediaMetaMusicEnabled ctx then [kinds.music] else []) ++
      (if settings.MediaMetaFFProbeEnabled ctx then [kinds.ffprobe] else []) ++
      (if settings.MediaMetaGeocodingEnabled ctx then [kinds.geocoding] else []) := by
  unfold enabledExtractors
  cases settings.MediaMetaExifEnabled ctx <;> cases settings.MediaMetaMusicEnabled ctx <;>
    cases settings.MediaMetaFFProbeEnabled ctx <;>
    cases settings.MediaMetaGeocodingEnabled ctx <;> rfl

theorem mem_flatMap_replicate_count (es : List Extractor) (x : GoString) (e : Extractor) :
    e ∈ es.flatMap (fun e => List.replicate (e.Exts.count x) e) ↔ e ∈ es ∧ x ∈ e.Exts := by
  simp only [List.mem_flatMap, List.mem_replicate]
  constructor
  · rintro ⟨a, ha, hcount, rfl⟩
    refine ⟨ha, ?_⟩
    by_contra hx
    exact hcount (List.count_eq_zero_of_not_mem hx)
  · rintro ⟨he, hx⟩
    refine ⟨e, he, ?_, rfl⟩
    intro h0
    have := List.count_pos_iff.2 hx
    omega

/-- C16: for every extension x, the list extMap[x] of the manager that
NewExtractorManager builds consists exactly of the enabled extractors that
declare x in Exts(), in the order exif, music, ffprobe, geocoding, where the
enabled extractors are those whose switch is on: an extractor is in the list
iff it is enabled and declares x, the list follows the order of the enabled
extractors (each is there once for every time it declares x), and it is the
list of the enabled extractors that declare x when no extractor declares an
extension twice; and Exts() of the manager holds exactly the extensions that
some enabled extractor declares. -/
theorem NewExtractorManager_registers_enabled_extractors (ctx : Context)
    (settings : Settings) (kinds : ExtractorKinds) (x : GoString) :
    enabledExtractors ctx settings kinds =
      (if settings.MediaMetaExifEnabled ctx then [kinds.exif] else []) ++
      (if settings.MediaMetaMusicEnabled ctx then [kinds.music] else []) ++
      (if settings.MediaMetaFFProbeEnabled ctx then [kinds.ffprobe] else []) ++
      (if settings.MediaMetaGeocodingEnabled ctx then [kinds.geocoding] else []) ∧
    (∀ e, e ∈ (NewExtractorManager ctx settings kinds).extMap.index x ↔
      e ∈ enabledExtractors ctx settings kinds ∧ x ∈ e.Exts) ∧
    (NewExtractorManager ctx settings kinds).extMap.index x =
      (enabledExtractors ctx settings kinds).flatMap
        (fun e => List.replicate (e.Exts.count x) e) ∧
    ((∀ e ∈ enabledExtractors ctx settings kinds, e.Exts.Nodup) →
      (NewExtractorManager ctx settings kinds).extMap.index x =
        (enabledExtractors ctx settings kinds).filter (fun e => decide (x ∈ e.Exts))) ∧
    (x ∈ (NewExtractorManager ctx settings kinds).Exts ↔
      ∃ e ∈ enabledExtractors ctx settings kinds, x ∈ e.Exts) ∧
    ((NewExtractorManager ctx settings kinds).extMap.lookup x = none ↔
      x ∉ (NewExtractorManager ctx settings kinds).Exts) := by
  have hidx : (NewExtractorManager ctx settings kinds).extMap.index x =
      (enabledExtractors ctx settings kinds).flatMap
        (fun e => List.replicate (e.Exts.count x) e) := by
    unfold NewExtractorManager
    simp only [index_registry]
    simp [ExtMap.index]
  refine ⟨enabledExtractors_eq ctx settings kinds, ?_, hidx, ?_, ?_, ?_⟩
  · intro e
    rw [hidx]
    exact mem_flatMap_replicate_count _ x e
  · intro hnd
    rw [hidx]
    exact flatMap_replicate_count _ x hnd
  · unfold NewExtractorManager extractorManager.Exts
    simp only [keys_registry]
    simp
  · unfold extractorManager.Exts
    rw [AList.lookup_eq_none, AList.mem_keys]

/-- C16 at four extractors with the music extractor disabled: jpg is served by
exif and then geocoding, mp3 by ffprobe alone. -/
theorem NewExtractorManager_registers_enabled_extractors_witness :
    (NewExtractorManager {} musicDisabled sampleKinds).extMap.index (ascii "jpg") =
      [sampleKinds.exif, sampleKinds.geocoding] ∧
    (NewExtractorManager {} musicDisabled sampleKinds).extMap.index (ascii "mp3") =
      [sampleKinds.ffprobe] :=
  ⟨(NewExtractorManager_registers_enabled_extractors {} musicDisabled sampleKinds
      (ascii "jpg")).2.2.1.trans rfl,
   (NewExtractorManager_registers_enabled_extractors {} musicDisabled sampleKinds
      (ascii "mp3")).2.2.1.trans rfl⟩

/-! ## path.Clean on paths that are not rooted, and containment of a join -/

theorem slashed_eq_nil (l : List GoString) : slashed l = [] ↔ l = [] := by
  cases l with
  | nil => simp [slashed_nil]
  | cons a t => simp [slashed_cons]

theorem drop_one_slashed_append (l m : List GoString) (hl : l ≠ []) :
    (slashed (l ++ m)).drop 1 = (slashed l).drop 1 ++ slashed m := by
  cases l with
  | nil => exact absurd rfl hl
  | cons a t => simp [slashed_cons, slashed_append]

theorem drop_one_slashed_ne_nil (l : List GoString) (hl : l ≠ [])
    (hne : ∀ x ∈ l, x ≠ []) : (slashed l).drop 1 ≠ [] := by
  cases l with
  | nil => exact absurd rfl hl
  | cons a t =>
    have ha : a ≠ [] := hne a (by simp)
    simp [slashed_cons, ha]

theorem dots_ne_nil (k : Nat) : ∀ x ∈ List.replicate k (ascii ".."), x ≠ [] := by
  intro x hx
  rw [List.eq_of_mem_replicate hx]
  decide

theorem relPath_members_ne_nil (k : Nat) (stack : List GoString)
    (hst : ∀ x ∈ stack, plainSegment x) :
    ∀ x ∈ List.replicate k (ascii "..") ++ stack, x ≠ [] := by
  intro x hx
  rcases List.mem_append.1 hx with h | h
  · exact dots_ne_nil k x h
  · exact (hst x h).1

/-- Adding an element to a path that is not rooted: a slash first unless the
path is empty. -/
theorem relPath_push (l : List GoString) (s : GoString) (hne : ∀ x ∈ l, x ≠ []) :
    (if (slashed l).drop 1 = [] then (slashed l).drop 1 else (slashed l).drop 1 ++ [47]) ++ s =
      (slashed (l ++ [s])).drop 1 := by
  by_cases hl : l = []
  · subst hl; simp [slashed_nil, slashed_cons]
  · rw [if_neg (drop_one_slashed_ne_nil l hl hne), drop_one_slashed_append l [s] hl]
    simp [slashed_cons, slashed_nil]

theorem backtrackLoop_to_start (last : GoString) (hl : (47 : Byte) ∉ last) (j : Nat)
    (hj : j < last.length) : backtrackLoop last 0 j = 0 := by
  induction j with
  | zero => simp [backtrackLoop]
  | succ j ih =>
    have hget : last[j + 1]? = some (last.get ⟨j + 1, hj⟩) := by
      simp [List.getElem?_eq_getElem hj]
    have hne : last.get ⟨j + 1, hj⟩ ≠ 47 := fun h => hl (h ▸ List.get_mem _ _ _)
    rw [backtrackLoop, hget]
    rw [if_pos ⟨by omega, by simpa using hne⟩]
    exact ih (by omega)

theorem relPath_length_lt (k : Nat) (stack : List GoString)
    (hst : ∀ x ∈ stack, plainSegment x) :
    (relPath k []).length < (relPath k stack).length ↔ stack ≠ [] := by
  constructor
  · intro h hs
    rw [hs] at h
    exact absurd h (lt_irrefl _)
  · intro hs
    unfold relPath
    by_cases hk : List.replicate k (ascii "..") = []
    · rw [hk]
      simp only [List.nil_append, List.append_nil, slashed_nil, List.drop_nil, List.length_nil]
      exact List.length_pos.2 (drop_one_slashed_ne_nil stack hs (fun x hx => (hst x hx).1))
    · rw [List.append_nil, drop_one_slashed_append _ stack hk, List.length_append]
      have : 0 < (slashed stack).length :=
        List.length_pos.2 (fun h => hs ((slashed_eq_nil stack).1 h))
      omega

/-- Removing the last element of a path that is not rooted, as the `..` case
of `path.Clean` does when it can backtrack. -/
theorem relPath_pop (k : Nat) (stack : List GoString) (hst : ∀ x ∈ stack, plainSegment x)
    (hs : stack ≠ []) :
    (relPath k stack).take
        (backtrackLoop (relPath k stack) (relPath k []).length
          ((relPath k stack).length - 1)) =
      relPath k stack.dropLast := by
  rcases List.eq_nil_or_concat stack with h | ⟨init, last, h⟩
  · exact absurd h hs
  · rw [List.concat_eq_append] at h
    subst h
    have hlast : plainSegment last := hst last (by simp)
    have hpos : 0 < last.length := List.length_pos.2 hlast.1
    rw [List.dropLast_concat]
    unfold relPath
    by_cases hl0 : List.replicate k (ascii "..") ++ init = []
    · have hk : List.replicate k (ascii "..") = [] := (List.append_eq_nil.1 hl0).1
      have hi : init = [] := (List.append_eq_nil.1 hl0).2
      rw [hk, hi]
      simp only [List.nil_append, List.append_nil, slashed_nil, slashed_cons, List.drop_succ_cons,
        List.drop_zero, List.drop_nil, List.length_nil]
      rw [backtrackLoop_to_start last hlast.2 _ (by omega)]
      simp
    · have hsplit : (slashed (List.replicate k (ascii "..") ++ (init ++ [last]))).drop 1 =
          (slashed (List.replicate k (ascii "..") ++ init)).drop 1 ++ 47 :: last := by
        rw [← List.append_assoc, drop_one_slashed_append _ [last] hl0]
        simp [slashed_cons, slashed_nil]
      have hdd : ((slashed (List.replicate k (ascii "..") ++ [])).drop 1).length ≤
          ((slashed (List.replicate k (ascii "..") ++ init)).drop 1).length := by
        by_cases hk : List.replicate k (ascii "..") = []
        · rw [hk]; simp [slashed_nil]
        · rw [List.append_nil, drop_one_slashed_append _ init hk, List.length_append]
          omega
      rw [hsplit]
      have := backtrackLoop_to_slash
        ((slashed (List.replicate k (ascii "..") ++ init)).drop 1) last _ hdd hlast.2
        last.length (le_refl _)
      have h2 : ((slashed (List.replicate k (ascii "..") ++ init)).drop 1 ++ 47 :: last).length - 1
          = ((slashed (List.replicate k (ascii "..") ++ init)).drop 1).length + last.length := by
        simp
      rw [h2, this]
      simp

theorem relPath_push_real (k : Nat) (stack : List GoString) (s : GoString)
    (hst : ∀ x ∈ stack, plainSegment x) :
    (if (relPath k stack).length ≠ 0 then relPath k stack ++ [47] else relPath k stack) ++ s =
      relPath k (stack ++ [s]) := by
  have h := relPath_push (List.replicate k (ascii "..") ++ stack) s
    (relPath_members_ne_nil k stack hst)
  unfold relPath
  rw [← List.append_assoc, ← h]
  by_cases h0 : (slashed (List.replicate k (ascii "..") ++ stack)).drop 1 = []
  · have hlen0 : ¬ ((slashed (List.replicate k (ascii "..") ++ stack)).drop 1).length ≠ 0 := by
      rw [h0]; simp
    rw [if_neg hlen0, if_pos h0]
  · have hlen : ((slashed (List.replicate k (ascii "..") ++ stack)).drop 1).length ≠ 0 := by
      intro hz; exact h0 (List.length_eq_zero.1 hz)
    rw [if_pos hlen, if_neg h0]

theorem relPath_push_dotdot (k : Nat) :
    (if (relPath k []).length > 0 then relPath k [] ++ [47] else relPath k []) ++ [46, 46] =
      relPath (k + 1) [] := by
  have h := relPath_push (List.replicate k (ascii "..")) (ascii "..") (dots_ne_nil k)
  have hrep : List.replicate (k + 1) (ascii "..") = List.replicate k (ascii "..") ++ [ascii ".."] :=
    List.replicate_succ' _ _
  unfold relPath
  rw [List.append_nil, List.append_nil, hrep, ← h]
  by_cases h0 : (slashed (List.replicate k (ascii ".."))).drop 1 = []
  · have hlen0 : ¬ ((slashed (List.replicate k (ascii ".."))).drop 1).length > 0 := by
      rw [h0]; simp
    rw [if_neg hlen0, if_pos h0, ascii_dotdot]
  · have hlen : ((slashed (List.replicate k (ascii ".."))).drop 1).length > 0 :=
      List.length_pos.2 h0
    rw [if_pos hlen, if_neg h0, ascii_dotdot]

theorem cleanLoop_relative (fuel : Nat) :
    ∀ (s : GoString) (tl : List GoString) (k : Nat) (stack : List GoString),
      (s ++ slashed tl).length ≤ fuel → (47 : Byte) ∉ s → (∀ x ∈ tl, (47 : Byte) ∉ x) →
      (∀ x ∈ stack, plainSegment x) →
      (cleanLoop false fuel
        { rest := s ++ slashed tl, out := relPath k stack,
          dotdot := (relPath k []).length }).out =
        relPath (resolveRel k stack (s :: tl)).1 (resolveRel k stack (s :: tl)).2 := by
  induction fuel with
  | zero =>
    intro s tl k stack hlen hs htl hst
    have h0 : s ++ slashed tl = [] := List.length_eq_zero.1 (Nat.le_zero.1 hlen)
    have hs0 : s = [] := (List.append_eq_nil.1 h0).1
    have ht0 : tl = [] := by
      cases tl with
      | nil => rfl
      | cons x xs => simp [slashed_cons] at h0
    subst hs0; subst ht0
    simp [cleanLoop, resolveRel]
  | succ n ih =>
    intro s tl k stack hlen hs htl hst
    cases s with
    | nil =>
      cases tl with
      | nil => simp [cleanLoop, resolveRel, slashed]
      | cons s' tl' =>
        have hstep : cleanLoop false (n + 1)
            { rest := [] ++ slashed (s' :: tl'), out := relPath k stack,
              dotdot := (relPath k []).length } =
            cleanLoop false n
              { rest := s' ++ slashed tl', out := relPath k stack,
                dotdot := (relPath k []).length } := by
          simp [cleanLoop, cleanStep, slashed_cons]
        rw [hstep, ih s' tl' k stack (by simp [slashed_cons] at hlen; simpa using hlen)
          (htl s' (by simp)) (fun x hx => htl x (by simp [hx])) hst]
        simp [resolveRel]
    | cons c t =>
      have hc : c ≠ 47 := fun h => hs (by simp [h])
      have ht : (47 : Byte) ∉ t := fun h => hs (by simp [h])
      have hlen' : (slashed tl).length ≤ n := by
        simp at hlen; omega
      by_cases hdot : c = 46 ∧ t = []
      · obtain ⟨rfl, rfl⟩ := hdot
        have hstep : cleanLoop false (n + 1)
            { rest := [46] ++ slashed tl, out := relPath k stack,
              dotdot := (relPath k []).length } =
            cleanLoop false n
              { rest := [] ++ slashed tl, out := relPath k stack,
                dotdot := (relPath k []).length } := by
          have := (slashed_tail_cond [] tl (by simp)).2 rfl
          simp only [List.nil_append] at this
          simp [cleanLoop, cleanStep, this]
        rw [hstep, ih [] tl k stack (by simpa using hlen') (by simp) htl hst]
        simp [resolveRel, ascii_dot]
      · by_cases hdd : c = 46 ∧ t = [46]
        · obtain ⟨rfl, rfl⟩ := hdd
          have h2 := (slashed_tail_cond [] tl (by simp)).2 rfl
          simp only [List.nil_append] at h2
          by_cases hstk : stack = []
          · subst hstk
            have hstep : cleanLoop false (n + 1)
                { rest := [46, 46] ++ slashed tl, out := relPath k [],
                  dotdot := (relPath k []).length } =
                cleanLoop false n
                  { rest := [] ++ slashed tl, out := relPath (k + 1) [],
                    dotdot := (relPath (k + 1) []).length } := by
              have hpd := relPath_push_dotdot k
              simp only [gt_iff_lt] at hpd
              simp [cleanLoop, cleanStep, h2, hpd]
            rw [hstep, ih [] tl (k + 1) [] (by simpa using hlen') (by simp) htl (by simp)]
            simp [resolveRel, ascii_dot, ascii_dotdot]
          · have hgt := (relPath_length_lt k stack hst).2 hstk
            have hstep : cleanLoop false (n + 1)
                { rest := [46, 46] ++ slashed tl, out := relPath k stack,
                  dotdot := (relPath k []).length } =
                cleanLoop false n
                  { rest := [] ++ slashed tl, out := relPath k stack.dropLast,
                    dotdot := (relPath k []).length } := by
              simp [cleanLoop, cleanStep, h2, hgt, relPath_pop k stack hst hstk]
            rw [hstep, ih [] tl k stack.dropLast (by simpa using hlen') (by simp) htl
              (fun x hx => hst x (List.dropLast_subset _ hx))]
            simp [resolveRel, ascii_dot, ascii_dotdot, hstk]
        · have hstep : cleanLoop false (n + 1)
              { rest := (c :: t) ++ slashed tl, out := relPath k stack,
                dotdot := (relPath k []).length } =
              cleanLoop false n
                { rest := [] ++ slashed tl, out := relPath k (stack ++ [c :: t]),
                  dotdot := (relPath k []).length } := by
            have h2 : ¬ (c = 46 ∧ (t ++ slashed tl = [] ∨
                (t ++ slashed tl).head? = some 47)) := by
              rw [slashed_tail_cond t tl ht]; exact hdot
            have h3 : ¬ (c = 46 ∧ (t ++ slashed tl).head? = some 46 ∧
                ((t ++ slashed tl).tail = [] ∨
                  (t ++ slashed tl).tail.head? = some 47)) := by
              rintro ⟨hc46, hh, htail⟩
              apply hdd
              refine ⟨hc46, ?_⟩
              cases t with
              | nil =>
                rcases slashed_head tl with h | ⟨r, h⟩ <;> simp [h] at hh
              | cons a t2 =>
                have ht2 : (47 : Byte) ∉ t2 := fun h => ht (by simp [h])
                simp only [List.cons_append, List.head?_cons, Option.some.injEq] at hh
                simp only [List.cons_append, List.tail_cons] at htail
                rw [slashed_tail_cond t2 tl ht2] at htail
                rw [hh, htail]
            have htw := takeWhile_ne_slash (c :: t) tl hs
            have hpush := relPath_push_real k stack (c :: t) hst
            simp only [List.cons_append] at htw
            simp only [cleanLoop, List.cons_append, cleanStep, if_neg hc, if_neg h2, if_neg h3]
            rw [htw.1, htw.2, if_neg (List.cons_ne_nil _ _)]
            simp only [Bool.false_eq_true, false_and, not_false_eq_true, true_and, false_or]
              at hpush ⊢
            rw [hpush, List.nil_append]
          rw [hstep, ih [] tl k (stack ++ [c :: t]) (by simpa using hlen') (by simp) htl
            (by
              intro x hx
              rcases List.mem_append.1 hx with h | h
              · exact hst x h
              · rw [List.mem_singleton.1 h]; exact ⟨by simp, hs⟩)]
          have e1 : ¬ (c :: t = [] ∨ c :: t = ascii ".") := by
            rw [ascii_dot]
            rintro (h | h)
            · cases h
            · exact hdot (by simpa using h)
          have e2 : ¬ (c :: t = ascii "..") := by
            rw [ascii_dotdot]
            intro h
            exact hdd (by simpa using h)
          simp only [resolveRel, if_neg e1, if_neg e2, true_or, if_true]

/-- `path.Clean` of a path that is not rooted is the relative path of the
leading `..` elements and the elements that `resolveRel` keeps of its
slash-separated segments, or `.` when there is none. -/
theorem Clean_relative (path : GoString) (hne : path ≠ []) (hrel : path.head? ≠ some 47) :
    Clean path =
      if (relPath (resolveRel 0 [] (path.splitOn 47)).1
          (resolveRel 0 [] (path.splitOn 47)).2).length = 0 then ascii "."
      else relPath (resolveRel 0 [] (path.splitOn 47)).1 (resolveRel 0 [] (path.splitOn 47)).2 := by
  have hx : [47].intercalate (path.splitOn 47) = path := List.intercalate_splitOn path 47
  have hmem := not_mem_of_mem_splitOn 47 path
  cases hsp : path.splitOn 47 with
  | nil => exact absurd hsp (List.splitOnP_ne_nil _ _)
  | cons s tl =>
    rw [hsp] at hx hmem
    rw [intercalate_cons_eq] at hx
    have hloop := cleanLoop_relative path.length s tl 0 [] (by rw [hx])
      (hmem s (by simp)) (fun y hy => hmem y (by simp [hy])) (by simp)
    rw [hx] at hloop
    have hrp : relPath 0 [] = [] := rfl
    rw [hrp] at hloop
    unfold Clean
    have hroot : (decide (path.head? = some 47)) = false := by simpa using hrel
    simp only [hne, if_false, hroot, Bool.false_eq_true, List.length_nil] at hloop ⊢
    rw [hloop]

theorem resolveSegments_append (a b : List GoString) :
    ∀ stack, resolveSegments stack (a ++ b) = resolveSegments (resolveSegments stack a) b := by
  induction a with
  | nil => intro stack; rfl
  | cons s t ih =>
    intro stack
    simp only [List.cons_append, resolveSegments]
    split_ifs <;> exact ih _

theorem resolveRel_append (a b : List GoString) :
    ∀ k stack, resolveRel k stack (a ++ b) =
      resolveRel (resolveRel k stack a).1 (resolveRel k stack a).2 b := by
  induction a with
  | nil => intro k stack; rfl
  | cons s t ih =>
    intro k stack
    simp only [List.cons_append, resolveRel]
    split_ifs <;> exact ih _ _

theorem resolveRel_plain (ss : List GoString) :
    ∀ (k : Nat) (stack : List GoString), (∀ x ∈ stack, plainSegment x) →
      (∀ x ∈ ss, (47 : Byte) ∉ x) → ∀ x ∈ (resolveRel k stack ss).2, plainSegment x := by
  induction ss with
  | nil => intro k stack hst _ x hx; exact hst x hx
  | cons s ss ih =>
    intro k stack hst hss x hx
    have hss' : ∀ x ∈ ss, (47 : Byte) ∉ x := fun y hy => hss y (by simp [hy])
    unfold resolveRel at hx
    by_cases h1 : s = [] ∨ s = ascii "."
    · rw [if_pos h1] at hx
      exact ih k stack hst hss' x hx
    · rw [if_neg h1] at hx
      by_cases h2 : s = ascii ".."
      · rw [if_pos h2] at hx
        by_cases h3 : stack = []
        · rw [if_pos h3] at hx
          exact ih _ _ (by simp) hss' x hx
        · rw [if_neg h3] at hx
          exact ih _ _ (fun y hy => hst y (List.dropLast_subset _ hy)) hss' x hx
      · rw [if_neg h2] at hx
        refine ih _ _ ?_ hss' x hx
        intro y hy
        rcases List.mem_append.1 hy with h | h
        · exact hst y h
        · rw [List.mem_singleton.1 h]
          exact ⟨fun h0 => h1 (Or.inl h0), hss s (by simp)⟩

theorem splitOn_append_sep (a b : GoString) :
    (a ++ 47 :: b).splitOn 47 = a.splitOn 47 ++ b.splitOn 47 := by
  induction a with
  | nil => simp [List.splitOn, List.splitOnP_cons]
  | cons c t ih =>
    simp only [List.splitOn] at ih ⊢
    rw [List.cons_append, List.splitOnP_cons, List.splitOnP_cons, ih]
    by_cases h : (c == (47 : Byte)) = true
    · simp [h]
    · simp only [h, if_false]
      cases hsp : List.splitOnP (fun x => x == (47 : Byte)) t with
      | nil => exact absurd hsp (List.splitOnP_ne_nil _ _)
      | cons x xs => simp

theorem rootedPath_append (a extra : List GoString) (ha : a ≠ []) (he : extra ≠ []) :
    ∃ r, rootedPath (a ++ extra) = rootedPath a ++ 47 :: r := by
  cases extra with
  | nil => exact absurd rfl he
  | cons e t =>
    refine ⟨e ++ slashed t, ?_⟩
    simp [rootedPath, ha, slashed_append, slashed_cons]

theorem resolveSegments_beneath (segs : List GoString) :
    ∀ base top : List GoString, staysBeneath top.length segs = true →
      resolveSegments (base ++ top) segs = base ++ resolveSegments top segs := by
  induction segs with
  | nil => intro base top _; rfl
  | cons s ss ih =>
    intro base top h
    unfold staysBeneath at h
    by_cases h1 : s = [] ∨ s = ascii "."
    · rw [if_pos h1] at h
      rw [resolveSegments, if_pos h1, resolveSegments, if_pos h1]
      exact ih base top h
    · rw [if_neg h1] at h
      by_cases h2 : s = ascii ".."
      · rw [if_pos h2] at h
        rw [resolveSegments, if_neg h1, if_pos h2, resolveSegments, if_neg h1, if_pos h2]
        cases htop : top.length with
        | zero => rw [htop] at h; simp at h
        | succ d =>
          rw [htop] at h
          have hne : top ≠ [] := by
            intro h0; rw [h0] at htop; simp at htop
          rw [List.dropLast_append_of_ne_nil _ hne]
          apply ih
          rw [List.length_dropLast, htop]
          exact h
      · rw [if_neg h2] at h
        rw [resolveSegments, if_neg h1, if_neg h2, resolveSegments, if_neg h1, if_neg h2,
          List.append_assoc]
        apply ih
        rw [List.length_append]
        exact h

theorem resolveRel_beneath (segs : List GoString) :
    ∀ (k : Nat) (base top : List GoString), staysBeneath top.length segs = true →
      resolveRel k (base ++ top) segs = (k, base ++ resolveSegments top segs) := by
  induction segs with
  | nil => intro k base top _; rfl
  | cons s ss ih =>
    intro k base top h
    unfold staysBeneath at h
    by_cases h1 : s = [] ∨ s = ascii "."
    · rw [if_pos h1] at h
      rw [resolveRel, if_pos h1, resolveSegments, if_pos h1]
      exact ih k base top h
    · rw [if_neg h1] at h
      by_cases h2 : s = ascii ".."
      · rw [if_pos h2] at h
        rw [resolveRel, if_neg h1, if_pos h2, resolveSegments, if_neg h1, if_pos h2]
        cases htop : top.length with
        | zero => rw [htop] at h; simp at h
        | succ d =>
          rw [htop] at h
          have hne : top ≠ [] := by
            intro h0; rw [h0] at htop; simp at htop
          have hne2 : base ++ top ≠ [] := by simp [hne]
          rw [if_neg hne2, List.dropLast_append_of_ne_nil _ hne]
          apply ih
          rw [List.length_dropLast, htop]
          exact h
      · rw [if_neg h2] at h
        rw [resolveRel, if_neg h1, if_neg h2, resolveSegments, if_neg h1, if_neg h2,
          List.append_assoc]
        apply ih
        rw [List.length_append]
        exact h

theorem staysBeneath_TrimPrefix (src : GoString) :
    staysBeneath 0 ((TrimPrefix src (ascii "/")).splitOn 47) =
      staysBeneath 0 (src.splitOn 47) := by
  cases src with
  | nil => rfl
  | cons c t =>
    by_cases hc : c = 47
    · subst hc
      have h1 : TrimPrefix (47 :: t) (ascii "/") = t := by
        rw [ascii_slash]
        simp [TrimPrefix, List.isPrefixOf]
      have h2 : ((47 : Byte) :: t).splitOn 47 = [] :: t.splitOn 47 := by
        simp [List.splitOn, List.splitOnP_cons]
      rw [h1, h2]
      conv_rhs => rw [staysBeneath, if_pos (Or.inl rfl)]
    · have h1 : TrimPrefix (c :: t) (ascii "/") = c :: t := by
        have : ((47 : Byte) == c) = false := by
          simpa using fun h : (47 : Byte) = c => hc h.symm
        rw [ascii_slash]
        simp [TrimPrefix, List.isPrefixOf, this]
      rw [h1]

/-- Joining a path `p` and a path `t` that never climbs above the directory it
starts from by a slash and cleaning the result gives the cleaned `p` or a path
beneath it. -/
theorem Clean_join_beneath (p t : GoString) (hp : p ≠ [])
    (ht : staysBeneath 0 (t.splitOn 47) = true) :
    Clean (p ++ 47 :: t) = Clean p ∨
    (Clean p ++ [47]) <+: Clean (p ++ 47 :: t) ∨
    (Clean p = ascii "/" ∧ (Clean (p ++ 47 :: t)).head? = some 47) ∨
    (Clean p = ascii "." ∧ (Clean (p ++ 47 :: t)).head? ≠ some 47 ∧
      ∀ s ∈ (Clean (p ++ 47 :: t)).splitOn 47, s ≠ ascii "..") := by
  have hgood : ∀ s ∈ resolveSegments [] (t.splitOn 47), goodSegment s :=
    resolveSegments_good _ [] (by simp) (not_mem_of_mem_splitOn 47 t)
  have hrs : ∀ base : List GoString, resolveSegments base (t.splitOn 47) =
      base ++ resolveSegments [] (t.splitOn 47) := by
    intro base
    have := resolveSegments_beneath (t.splitOn 47) base [] ht
    simpa using this
  have hrr : ∀ (k : Nat) (base : List GoString), resolveRel k base (t.splitOn 47) =
      (k, base ++ resolveSegments [] (t.splitOn 47)) := by
    intro k base
    have := resolveRel_beneath (t.splitOn 47) k base [] ht
    simpa using this
  generalize resolveSegments [] (t.splitOn 47) = extra at hgood hrs hrr
  cases p with
  | nil => exact absurd rfl hp
  | cons c x =>
    by_cases hc : c = 47
    · -- rooted
      subst hc
      have h1 : Clean (47 :: x) = rootedPath (resolveSegments [] (x.splitOn 47)) :=
        Clean_rooted x
      have h2 : Clean (47 :: x ++ 47 :: t) =
          rootedPath (resolveSegments [] (x.splitOn 47) ++ extra) := by
        rw [List.cons_append, Clean_rooted, splitOn_append_sep, resolveSegments_append, hrs]
      rw [h1, h2]
      by_cases he : extra = []
      · left; rw [he, List.append_nil]
      · right
        by_cases ha : resolveSegments [] (x.splitOn 47) = []
        · right; left
          rw [ha, List.nil_append]
          refine ⟨rfl, ?_⟩
          cases hr : extra with
          | nil => exact absurd hr he
          | cons e r => simp [rootedPath, slashed_cons]
        · left
          obtain ⟨r, hr⟩ := rootedPath_append _ _ ha he
          rw [hr]
          exact ⟨r, by simp⟩
    · -- not rooted
      have hrel : (c :: x).head? ≠ some 47 := by simpa using hc
      have hrel2 : (c :: x ++ 47 :: t).head? ≠ some 47 := by simpa using hc
      have h1 := Clean_relative (c :: x) (by simp) hrel
      have h2 := Clean_relative (c :: x ++ 47 :: t) (by simp) hrel2
      rw [splitOn_append_sep, resolveRel_append, hrr] at h2
      simp only at h2
      have hplain := resolveRel_plain ((c :: x).splitOn 47) 0 [] (by simp)
        (not_mem_of_mem_splitOn 47 _)
      generalize (resolveRel 0 [] ((c :: x).splitOn 47)).1 = k at h1 h2
      generalize (resolveRel 0 [] ((c :: x).splitOn 47)).2 = a at h1 h2 hplain
      by_cases he : extra = []
      · left
        rw [he, List.append_nil] at h2
        rw [h1, h2]
      · right
        have hextra_ne : ∀ y ∈ extra, y ≠ [] :=
          fun y hy => (hgood y hy).1
        by_cases hl : List.replicate k (ascii "..") ++ a = []
        · right; right
          have hk : k = 0 := by
            have := (List.append_eq_nil.1 hl).1
            cases k with
            | zero => rfl
            | succ n => simp [List.replicate_succ] at this
          have ha : a = [] := (List.append_eq_nil.1 hl).2
          subst hk; subst ha
          have hP : Clean (c :: x) = ascii "." := by
            rw [h1]; rfl
          have hres : relPath 0 ([] ++ extra) = [47].intercalate extra := by
            cases hr : extra with
            | nil => exact absurd hr he
            | cons e r => simp [relPath, intercalate_cons_eq, slashed_cons]
          have hne : relPath 0 ([] ++ extra) ≠ [] := by
            unfold relPath
            exact drop_one_slashed_ne_nil _ (by simpa using he) (by simpa using hextra_ne)
          have hlen : ¬ (relPath 0 ([] ++ extra)).length = 0 :=
            fun hz => hne (List.length_eq_zero.1 hz)
          rw [if_neg hlen, hres] at h2
          refine ⟨hP, ?_, ?_⟩
          · rw [h2]
            cases hr : extra with
            | nil => exact absurd hr he
            | cons e r =>
              have hge : goodSegment e := hgood e (by rw [hr]; simp)
              rw [intercalate_cons_eq]
              cases e with
              | nil => exact absurd rfl hge.1
              | cons b e' =>
                have hb : b ≠ 47 := fun h => hge.2.1 (by simp [h])
                simpa using hb
          · rw [h2, List.splitOn_intercalate _ _ (fun l hl => (hgood l hl).2.1) he]
            intro s hs
            exact (hgood s hs).2.2.2
        · left
          have hsplit : relPath k (a ++ extra) = relPath k a ++ slashed extra := by
            unfold relPath
            rw [← List.append_assoc, drop_one_slashed_append _ _ hl]
          have hane : relPath k a ≠ [] := by
            unfold relPath
            exact drop_one_slashed_ne_nil _ hl (relPath_members_ne_nil k a hplain)
          have hlen1 : ¬ (relPath k a).length = 0 := fun hz => hane (List.length_eq_zero.1 hz)
          have hlen2 : ¬ (relPath k (a ++ extra)).length = 0 := by
            rw [hsplit, List.length_append]
            have := List.length_pos.2 hane
            omega
          rw [if_neg hlen1] at h1
          rw [if_neg hlen2, hsplit] at h2
          rw [h1, h2]
          cases hr : extra with
          | nil => exact absurd hr he
          | cons e r =>
            rw [slashed_cons]
            exact ⟨e ++ slashed r, by simp⟩

/-- C20 (as stated, refuted): with the proxy base path /p and the source path
/../x the result path is /x, which is neither the cleaned /p nor has /p/ as a
prefix; and for source paths without "..", the prefix reading fails when the
cleaned proxy base path is "/" (proxy base path "//", source path /x, result
/x) or "." (proxy base path ".", source path /x, result x). -/
theorem ApplyProxyIfNeeded_dotdot_leaves_proxy_base :
    (ApplyProxyIfNeeded
        (fun _ => .ok { Scheme := ascii "https", Host := ascii "proxy.example",
                        Path := ascii "/p" })
        { Settings := { CustomProxy := true, ProxyServer := ascii "https://proxy.example/p" } }
        { Scheme := ascii "http", Host := ascii "backend", Path := ascii "/../x" } =
      .ok { Scheme := ascii "https", Host := ascii "proxy.example", Path := ascii "/x" } ∧
      Clean (ascii "/p") = ascii "/p" ∧ ascii "/x" ≠ ascii "/p" ∧
      ¬ ((ascii "/p" ++ ascii "/") <+: ascii "/x")) ∧
    (ApplyProxyIfNeeded
        (fun _ => .ok { Scheme := ascii "https", Host := ascii "proxy.example",
                        Path := ascii "//" })
        { Settings := { CustomProxy := true, ProxyServer := ascii "https://proxy.example//" } }
        { Scheme := ascii "http", Host := ascii "backend", Path := ascii "/x" } =
      .ok { Scheme := ascii "https", Host := ascii "proxy.example", Path := ascii "/x" } ∧
      Clean (ascii "//") = ascii "/" ∧ ascii "/x" ≠ ascii "/" ∧
      ¬ ((ascii "/" ++ ascii "/") <+: ascii "/x")) ∧
    (ApplyProxyIfNeeded (fun _ => .ok { Path := ascii "." })
        { Settings := { CustomProxy := true, ProxyServer := ascii "." } }
        { Scheme := ascii "http", Host := ascii "backend", Path := ascii "/x" } =
      .ok { Path := ascii "x" } ∧
      Clean (ascii ".") = ascii "." ∧ ascii "x" ≠ ascii "." ∧
      ¬ ((ascii "." ++ ascii "/") <+: ascii "x")) :=
  ⟨⟨rfl, by decide, by decide, by decide⟩, ⟨rfl, by decide, by decide, by decide⟩,
   ⟨rfl, by decide, by decide, by decide⟩⟩

/-- C20 (amended): when CustomProxy is true, the proxy base path P is neither
empty nor "/" and no ".." segment of the source path climbs above the root of
the source path (every ".." has an earlier segment of the source path to go up
from; "." segments and repeated slashes are allowed), the path of the URL that
ApplyProxyIfNeeded returns is the cleaned form of P itself or lies beneath it:
it has the cleaned P followed by "/" as a prefix, or the cleaned P is "/" and
the path begins with "/", or the cleaned P is "." and the path is a relative
path without ".." segment. -/
theorem ApplyProxyIfNeeded_path_beneath_proxy_base (parse : GoString → Except GoString URL)
    (policy : StoragePolicy) (srcUrl proxy : URL)
    (hCustom : policy.Settings.CustomProxy = true)
    (hParse : parse policy.Settings.ProxyServer = .ok proxy)
    (hNe : proxy.Path ≠ []) (hNotRoot : proxy.Path ≠ ascii "/")
    (hSrc : staysBeneath 0 (srcUrl.Path.splitOn 47) = true) :
    ∃ res, ApplyProxyIfNeeded parse policy srcUrl = .ok res ∧
      (res.Path = Clean proxy.Path ∨
       (Clean proxy.Path ++ ascii "/") <+: res.Path ∨
       (Clean proxy.Path = ascii "/" ∧ res.Path.head? = some 47) ∨
       (Clean proxy.Path = ascii "." ∧ res.Path.head? ≠ some 47 ∧
         ∀ s ∈ res.Path.splitOn 47, s ≠ ascii "..")) := by
  obtain ⟨res, hres, hpath⟩ := ApplyProxyIfNeeded_path parse policy srcUrl proxy hCustom hParse
  rw [if_pos ⟨hNe, hNotRoot⟩, Join_pair _ _ hNe] at hpath
  have hT : staysBeneath 0 ((TrimPrefix srcUrl.Path (ascii "/")).splitOn 47) = true := by
    rw [staysBeneath_TrimPrefix]
    exact hSrc
  have h := Clean_join_beneath proxy.Path (TrimPrefix srcUrl.Path (ascii "/")) hNe hT
  have hcat : proxy.Path ++ ascii "/" ++ TrimPrefix srcUrl.Path (ascii "/") =
      proxy.Path ++ 47 :: TrimPrefix srcUrl.Path (ascii "/") := by
    rw [ascii_slash]; simp
  rw [hcat] at hpath
  rw [← hpath] at h
  refine ⟨res, hres, ?_⟩
  rw [ascii_slash]
  exact h

/-- C20 (amended) at the proxy base path /p and the source path
/a/../x/./y//b/c/../../z, whose ".." segments go up from segments of the source
path itself: the result path /p/x/y/z is beneath /p. -/
theorem ApplyProxyIfNeeded_path_beneath_proxy_base_witness :
    ApplyProxyIfNeeded
        (fun _ => .ok { Scheme := ascii "https", Host := ascii "proxy.example",
                        Path := ascii "/p" })
        { Settings := { CustomProxy := true, ProxyServer := ascii "https://proxy.example/p" } }
        { Scheme := ascii "http", Host := ascii "backend",
          Path := ascii "/a/../x/./y//b/c/../../z" } =
      .ok { Scheme := ascii "https", Host := ascii "proxy.example", Path := ascii "/p/x/y/z" } ∧
    ∃ res, ApplyProxyIfNeeded
        (fun _ => .ok { Scheme := ascii "https", Host := ascii "proxy.example",
                        Path := ascii "/p" })
        { Settings := { CustomProxy := true, ProxyServer := ascii "https://proxy.example/p" } }
        { Scheme := ascii "http", Host := ascii "backend",
          Path := ascii "/a/../x/./y//b/c/../../z" } =
        .ok res ∧
      (res.Path = Clean (ascii "/p") ∨
       (Clean (ascii "/p") ++ ascii "/") <+: res.Path ∨
       (Clean (ascii "/p") = ascii "/" ∧ res.Path.head? = some 47) ∨
       (Clean (ascii "/p") = ascii "." ∧ res.Path.head? ≠ some 47 ∧
         ∀ s ∈ res.Path.splitOn 47, s ≠ ascii "..")) :=
  ⟨rfl,
   ApplyProxyIfNeeded_path_beneath_proxy_base
    (fun _ => .ok { Scheme := ascii "https", Host := ascii "proxy.example",
                    Path := ascii "/p" })
    { Settings := { CustomProxy := true, ProxyServer := ascii "https://proxy.example/p" } }
    { Scheme := ascii "http", Host := ascii "backend",
      Path := ascii "/a/../x/./y//b/c/../../z" }
    { Scheme := ascii "https", Host := ascii "proxy.example", Path := ascii "/p" }
    rfl rfl (by decide) (by decide) (by decide)⟩

end Cloudreve
